import Mathlib

/-!
# gstl::basic_string

A shallow embedding of `gstl/detail/char_traits.hpp` and
`gstl/detail/basic_string.hpp`, with the insertion primitive of the
near-duplicate `gstl/detail/string.hpp`, and the verification of their
contracts.

Modelling conventions.

* Raw memory is a total map from addresses to character cells; a pointer or
  iterator is an address (`iterator` is `char*` in the source).
* `alloc_.address(p)` is the identity (raw pointers), so `my_str()` is `str_`.
* `alloc_.allocate(n)` is the external allocator.  Every operation that may
  allocate takes the allocator's answer as a function `alloc`: `alloc n` is
  the address of the block handed out for a request of `n` cells, or `none`
  when the allocator throws.  `alloc_.deallocate` does not touch any cell.
* Exceptions are values of `Exn`. A `const` operation that may throw returns
  `Except Exn _`; a mutating one returns `Except (Thrown C) _`, the error
  carrying the exception together with the memory and the fields of the
  receiver as they are at the throw.
* `size_type` values are natural numbers; `npos` is the largest `size_type`
  value (64 bit). The definitions whose name ends in `_w` take the number of
  bits of `size_type` as a parameter and reduce the `size_type` values modulo
  `2^w`; they are the insertion path where the wrap-around matters. Unsigned wrap-around is modelled where the source relies on
  it, in the difference that `compare` returns (`size_type_sub`); every other
  difference is only used where the source guards it, and the theorems take
  the lengths involved to be representable.
* `int` is taken as the 32-bit two's complement type: `to_int` is the
  conversion of a `size_type` value to `int`.
* `alloc_.max_size()` and the rounding helper `floor( n, min_buff_size )` of
  `reserve`, which are not among the sources, are parameters of the operations
  that use them; the null pointer is the address 0.
* A loop `while( n-- )` is a recursion on `n`. The loop of `find` carries an
  explicit bound on its number of iterations and returns `none` when the bound
  is exhausted; `find_loop_spec` proves that it never is.
-/

namespace gstl

/-! ## Memory -/

/-- Raw memory: one character cell per address. -/
abbrev Mem (C : Type) := Nat → C

/-- The store `*a = v`. -/
def Mem.write {C : Type} (m : Mem C) (a : Nat) (v : C) : Mem C :=
  fun x => if x = a then v else m x

/-- The `n` cells `m[a], ..., m[a+n-1]`, as a list. -/
def Mem.read {C : Type} (m : Mem C) (a n : Nat) : List C :=
  (List.range n).map (fun i => m (a + i))

/-- The cell ranges `[a, a+n)` and `[b, b+k)` have no cell in common. -/
abbrev disjoint (a n b k : Nat) : Prop :=
  n = 0 ∨ k = 0 ∨ a + n ≤ b ∨ b + k ≤ a

/-- The exceptions thrown by the string operations and by the allocator. -/
inductive Exn where
  | out_of_range
  | length_error
  | bad_alloc
deriving DecidableEq, Repr

/-- The fields of `detail::string_base`; the allocator `alloc_` is external. -/
structure string_base where
  str_ : Nat
  size_ : Nat
  reserved_ : Nat
deriving DecidableEq, Repr

/-- An exception thrown by a mutating operation, with the memory and the
fields of the receiver at the throw. -/
abbrev Thrown (C : Type) := Exn × Mem C × string_base

/-- The value `static_cast<size_type>( -1 )`, for a 64-bit `size_type`. -/
def npos : Nat := 2 ^ 64 - 1

/-- The difference `a - b` of two `size_type` values: unsigned arithmetic,
modulo `npos + 1`. -/
def size_type_sub (a b : Nat) : Nat :=
  (a % (npos + 1) + (npos + 1) - b % (npos + 1)) % (npos + 1)

/-- The conversion of a `size_type` value to `int`, taken as the 32-bit two's
complement type: the value modulo `2^32`, read as a signed number. -/
def to_int (x : Nat) : Int :=
  if x % 2 ^ 32 < 2 ^ 31 then ((x % 2 ^ 32 : Nat) : Int)
  else ((x % 2 ^ 32 : Nat) : Int) - 2 ^ 32

/-- The value `static_cast<size_type>( -1 )` for a `size_type` of `w` bits.
The type `size_type` is `allocator_type::size_type`, so its width is the
allocator's choice. -/
def npos_w (w : Nat) : Nat := 2 ^ w - 1

/-- The conversion of a value to a `size_type` of `w` bits: the value modulo
`2^w`. -/
def to_size_type (w x : Nat) : Nat := x % 2 ^ w

/-- The value-initialised character `char_type()` of type `char`. -/
instance : Zero Char := ⟨Char.ofNat 0⟩

/-! ## char_traits (gstl/detail/char_traits.hpp) -/

namespace char_traits

variable {C : Type}

/-- `char_traits::eq`. -/
def eq [DecidableEq C] (c d : C) : Bool := decide (c = d)

/-- `char_traits::lt`. -/
def lt [LT C] [DecidableRel (fun (a b : C) => a < b)] (c d : C) : Bool := decide (c < d)

/-- `char_traits::compare( s1, s2, n )`: the loop `while( n-- )`. -/
def compare [DecidableEq C] [LT C] [DecidableRel (fun (a b : C) => a < b)]
    (m : Mem C) (s1 s2 n : Nat) : Int :=
  match n with
  | 0 => 0
  | k + 1 =>
    if !eq (m s1) (m s2) then
      if lt (m s1) (m s2) then -1 else 1
    else compare m (s1 + 1) (s2 + 1) k

/-- `char_traits::find( s, n, a )`: the address of the first cell of
`[s, s+n)` equal to `a`, `none` for the null pointer. -/
def find [DecidableEq C] (m : Mem C) (s n : Nat) (a : C) : Option Nat :=
  match n with
  | 0 => none
  | k + 1 => if eq (m s) a then some s else find m (s + 1) k a

/-- `char_traits::check_overlap( first1, last1, first2, last2 )`. -/
def check_overlap (first1 last1 first2 last2 : Nat) : Int :=
  if first1 ≤ first2 then
    if last1 > first2 then -1 else 0
  else
    if first1 < last2 then 1 else 0

/-- `char_traits::check_overlap( s1, s2, n )`. -/
def check_overlap_n (s1 s2 n : Nat) : Int :=
  check_overlap s1 (s1 + n) s2 (s2 + n)

/-- The backward loop of `move`: `while( n-- ) assign( *--dst_end, *--src_end )`. -/
def move_backward (m : Mem C) (dst_end src_end n : Nat) : Mem C :=
  match n with
  | 0 => m
  | k + 1 => move_backward (m.write (dst_end - 1) (m (src_end - 1))) (dst_end - 1) (src_end - 1) k

/-- The forward loop of `move`: `while( n-- ) assign( *dst++, *src++ )`. -/
def move_forward (m : Mem C) (dst src n : Nat) : Mem C :=
  match n with
  | 0 => m
  | k + 1 => move_forward (m.write dst (m src)) (dst + 1) (src + 1) k

/-- `char_traits::move( dst, src, n )`; the returned pointer is `dst`. -/
def move (m : Mem C) (dst src n : Nat) : Mem C :=
  if check_overlap_n src dst n = -1 then
    move_backward m (dst + n) (src + n) n
  else
    move_forward m dst src n

/-- `char_traits::copy( s1, s2, n )`. -/
def copy (m : Mem C) (s1 s2 n : Nat) : Mem C :=
  move m s1 s2 n

/-- `char_traits::assign( s, n, a )`: the loop `while( n-- ) assign( *s++, a )`. -/
def assign (m : Mem C) (s n : Nat) (a : C) : Mem C :=
  match n with
  | 0 => m
  | k + 1 => assign (m.write s a) (s + 1) k a

end char_traits

/-- Modelled from the spec: `gstl::copy( first, last, result )` of
`<gstl/algorithm>`, which is not among the sources. It is the writer that fills
the inserted cells: it copies the cells of `[first, last)` to `result`, front to
back. -/
def copy {C : Type} (m : Mem C) (first last result : Nat) : Mem C :=
  char_traits.move_forward m result first (last - first)

/-! ## string_base (gstl/detail/basic_string.hpp): member functions -/

namespace string_base

variable {C : Type}

/-- `string_base::my_str()`. -/
def my_str (s : string_base) : Nat := s.str_

/-- `string_base::set_end( n )`. -/
def set_end [Zero C] (m : Mem C) (s : string_base) (n : Nat) : Mem C × string_base :=
  (m.write (s.str_ + n) 0, { s with size_ := n })

/-- `string_base::reset_ptr( new_str, new_size, new_reserved )`. -/
def reset_ptr [Zero C] (m : Mem C) (s : string_base) (new_str new_size new_reserved : Nat) :
    Mem C × string_base :=
  if new_str ≠ s.str_ then
    set_end m { s with str_ := new_str, reserved_ := new_reserved } new_size
  else
    set_end m s new_size

/-- The constant `min_buff_size` of `enum{ min_buff_size = 4 }`. -/
def min_buff_size : Nat := 4

/-- The null pointer `ptr_traits::null_ptr`: the address 0. -/
def null_ptr : Nat := 0

/-- `string_base::max_size()`; `alloc_max_size` is the value of
`alloc_.max_size()`. -/
def max_size (alloc_max_size : Nat) : Nat :=
  if alloc_max_size ≤ 1 then 1 else alloc_max_size - 1

/-- `string_base::reserve( n )`. The rounding helper `floor( n, min_buff_size )`
is not among the sources: it is the parameter `floor`. The test
`ptr_traits::is_null( str_ )` is `str_ = null_ptr`. -/
def reserve [Zero C] (floor : Nat → Nat → Nat) (alloc_max_size : Nat)
    (alloc : Nat → Option Nat) (m : Mem C) (s : string_base) (n : Nat) :
    Except (Thrown C) (Mem C × string_base) :=
  if n ≥ max_size alloc_max_size then .error (.length_error, m, s)
  else if n > s.reserved_ then
    match alloc (floor n min_buff_size) with
    | none => .error (.bad_alloc, m, s)
    | some new_str =>
      let m1 := if s.str_ ≠ null_ptr then char_traits.move m new_str s.my_str s.size_ else m
      .ok (reset_ptr m1 s new_str s.size_ (floor n min_buff_size))
  else
    .ok (m, s)

/-- The constructor `string_base( alloc )`: null `str_`, `size_` and
`reserved_` 0, then `reserve( min_buff_size )`. An error carries the fields of
the object under construction. -/
def ctor [Zero C] (floor : Nat → Nat → Nat) (alloc_max_size : Nat)
    (alloc : Nat → Option Nat) (m : Mem C) : Except (Thrown C) (Mem C × string_base) :=
  reserve floor alloc_max_size alloc m ⟨null_ptr, 0, 0⟩ min_buff_size

end string_base

/-! ## basic_string (gstl/detail/basic_string.hpp) -/

namespace basic_string

variable {C : Type}

/-- `basic_string::begin()`. -/
def begin_ (s : string_base) : Nat := s.my_str

/-- `basic_string::end()`. -/
def end_ (s : string_base) : Nat := begin_ s + s.size_

/-- `basic_string::size()`. -/
def size (s : string_base) : Nat := s.size_

/-- `basic_string::capacity()`. -/
def capacity (s : string_base) : Nat := s.reserved_

/-- The characters of the string: the cells `[begin(), end())`. -/
def content (m : Mem C) (s : string_base) : List C := m.read s.str_ s.size_

/-- `basic_string::verify_pos( pos, str )`. -/
def verify_pos (pos : Nat) (str : string_base) : Except Exn Unit :=
  if pos > size str then .error .out_of_range else .ok ()

/-- `basic_string::validate_pos_and_off( pos, str, n )`. -/
def validate_pos_and_off (pos : Nat) (str : string_base) (n : Nat) : Except Exn Nat :=
  match verify_pos pos str with
  | .error e => .error e
  | .ok _ => .ok (min n (size str - pos))

/-- `basic_string::check_overlap( const char_type* first, const char_type* last )`. -/
def check_overlap (s : string_base) (first last : Nat) : Bool :=
  char_traits.check_overlap (begin_ s) (end_ s) first last != 0

/-- `basic_string::do_replace( i1, i2, xlen, put_new_fn, overlaped )`.
The writer `put_new_fn` receives the memory and the address `new_i1`. The
result is the new memory, the new fields and the returned iterator `res`. -/
def do_replace [Zero C] (alloc : Nat → Option Nat) (m : Mem C) (s : string_base)
    (i1 i2 xlen : Nat) (put_new_fn : Mem C → Nat → Mem C) (overlaped : Bool) :
    Except (Thrown C) (Mem C × string_base × Nat) :=
  let pos1 := i1 - begin_ s
  let pos2 := i2 - begin_ s
  let removed_size := i2 - i1
  let new_size := size s + xlen - removed_size
  let new_buf : Option (Mem C × Nat) :=
    if new_size ≥ s.reserved_ || overlaped then
      match alloc (new_size + 1) with
      | none => none
      | some new_str => some (char_traits.move m new_str s.my_str pos1, new_str)
    else
      some (m, s.str_)
  match new_buf with
  | none => .error (.bad_alloc, m, s)
  | some (m1, new_str) =>
    let new_i1 := new_str + pos1
    let res := new_i1 + xlen
    let m2 := char_traits.move m1 res (s.my_str + pos2) (size s - pos2)
    let m3 := put_new_fn m2 new_i1
    let r := string_base.reset_ptr m3 s new_str new_size (new_size + 1)
    .ok (r.1, r.2, res)

/-- `basic_string::replace( iterator first, iterator last, InputIterator first2,
InputIterator last2 )` for `InputIterator = const char_type*`, for which
`gstl::distance( first2, last2 )` is `last2 - first2` and `check_overlap` is the
overload on `const char_type*`. The returned `*this` is the new memory and the
new fields. -/
def replace_range [Zero C] (alloc : Nat → Option Nat) (m : Mem C) (s : string_base)
    (first last first2 last2 : Nat) : Except (Thrown C) (Mem C × string_base) :=
  let xlen := last2 - first2
  match do_replace alloc m s first last xlen (fun mem new_i1 => copy mem first2 last2 new_i1)
      (check_overlap s first2 last2) with
  | .error e => .error e
  | .ok r => .ok (r.1, r.2.1)

/-- `basic_string::insert( iterator p, InputIterator first, InputIterator last )`. -/
def insert_range [Zero C] (alloc : Nat → Option Nat) (m : Mem C) (s : string_base)
    (p first last : Nat) : Except (Thrown C) (Mem C × string_base) :=
  replace_range alloc m s p p first last

/-- `basic_string::insert( iterator p, size_type n, char_type c )`. -/
def insert_fill_at [Zero C] (alloc : Nat → Option Nat) (m : Mem C) (s : string_base)
    (p n : Nat) (c : C) : Except (Thrown C) (Mem C × string_base × Nat) :=
  do_replace alloc m s p p n (fun mem new_i1 => char_traits.assign mem new_i1 n c) false

/-- `basic_string::insert( iterator p, char_type c )`. -/
def insert_char_at [Zero C] (alloc : Nat → Option Nat) (m : Mem C) (s : string_base)
    (p : Nat) (c : C) : Except (Thrown C) (Mem C × string_base × Nat) :=
  insert_fill_at alloc m s p 1 c

/-- `basic_string::insert( size_type pos, const char_type* s, size_type n )`;
the character sequence is the `n` cells at address `sp`. -/
def insert [Zero C] (alloc : Nat → Option Nat) (m : Mem C) (s : string_base)
    (pos sp n : Nat) : Except (Thrown C) (Mem C × string_base) :=
  match verify_pos pos s with
  | .error e => .error (e, m, s)
  | .ok _ => insert_range alloc m s (begin_ s + pos) sp (sp + n)

/-- `basic_string::insert( size_type pos1, const basic_string& str, size_type pos2,
size_type n )`. -/
def insert_str [Zero C] (alloc : Nat → Option Nat) (m : Mem C) (s : string_base)
    (pos1 : Nat) (str : string_base) (pos2 n : Nat) : Except (Thrown C) (Mem C × string_base) :=
  match verify_pos pos1 s with
  | .error e => .error (e, m, s)
  | .ok _ =>
    match validate_pos_and_off pos2 str n with
    | .error e => .error (e, m, s)
    | .ok rlen =>
      if size s > npos - rlen then .error (.length_error, m, s)
      else insert_range alloc m s (begin_ s + pos1) (begin_ str + pos2) (begin_ str + pos2 + rlen)

/-- `basic_string::append( const basic_string& str, size_type pos, size_type n )`. -/
def append_str_range [Zero C] (alloc : Nat → Option Nat) (m : Mem C) (s : string_base)
    (str : string_base) (pos n : Nat) : Except (Thrown C) (Mem C × string_base) :=
  match validate_pos_and_off pos str n with
  | .error e => .error (e, m, s)
  | .ok rlen => insert_range alloc m s (end_ s) (begin_ str + pos) (begin_ str + pos + rlen)

/-- `basic_string::append( const basic_string& str )`. -/
def append_str [Zero C] (alloc : Nat → Option Nat) (m : Mem C) (s : string_base)
    (str : string_base) : Except (Thrown C) (Mem C × string_base) :=
  append_str_range alloc m s str 0 npos

/-- `basic_string::append( const char_type* s, size_type n )`. -/
def append [Zero C] (alloc : Nat → Option Nat) (m : Mem C) (s : string_base)
    (sp n : Nat) : Except (Thrown C) (Mem C × string_base) :=
  insert_range alloc m s (end_ s) sp (sp + n)

/-- `basic_string::push_back( char_type c )`. -/
def push_back [Zero C] (alloc : Nat → Option Nat) (m : Mem C) (s : string_base)
    (c : C) : Except (Thrown C) (Mem C × string_base) :=
  match insert_char_at alloc m s (end_ s) c with
  | .error e => .error e
  | .ok r => .ok (r.1, r.2.1)

/-- `basic_string::erase( iterator first, iterator last )`; the result carries
the returned iterator. -/
def erase_range [Zero C] (m : Mem C) (s : string_base) (first last : Nat) :
    Mem C × string_base × Nat :=
  if first ≠ last then
    let m1 := char_traits.copy m first last (end_ s - last)
    let r := string_base.set_end m1 s (size s - (last - first))
    (r.1, r.2, last)
  else
    (m, s, last)

/-- `basic_string::erase( size_type pos, size_type n )`. -/
def erase [Zero C] (m : Mem C) (s : string_base) (pos n : Nat) :
    Except (Thrown C) (Mem C × string_base) :=
  if pos > size s then .error (.out_of_range, m, s)
  else
    let first := begin_ s + pos
    let last := first + min n (size s - pos)
    let r := erase_range m s first last
    .ok (r.1, r.2.1)

/-- `basic_string::replace( size_type pos, size_type n1, const char_type* s,
size_type n2 )`. -/
def replace [Zero C] (alloc : Nat → Option Nat) (m : Mem C) (s : string_base)
    (pos n1 sp n2 : Nat) : Except (Thrown C) (Mem C × string_base) :=
  match validate_pos_and_off pos s n1 with
  | .error e => .error (e, m, s)
  | .ok xlen => replace_range alloc m s (begin_ s + pos) (begin_ s + pos + xlen) sp (sp + n2)

/-- The loop of `basic_string::find( s, pos, n )`:
`while( ( fres_str = char_traits_type::find( my_sub_str, sub_size, *s ) ) != 0 )`.
The loop runs at most `fuel + 1` times; the result is `none` only when this
bound is exhausted. -/
def find_loop [DecidableEq C] [LT C] [DecidableRel (fun (a b : C) => a < b)]
    (m : Mem C) (s : string_base) (sp n : Nat) (fuel my_sub_str sub_size : Nat) : Option Nat :=
  match char_traits.find m my_sub_str sub_size (m sp) with
  | none => some npos
  | some fres_str =>
    if char_traits.compare m fres_str sp n = 0 then
      some (fres_str - s.my_str)
    else
      match fuel with
      | 0 => none
      | k + 1 => find_loop m s sp n k (fres_str + 1) (sub_size - (fres_str - my_sub_str + 1))

/-- `basic_string::find( const char_type* s, size_type pos, size_type n )`; the
needle is the `n` cells at address `sp`. The loop bound given to `find_loop` is
the number of cells left to search, which the loop never exhausts
(`find_loop_spec`). The difference `size_ - pos` is only used when
`pos < size_`. -/
def find [DecidableEq C] [LT C] [DecidableRel (fun (a b : C) => a < b)]
    (m : Mem C) (s : string_base) (sp pos n : Nat) : Option Nat :=
  if n = 0 then
    some (if pos < s.size_ then pos else npos)
  else
    let sub_size := s.size_ - pos
    if pos < s.size_ ∧ n ≤ sub_size then
      find_loop m s sp n (sub_size - (n - 1)) (s.my_str + pos) (sub_size - (n - 1))
    else
      some npos

/-- The loop of `basic_string::rfind( s, pos, n )`: `for( ;; --fres_str )`, with
`fres_str = my_str() + k`. -/
def rfind_loop [DecidableEq C] [LT C] [DecidableRel (fun (a b : C) => a < b)]
    (m : Mem C) (s : string_base) (sp n : Nat) (k : Nat) : Nat :=
  if char_traits.eq (m (s.my_str + k)) (m sp)
      && char_traits.compare m (s.my_str + k) sp n == 0 then
    k
  else
    match k with
    | 0 => npos
    | j + 1 => rfind_loop m s sp n j

/-- `basic_string::rfind( const char_type* s, size_type pos, size_type n )`. -/
def rfind [DecidableEq C] [LT C] [DecidableRel (fun (a b : C) => a < b)]
    (m : Mem C) (s : string_base) (sp pos n : Nat) : Nat :=
  if n = 0 then
    if pos < s.size_ then pos else npos
  else if n ≤ s.size_ then
    rfind_loop m s sp n (min pos (s.size_ - n))
  else
    npos

/-- `basic_string::data()`. -/
def data (s : string_base) : Nat := s.my_str

/-- `basic_string::c_str()`. -/
def c_str (s : string_base) : Nat := s.my_str

/-- The loop of `find_first_of`:
`for( curr_pos = my_str() + pos; curr_pos < my_end; ++curr_pos )`, with
`curr_pos = my_str() + k` and `cnt = my_end - curr_pos`. -/
def find_first_of_loop [DecidableEq C] (m : Mem C) (s : string_base) (sp n : Nat)
    (k cnt : Nat) : Nat :=
  match cnt with
  | 0 => npos
  | c + 1 =>
    if (char_traits.find m sp n (m (s.my_str + k))).isSome then k
    else find_first_of_loop m s sp n (k + 1) c

/-- `basic_string::find_first_of( const char_type* s, size_type pos, size_type n )`;
the character set is the `n` cells at `sp`. -/
def find_first_of [DecidableEq C] (m : Mem C) (s : string_base) (sp pos n : Nat) : Nat :=
  if n > 0 ∧ pos < s.size_ then
    find_first_of_loop m s sp n pos (s.size_ - pos)
  else
    npos

/-- The loop of `find_last_of`: `for( ;; --curr_pos )`, with
`curr_pos = my_str() + k`. -/
def find_last_of_loop [DecidableEq C] (m : Mem C) (s : string_base) (sp n : Nat)
    (k : Nat) : Nat :=
  if (char_traits.find m sp n (m (s.my_str + k))).isSome then k
  else
    match k with
    | 0 => npos
    | j + 1 => find_last_of_loop m s sp n j

/-- `basic_string::find_last_of( const char_type* s, size_type pos, size_type n )`. -/
def find_last_of [DecidableEq C] (m : Mem C) (s : string_base) (sp pos n : Nat) : Nat :=
  if n > 0 ∧ s.size_ ≠ 0 then
    find_last_of_loop m s sp n (min pos (s.size_ - 1))
  else
    npos

/-- The loop of `find_first_not_of`, as for `find_first_of` with the test
`char_traits_type::find( s, n, *curr_pos ) == 0`. -/
def find_first_not_of_loop [DecidableEq C] (m : Mem C) (s : string_base) (sp n : Nat)
    (k cnt : Nat) : Nat :=
  match cnt with
  | 0 => npos
  | c + 1 =>
    if (char_traits.find m sp n (m (s.my_str + k))).isNone then k
    else find_first_not_of_loop m s sp n (k + 1) c

/-- `basic_string::find_first_not_of( const char_type* s, size_type pos, size_type n )`. -/
def find_first_not_of [DecidableEq C] (m : Mem C) (s : string_base) (sp pos n : Nat) : Nat :=
  if n > 0 ∧ pos < s.size_ then
    find_first_not_of_loop m s sp n pos (s.size_ - pos)
  else
    npos

/-- The loop of `find_last_not_of`, as for `find_last_of` with the test
`char_traits_type::find( s, n, *curr_pos ) == 0`. -/
def find_last_not_of_loop [DecidableEq C] (m : Mem C) (s : string_base) (sp n : Nat)
    (k : Nat) : Nat :=
  if (char_traits.find m sp n (m (s.my_str + k))).isNone then k
  else
    match k with
    | 0 => npos
    | j + 1 => find_last_not_of_loop m s sp n j

/-- `basic_string::find_last_not_of( const char_type* s, size_type pos, size_type n )`. -/
def find_last_not_of [DecidableEq C] (m : Mem C) (s : string_base) (sp pos n : Nat) : Nat :=
  if n > 0 ∧ s.size_ ≠ 0 then
    find_last_not_of_loop m s sp n (min pos (s.size_ - 1))
  else
    npos

/-- `basic_string::compare( size_type pos1, size_type n1, const char_type* s,
size_type n2 )`. The result `len1 - n2` is a `size_type` difference converted to
`int`. -/
def compare_cstr [DecidableEq C] [LT C] [DecidableRel (fun (a b : C) => a < b)]
    (m : Mem C) (s : string_base) (pos1 n1 sp n2 : Nat) : Except Exn Int :=
  match validate_pos_and_off pos1 s n1 with
  | .error e => .error e
  | .ok len1 =>
    let rlen := min len1 n2
    let cmp_res := char_traits.compare m (data s + pos1) sp rlen
    if cmp_res = 0 then .ok (to_int (size_type_sub len1 n2))
    else .ok cmp_res

/-- `basic_string::compare( size_type pos1, size_type n1, const basic_string& str,
size_type pos2, size_type n2 )`. -/
def compare_str_range [DecidableEq C] [LT C] [DecidableRel (fun (a b : C) => a < b)]
    (m : Mem C) (s : string_base) (pos1 n1 : Nat) (str : string_base) (pos2 n2 : Nat) :
    Except Exn Int :=
  match verify_pos pos2 str with
  | .error e => .error e
  | .ok _ => compare_cstr m s pos1 n1 (c_str str + pos2) n2

/-- `basic_string::compare( const basic_string& str )`. -/
def compare [DecidableEq C] [LT C] [DecidableRel (fun (a b : C) => a < b)]
    (m : Mem C) (s : string_base) (str : string_base) : Except Exn Int :=
  compare_str_range m s 0 (size s) str 0 (size str)

/-- `basic_string::assign( const char_type* s, size_type n )`: `set_end( 0 )`,
then `insert( 0, s, n )`. -/
def assign [Zero C] (alloc : Nat → Option Nat) (m : Mem C) (s : string_base)
    (sp n : Nat) : Except (Thrown C) (Mem C × string_base) :=
  let r := string_base.set_end m s 0
  insert alloc r.1 r.2 0 sp n

/-- `basic_string::assign( InputIterator first, InputIterator last )`:
`set_end( 0 )`, then `insert( begin(), first, last )`. -/
def assign_range [Zero C] (alloc : Nat → Option Nat) (m : Mem C) (s : string_base)
    (first last : Nat) : Except (Thrown C) (Mem C × string_base) :=
  let r := string_base.set_end m s 0
  insert_range alloc r.1 r.2 (begin_ r.2) first last

/-- `basic_string::assign( const basic_string& str, size_type pos, size_type n )`. -/
def assign_str_range [Zero C] (alloc : Nat → Option Nat) (m : Mem C) (s : string_base)
    (str : string_base) (pos n : Nat) : Except (Thrown C) (Mem C × string_base) :=
  match validate_pos_and_off pos str n with
  | .error e => .error (e, m, s)
  | .ok rlen => assign_range alloc m s (begin_ str + pos) (begin_ str + pos + rlen)

/-- The constructor `basic_string( const basic_string& str, size_type pos,
size_type n, const allocator_type& alloc )`: the base constructor, whose
allocation is answered by `alloc0`, then `assign( str, pos, n )`, whose
allocation is answered by `alloc`. An error carries the fields of the object
under construction. -/
def ctor_str_range [Zero C] (floor : Nat → Nat → Nat) (alloc_max_size : Nat)
    (alloc0 alloc : Nat → Option Nat) (m : Mem C) (str : string_base) (pos n : Nat) :
    Except (Thrown C) (Mem C × string_base) :=
  match string_base.ctor floor alloc_max_size alloc0 m with
  | .error e => .error e
  | .ok r => assign_str_range alloc r.1 r.2 str pos n

/-- `basic_string::substr( size_type pos, size_type n )`: the new string
`basic_string( *this, pos, n, alloc_ )`. -/
def substr [Zero C] (floor : Nat → Nat → Nat) (alloc_max_size : Nat)
    (alloc0 alloc : Nat → Option Nat) (m : Mem C) (s : string_base) (pos n : Nat) :
    Except (Thrown C) (Mem C × string_base) :=
  ctor_str_range floor alloc_max_size alloc0 alloc m s pos n

/-- `basic_string::resize( size_type n, char_type c )`. -/
def resize [Zero C] (floor : Nat → Nat → Nat) (alloc_max_size : Nat)
    (alloc : Nat → Option Nat) (m : Mem C) (s : string_base) (n : Nat) (c : C) :
    Except (Thrown C) (Mem C × string_base) :=
  if n > s.size_ then
    match string_base.reserve floor alloc_max_size alloc m s n with
    | .error e => .error e
    | .ok r =>
      let m1 := char_traits.assign r.1 (r.2.my_str + r.2.size_) (n - r.2.size_) c
      .ok (string_base.set_end m1 r.2 n)
  else
    .ok (string_base.set_end m s n)

/-- The default constructor `basic_string( const allocator_type& alloc )`: the
base constructor and nothing else. -/
def ctor [Zero C] (floor : Nat → Nat → Nat) (alloc_max_size : Nat)
    (alloc0 : Nat → Option Nat) (m : Mem C) : Except (Thrown C) (Mem C × string_base) :=
  string_base.ctor floor alloc_max_size alloc0 m

/-- The constructor `basic_string( const char_type* s, size_type n,
const allocator_type& alloc )`: the base constructor, whose allocation is
answered by `alloc0`, then `assign( s, n )`, whose allocation is answered by
`alloc`. -/
def ctor_cstr_n [Zero C] (floor : Nat → Nat → Nat) (alloc_max_size : Nat)
    (alloc0 alloc : Nat → Option Nat) (m : Mem C) (sp n : Nat) :
    Except (Thrown C) (Mem C × string_base) :=
  match string_base.ctor floor alloc_max_size alloc0 m with
  | .error e => .error e
  | .ok r => assign alloc r.1 r.2 sp n

/-- `basic_string::clear()`: `erase( begin(), end() )`. -/
def clear [Zero C] (m : Mem C) (s : string_base) : Mem C × string_base :=
  let r := erase_range m s (begin_ s) (end_ s)
  (r.1, r.2.1)

/-- `basic_string::swap( str )`: the three fields of `str` are saved, `str`
takes the fields of the receiver, the receiver takes the saved ones; no cell is
read or written and `alloc_` is not exchanged. The result is the receiver,
then `str`. -/
def swap (self str : string_base) : string_base × string_base :=
  let tmp_size := str.size_
  let tmp_reserved := str.reserved_
  let tmp_str := str.str_
  let str1 := { str with size_ := self.size_ }
  let str2 := { str1 with reserved_ := self.reserved_ }
  let str3 := { str2 with str_ := self.str_ }
  let self1 := { self with size_ := tmp_size }
  let self2 := { self1 with reserved_ := tmp_reserved }
  let self3 := { self2 with str_ := tmp_str }
  (self3, str3)

/-- `basic_string::assign( const basic_string& str )`: `assign( str, 0, npos )`.
The operator `operator=( const basic_string& str )` returns `assign( str )`. -/
def assign_str [Zero C] (alloc : Nat → Option Nat) (m : Mem C) (s : string_base)
    (str : string_base) : Except (Thrown C) (Mem C × string_base) :=
  assign_str_range alloc m s str 0 npos

/-- `basic_string::copy( char_type* s, size_type n, size_type pos )`, the
destination array being the cells at `dst`; the result is the memory after the
call and the returned count. The name `copy` is the one of `gstl::copy`
here. -/
def copy_ (m : Mem C) (s : string_base) (dst n pos : Nat) : Except Exn (Mem C × Nat) :=
  match validate_pos_and_off pos s n with
  | .error e => .error e
  | .ok rlen => .ok (char_traits.move m dst s.my_str rlen, rlen)

/-- `basic_string::do_replace( i1, i2, xlen, put_new_fn, overlaped )` for a
`size_type` of `w` bits. The locals `removed_size` and `new_size` and the
arguments `new_size + 1` of `allocate` and of `reset_ptr` are `size_type`
values: they are taken modulo `2^w`. The locals `pos1` and `pos2` are `size_t`
and `xlen` is a `difference_type`; both types are taken wide enough for the
values they hold. -/
def do_replace_w [Zero C] (w : Nat) (alloc : Nat → Option Nat) (m : Mem C) (s : string_base)
    (i1 i2 xlen : Nat) (put_new_fn : Mem C → Nat → Mem C) (overlaped : Bool) :
    Except (Thrown C) (Mem C × string_base × Nat) :=
  let pos1 := i1 - begin_ s
  let pos2 := i2 - begin_ s
  let removed_size := to_size_type w (i2 - i1)
  let new_size := to_size_type w (size s + xlen + 2 ^ w - removed_size)
  let new_buf : Option (Mem C × Nat) :=
    if new_size ≥ s.reserved_ || overlaped then
      match alloc (to_size_type w (new_size + 1)) with
      | none => none
      | some new_str => some (char_traits.move m new_str s.my_str pos1, new_str)
    else
      some (m, s.str_)
  match new_buf with
  | none => .error (.bad_alloc, m, s)
  | some (m1, new_str) =>
    let new_i1 := new_str + pos1
    let res := new_i1 + xlen
    let m2 := char_traits.move m1 res (s.my_str + pos2) (size s - pos2)
    let m3 := put_new_fn m2 new_i1
    let r := string_base.reset_ptr m3 s new_str new_size (to_size_type w (new_size + 1))
    .ok (r.1, r.2, res)

/-- The template `basic_string::replace( first, last, first2, last2 )` for a
`size_type` of `w` bits. -/
def replace_range_w [Zero C] (w : Nat) (alloc : Nat → Option Nat) (m : Mem C) (s : string_base)
    (first last first2 last2 : Nat) : Except (Thrown C) (Mem C × string_base) :=
  let xlen := last2 - first2
  match do_replace_w w alloc m s first last xlen
      (fun mem new_i1 => copy mem first2 last2 new_i1) (check_overlap s first2 last2) with
  | .error e => .error e
  | .ok r => .ok (r.1, r.2.1)

/-- `basic_string::insert( iterator p, InputIterator first, InputIterator last )`
for a `size_type` of `w` bits. -/
def insert_range_w [Zero C] (w : Nat) (alloc : Nat → Option Nat) (m : Mem C) (s : string_base)
    (p first last : Nat) : Except (Thrown C) (Mem C × string_base) :=
  replace_range_w w alloc m s p p first last

/-- `basic_string::insert( size_type pos, const char_type* s, size_type n )` for
a `size_type` of `w` bits. -/
def insert_w [Zero C] (w : Nat) (alloc : Nat → Option Nat) (m : Mem C) (s : string_base)
    (pos sp n : Nat) : Except (Thrown C) (Mem C × string_base) :=
  match verify_pos pos s with
  | .error e => .error (e, m, s)
  | .ok _ => insert_range_w w alloc m s (begin_ s + pos) sp (sp + n)

/-- `basic_string::insert( size_type pos1, const basic_string& str, size_type pos2,
size_type n )` for a `size_type` of `w` bits; `npos - rlen` does not wrap, `rlen`
being a `size_type` value. -/
def insert_str_w [Zero C] (w : Nat) (alloc : Nat → Option Nat) (m : Mem C) (s : string_base)
    (pos1 : Nat) (str : string_base) (pos2 n : Nat) : Except (Thrown C) (Mem C × string_base) :=
  match verify_pos pos1 s with
  | .error e => .error (e, m, s)
  | .ok _ =>
    match validate_pos_and_off pos2 str n with
    | .error e => .error (e, m, s)
    | .ok rlen =>
      if size s > npos_w w - rlen then .error (.length_error, m, s)
      else insert_range_w w alloc m s (begin_ s + pos1) (begin_ str + pos2)
        (begin_ str + pos2 + rlen)

/-- `basic_string::assign( const char_type* s, size_type n )` for a `size_type`
of `w` bits. -/
def assign_w [Zero C] (w : Nat) (alloc : Nat → Option Nat) (m : Mem C) (s : string_base)
    (sp n : Nat) : Except (Thrown C) (Mem C × string_base) :=
  let r := string_base.set_end m s 0
  insert_w w alloc r.1 r.2 0 sp n

/-- The constructor `basic_string( const char_type* s, size_type n,
const allocator_type& alloc )` for a `size_type` of `w` bits. -/
def ctor_cstr_n_w [Zero C] (w : Nat) (floor : Nat → Nat → Nat) (alloc_max_size : Nat)
    (alloc0 alloc : Nat → Option Nat) (m : Mem C) (sp n : Nat) :
    Except (Thrown C) (Mem C × string_base) :=
  match string_base.ctor floor alloc_max_size alloc0 m with
  | .error e => .error e
  | .ok r => assign_w w alloc r.1 r.2 sp n

/-- The string holds, at index `i`, a character of the set given as the `n`
cells at `sp`: `i < size()` and the cell `i` is a member of the set. -/
def member_at {C : Type} (m : Mem C) (s : string_base) (sp n i : Nat) : Prop :=
  i < s.size_ ∧ m (s.str_ + i) ∈ m.read sp n

instance {C : Type} [DecidableEq C] (m : Mem C) (s : string_base) (sp n i : Nat) :
    Decidable (member_at m s sp n i) := by
  unfold member_at
  exact inferInstance

/-- The string holds, at index `i`, a character outside the set given as the
`n` cells at `sp`: `i < size()` and the cell `i` is not a member of the set. -/
def non_member_at {C : Type} (m : Mem C) (s : string_base) (sp n i : Nat) : Prop :=
  i < s.size_ ∧ m (s.str_ + i) ∉ m.read sp n

instance {C : Type} [DecidableEq C] (m : Mem C) (s : string_base) (sp n i : Nat) :
    Decidable (non_member_at m s sp n i) := by
  unfold non_member_at
  exact inferInstance

/-- The needle (the `n` cells at `sp`) occurs in the string at index `i`:
`i + n ≤ size()` and the cells `[i, i+n)` of the string equal the needle. -/
def occurs_at {C : Type} (m : Mem C) (s : string_base) (sp n i : Nat) : Prop :=
  i + n ≤ s.size_ ∧ m.read (s.str_ + i) n = m.read sp n

instance {C : Type} [DecidableEq C] (m : Mem C) (s : string_base) (sp n i : Nat) :
    Decidable (occurs_at m s sp n i) := by
  unfold occurs_at
  exact inferInstance

end basic_string

/-! ## basic_string (gstl/detail/string.hpp), the near-duplicate -/

namespace string_hpp

variable {C : Type}

/-- `string_base::my_str()` of `string.hpp`. The fields `m_str`, `m_size` and
`m_reserved` of that file are the fields `str_`, `size_` and `reserved_`. -/
def my_str (s : string_base) : Nat := s.str_

/-- `string_base::set_end( n )` of `string.hpp`. -/
def set_end [Zero C] (m : Mem C) (s : string_base) (n : Nat) : Mem C × string_base :=
  (m.write (s.str_ + n) 0, { s with size_ := n })

/-- `string_base::reset_ptr( new_str, new_size, new_reserved )` of `string.hpp`. -/
def reset_ptr [Zero C] (m : Mem C) (s : string_base) (new_str new_size new_reserved : Nat) :
    Mem C × string_base :=
  if new_str ≠ s.str_ then
    set_end m { s with str_ := new_str, reserved_ := new_reserved } new_size
  else
    set_end m s new_size

/-- `basic_string::begin()` of `string.hpp`. -/
def begin_ (s : string_base) : Nat := my_str s

/-- `basic_string::size()` of `string.hpp`. -/
def size (s : string_base) : Nat := s.size_

/-- `basic_string::do_insert( p, xlen, put_new_fn, overlaped )` of `string.hpp`.
The writer `put_new_fn` receives the memory and the address `valid_p`. The
result is the new memory, the new fields and the returned iterator `res_p`. -/
def do_insert [Zero C] (alloc : Nat → Option Nat) (m : Mem C) (s : string_base)
    (p xlen : Nat) (put_new_fn : Mem C → Nat → Mem C) (overlaped : Bool) :
    Except (Thrown C) (Mem C × string_base × Nat) :=
  let pos := p - begin_ s
  let new_size := size s + xlen
  let new_buf : Option (Mem C × Nat) :=
    if new_size ≥ s.reserved_ || overlaped then
      match alloc (new_size + 1) with
      | none => none
      | some new_str => some (char_traits.move m new_str (my_str s) pos, new_str)
    else
      some (m, s.str_)
  match new_buf with
  | none => .error (.bad_alloc, m, s)
  | some (m1, new_str) =>
    let valid_p := new_str + pos
    let res_p := valid_p + xlen
    let m2 := char_traits.move m1 res_p (my_str s + pos) (size s - pos)
    let m3 := put_new_fn m2 valid_p
    let r := reset_ptr m3 s new_str new_size (new_size + 1)
    .ok (r.1, r.2, res_p)

end string_hpp

/-! ## Concrete memories -/

/-- The memory `m` with the cells of `l` stored from address `a` on. -/
def Mem.store {C : Type} [Zero C] (m : Mem C) (a : Nat) (l : List C) : Mem C :=
  fun x => if a ≤ x ∧ x < a + l.length then l.getD (x - a) 0 else m x

/-- The memory whose cells all hold `char_type()`. -/
def Mem.zero {C : Type} [Zero C] : Mem C := fun _ => 0

/-! ## Concrete strings -/

/-- A memory holding `hello` at address 100 and ` world` at address 200. -/
def hello_mem : Mem Char :=
  (Mem.zero.store 100 ['h', 'e', 'l', 'l', 'o']).store 200 [' ', 'w', 'o', 'r', 'l', 'd']

/-- The string `hello` as its constructor leaves it: 5 characters in a block of 6. -/
def hello_str : string_base := ⟨100, 5, 6⟩

/-- A memory holding `abc` at address 100. -/
def abc_mem : Mem Char := Mem.zero.store 100 ['a', 'b', 'c']

/-- The string `abc`: 3 characters in a block of 4. -/
def abc_str : string_base := ⟨100, 3, 4⟩

/-- A memory holding `aaa` at address 100 and `XYZ` at address 200. -/
def aaa_mem : Mem Char := (Mem.zero.store 100 ['a', 'a', 'a']).store 200 ['X', 'Y', 'Z']

/-- The string `aaa`: 3 characters in a block of 4. -/
def aaa_str : string_base := ⟨100, 3, 4⟩

/-- A memory holding `abcabcabc` at address 100 and `bca` at address 200. -/
def abc3_mem : Mem Char :=
  (Mem.zero.store 100 ['a', 'b', 'c', 'a', 'b', 'c', 'a', 'b', 'c']).store 200 ['b', 'c', 'a']

/-- The string `abcabcabc`: 9 characters in a block of 10. -/
def abc3_str : string_base := ⟨100, 9, 10⟩

/-- An allocator that hands out the block at address 300. -/
def alloc_300 : Nat → Option Nat := fun _ => some 300

/-- A memory holding `a` at address 100 and `b` at address 200. -/
def ab_mem : Mem Char := (Mem.zero.store 100 ['a']).store 200 ['b']

/-- The string `a`: 1 character in a block of 4. -/
def a_str : string_base := ⟨100, 1, 4⟩

/-- The string `b`: 1 character in a block of 4. -/
def b_str : string_base := ⟨200, 1, 4⟩

/-- An allocator that hands out the block at address 106. -/
def alloc_106 : Nat → Option Nat := fun _ => some 106

/-- A rounding helper: `n` rounded up to a multiple of `k`. -/
def round_up (n k : Nat) : Nat := (n + k - 1) / k * k

/-- A string of `2^31` characters: its fields, over any memory. -/
def long_str : string_base := ⟨1000, 2 ^ 31, 2 ^ 31 + 1⟩

/-- An empty string: its fields. -/
def empty_str : string_base := ⟨100, 0, 4⟩

/-- An allocator that hands out the block at address 400. -/
def alloc_400 : Nat → Option Nat := fun _ => some 400

/-- An allocator that is out of memory: every request throws. -/
def alloc_none : Nat → Option Nat := fun _ => none

/-- Modelled from the spec: the rounding helper as the invariant on the
capacity words it, the smallest multiple of `k` that is greater than `n`. -/
def floor_spec (n k : Nat) : Nat := (n / k + 1) * k

/-- An allocator for a `size_type` of 16 bits: it hands out the block at 300
for 4 cells, the block at 1000 for 65535 cells and the block at 100000 for 0
cells, and is out of memory for every other request. -/
def alloc_w16 : Nat → Option Nat := fun k =>
  if k = 4 then some 300 else if k = 65535 then some 1000
  else if k = 0 then some 100000 else none

/-- A string of 65534 characters in a block of 65535 cells: its fields, over
any memory. -/
def wide16_str : string_base := ⟨1000, 65534, 65535⟩

/-! ## Memory lemmas -/

theorem Mem.read_length {C : Type} (m : Mem C) (a n : Nat) : (m.read a n).length = n := by
  simp [Mem.read]

theorem Mem.read_getElem {C : Type} (m : Mem C) (a n i : Nat) (h : i < (m.read a n).length) :
    (m.read a n)[i] = m (a + i) := by
  simp [Mem.read]

theorem Mem.read_ext {C : Type} (m1 m2 : Mem C) (a b n : Nat)
    (h : ∀ i, i < n → m1 (a + i) = m2 (b + i)) : m1.read a n = m2.read b n := by
  apply List.ext_getElem
  · simp [Mem.read_length]
  · intro i h1 h2
    rw [Mem.read_getElem, Mem.read_getElem]
    exact h i (by simpa [Mem.read_length] using h1)

theorem Mem.read_append {C : Type} (m : Mem C) (a n k : Nat) :
    m.read a (n + k) = m.read a n ++ m.read (a + n) k := by
  apply List.ext_getElem
  · simp [Mem.read_length]
  · intro i h1 h2
    rw [Mem.read_getElem]
    by_cases hi : i < n
    · rw [List.getElem_append_left (by simpa [Mem.read_length] using hi), Mem.read_getElem]
    · rw [List.getElem_append_right (by simpa [Mem.read_length] using hi), Mem.read_getElem]
      simp only [Mem.read_length]
      congr 1
      omega

theorem Mem.read_take {C : Type} (m : Mem C) (a n k : Nat) :
    (m.read a n).take k = m.read a (min k n) := by
  apply List.ext_getElem
  · simp [Mem.read_length]
  · intro i h1 h2
    rw [List.getElem_take, Mem.read_getElem, Mem.read_getElem]

theorem Mem.read_drop {C : Type} (m : Mem C) (a n k : Nat) :
    (m.read a n).drop k = m.read (a + k) (n - k) := by
  apply List.ext_getElem
  · simp [Mem.read_length]
  · intro i h1 h2
    rw [List.getElem_drop, Mem.read_getElem, Mem.read_getElem]
    congr 1
    omega

/-! ## char_traits lemmas -/

namespace char_traits

variable {C : Type}

theorem move_forward_frame (m : Mem C) (dst src n a : Nat) (h : a < dst ∨ dst + n ≤ a) :
    move_forward m dst src n a = m a := by
  induction n generalizing m dst src with
  | zero => simp [move_forward]
  | succ k ih =>
    rw [move_forward, ih _ _ _ (by omega)]
    simp only [Mem.write]
    rw [if_neg (by omega)]

theorem move_forward_apply (m : Mem C) (dst src n i : Nat) (h : dst ≤ src ∨ src + n ≤ dst)
    (hi : i < n) : move_forward m dst src n (dst + i) = m (src + i) := by
  induction n generalizing m dst src i with
  | zero => omega
  | succ k ih =>
    rw [move_forward]
    cases i with
    | zero =>
      rw [move_forward_frame _ _ _ _ _ (by omega)]
      simp [Mem.write]
    | succ j =>
      have := ih (m.write dst (m src)) (dst + 1) (src + 1) j (by omega) (by omega)
      rw [show dst + (j + 1) = dst + 1 + j by omega, this]
      simp only [Mem.write]
      rw [if_neg (by omega)]
      congr 1
      omega

theorem move_backward_frame (m : Mem C) (dst src n a : Nat) (h : a < dst ∨ dst + n ≤ a) :
    move_backward m (dst + n) (src + n) n a = m a := by
  induction n generalizing m with
  | zero => simp [move_backward]
  | succ k ih =>
    rw [move_backward]
    rw [show dst + (k + 1) - 1 = dst + k by omega, show src + (k + 1) - 1 = src + k by omega,
      ih _ (by omega)]
    simp only [Mem.write]
    rw [if_neg (by omega)]

theorem move_backward_apply (m : Mem C) (dst src n i : Nat) (h : src ≤ dst ∨ dst + n ≤ src)
    (hi : i < n) : move_backward m (dst + n) (src + n) n (dst + i) = m (src + i) := by
  induction n generalizing m with
  | zero => omega
  | succ k ih =>
    rw [move_backward]
    rw [show dst + (k + 1) - 1 = dst + k by omega, show src + (k + 1) - 1 = src + k by omega]
    by_cases hik : i = k
    · subst hik
      rw [move_backward_frame _ _ _ _ _ (by omega)]
      simp [Mem.write]
    · rw [ih _ (by omega) (by omega)]
      simp only [Mem.write]
      rw [if_neg (by omega)]

theorem move_frame (m : Mem C) (dst src n a : Nat) (h : a < dst ∨ dst + n ≤ a) :
    move m dst src n a = m a := by
  unfold move
  split
  · exact move_backward_frame m dst src n a h
  · exact move_forward_frame m dst src n a h

theorem check_overlap_n_eq_neg_one (s1 s2 n : Nat) :
    check_overlap_n s1 s2 n = -1 ↔ s1 ≤ s2 ∧ s2 < s1 + n := by
  unfold check_overlap_n check_overlap
  by_cases h1 : s1 ≤ s2
  · by_cases h2 : s1 + n > s2
    · simp [h1, h2]
    · simp [h1, h2]
  · by_cases h3 : s1 < s2 + n
    · simp [h1, h3]
    · simp [h1, h3]

theorem move_apply (m : Mem C) (dst src n i : Nat) (hi : i < n) :
    move m dst src n (dst + i) = m (src + i) := by
  unfold move
  by_cases h : check_overlap_n src dst n = -1
  · rw [if_pos h]
    rw [check_overlap_n_eq_neg_one] at h
    exact move_backward_apply m dst src n i (by omega) hi
  · rw [if_neg h]
    rw [check_overlap_n_eq_neg_one] at h
    exact move_forward_apply m dst src n i (by omega) hi

theorem assign_frame (m : Mem C) (s n : Nat) (c : C) (a : Nat) (h : a < s ∨ s + n ≤ a) :
    assign m s n c a = m a := by
  induction n generalizing m s with
  | zero => simp [assign]
  | succ k ih =>
    rw [assign, ih _ _ (by omega)]
    simp only [Mem.write]
    rw [if_neg (by omega)]

theorem assign_apply (m : Mem C) (s n : Nat) (c : C) (i : Nat) (hi : i < n) :
    assign m s n c (s + i) = c := by
  induction n generalizing m s i with
  | zero => omega
  | succ k ih =>
    rw [assign]
    cases i with
    | zero =>
      rw [assign_frame _ _ _ _ _ (by omega)]
      simp [Mem.write]
    | succ j =>
      rw [show s + (j + 1) = s + 1 + j by omega]
      exact ih _ _ j (by omega)

end char_traits

/-! ## The range-replace primitive and `erase` -/

namespace basic_string

variable {C : Type}

/-- The common shape of every successful `do_replace`: `m2` is the memory handed
to the writer. -/
theorem do_replace_eq [Zero C] (alloc : Nat → Option Nat) (m : Mem C) (s : string_base)
    (pos1 pos2 xlen : Nat) (put : Mem C → Nat → Mem C) (overlaped : Bool) (p : Nat)
    (h12 : pos1 ≤ pos2) (h2 : pos2 ≤ s.size_) (hcap : s.size_ ≤ s.reserved_)
    (halloc : alloc (s.size_ + xlen - (pos2 - pos1) + 1) = some p)
    (hfresh : disjoint p (s.size_ + xlen - (pos2 - pos1) + 1) s.str_ s.reserved_) :
    ∃ (m2 : Mem C) (new_str : Nat),
      new_str = (if s.size_ + xlen - (pos2 - pos1) ≥ s.reserved_ ∨ overlaped = true
        then p else s.str_) ∧
      do_replace alloc m s (s.str_ + pos1) (s.str_ + pos2) xlen put overlaped
        = .ok ((put m2 (new_str + pos1)).write (new_str + (s.size_ + xlen - (pos2 - pos1))) 0,
            { str_ := new_str, size_ := s.size_ + xlen - (pos2 - pos1),
              reserved_ := if new_str ≠ s.str_ then s.size_ + xlen - (pos2 - pos1) + 1
                else s.reserved_ },
            new_str + pos1 + xlen) ∧
      (∀ a, a < new_str ∨ new_str + (s.size_ + xlen - (pos2 - pos1)) ≤ a → m2 a = m a) ∧
      (∀ i, i < pos1 → m2 (new_str + i) = m (s.str_ + i)) ∧
      (∀ i, i < s.size_ - pos2 → m2 (new_str + pos1 + xlen + i) = m (s.str_ + pos2 + i)) := by
  have e1 : s.str_ + pos1 - s.str_ = pos1 := by omega
  have e2 : s.str_ + pos2 - s.str_ = pos2 := by omega
  have e3 : s.str_ + pos2 - (s.str_ + pos1) = pos2 - pos1 := by omega
  by_cases hre : s.size_ + xlen - (pos2 - pos1) ≥ s.reserved_ ∨ overlaped = true
  · refine ⟨char_traits.move (char_traits.move m p s.str_ pos1) (p + pos1 + xlen)
      (s.str_ + pos2) (s.size_ - pos2), p, by rw [if_pos hre], ?_, ?_, ?_, ?_⟩
    · have hre2 : (decide (s.size_ + xlen - (pos2 - pos1) ≥ s.reserved_) || overlaped) = true := by
        simpa using hre
      simp only [do_replace, begin_, size, string_base.my_str, e1, e2, e3, hre2, halloc,
        if_true, string_base.reset_ptr, string_base.set_end]
      by_cases hp : p = s.str_
      · simp [hp]
      · simp [hp]
    · intro a ha
      rw [char_traits.move_frame _ _ _ _ _ (by omega), char_traits.move_frame _ _ _ _ _ (by omega)]
    · intro i hi
      rw [char_traits.move_frame _ _ _ _ _ (by omega), char_traits.move_apply _ _ _ _ _ hi]
    · intro i hi
      rw [char_traits.move_apply _ _ _ _ _ hi, char_traits.move_frame _ _ _ _ _ (by omega)]
  · refine ⟨char_traits.move m (s.str_ + pos1 + xlen) (s.str_ + pos2) (s.size_ - pos2),
      s.str_, by rw [if_neg hre], ?_, ?_, ?_, ?_⟩
    · have hre2 : (decide (s.size_ + xlen - (pos2 - pos1) ≥ s.reserved_) || overlaped) = false := by
        simpa using hre
      simp [do_replace, begin_, size, string_base.my_str, e1, e2, e3, hre2,
        string_base.reset_ptr, string_base.set_end]
    · intro a ha
      rw [char_traits.move_frame _ _ _ _ _ (by omega)]
    · intro i hi
      rw [char_traits.move_frame _ _ _ _ _ (by omega)]
    · intro i hi
      rw [char_traits.move_apply _ _ _ _ _ hi]

theorem content_take (m : Mem C) (s : string_base) (pos : Nat) (h : pos ≤ s.size_) :
    (content m s).take pos = m.read s.str_ pos := by
  rw [content, Mem.read_take, Nat.min_eq_left h]

theorem content_drop (m : Mem C) (s : string_base) (pos : Nat) :
    (content m s).drop pos = m.read (s.str_ + pos) (s.size_ - pos) := by
  rw [content, Mem.read_drop]

theorem content_length (m : Mem C) (s : string_base) : (content m s).length = s.size_ := by
  rw [content, Mem.read_length]

/-- The content after a successful `do_replace` whose writer writes nothing
outside the `xlen` cells it is given: untouched head, the cells the writer
produced from the memory `m2`, untouched tail. -/
theorem do_replace_content [Zero C] (alloc : Nat → Option Nat) (m : Mem C) (s : string_base)
    (pos1 pos2 xlen : Nat) (put : Mem C → Nat → Mem C) (overlaped : Bool) (p : Nat)
    (h12 : pos1 ≤ pos2) (h2 : pos2 ≤ s.size_) (hcap : s.size_ ≤ s.reserved_)
    (halloc : alloc (s.size_ + xlen - (pos2 - pos1) + 1) = some p)
    (hfresh : disjoint p (s.size_ + xlen - (pos2 - pos1) + 1) s.str_ s.reserved_)
    (hput : ∀ (mem : Mem C) (d a : Nat), a < d ∨ d + xlen ≤ a → put mem d a = mem a) :
    ∃ (m2 m' : Mem C) (s' : string_base),
      do_replace alloc m s (s.str_ + pos1) (s.str_ + pos2) xlen put overlaped
        = .ok (m', s', s'.str_ + pos1 + xlen) ∧
      s'.str_ = (if s.size_ + xlen - (pos2 - pos1) ≥ s.reserved_ ∨ overlaped = true
        then p else s.str_) ∧
      s'.size_ = s.size_ + xlen - (pos2 - pos1) ∧
      s'.reserved_ = (if s'.str_ ≠ s.str_ then s.size_ + xlen - (pos2 - pos1) + 1
        else s.reserved_) ∧
      (∀ a, a < s'.str_ ∨ s'.str_ + s'.size_ ≤ a → m2 a = m a) ∧
      content m' s' = (content m s).take pos1
        ++ (put m2 (s'.str_ + pos1)).read (s'.str_ + pos1) xlen ++ (content m s).drop pos2 ∧
      m' (s'.str_ + s'.size_) = 0 ∧
      (∀ a, a < s'.str_ ∨ s'.str_ + s'.size_ < a → m' a = m a) := by
  obtain ⟨m2, new_str, hns, heq, hframe, hpre, hsuf⟩ :=
    do_replace_eq alloc m s pos1 pos2 xlen put overlaped p h12 h2 hcap halloc hfresh
  refine ⟨m2, (put m2 (new_str + pos1)).write (new_str + (s.size_ + xlen - (pos2 - pos1))) 0,
    { str_ := new_str, size_ := s.size_ + xlen - (pos2 - pos1),
      reserved_ := if new_str ≠ s.str_ then s.size_ + xlen - (pos2 - pos1) + 1
        else s.reserved_ },
    heq, hns, rfl, rfl, hframe, ?_, ?_, ?_⟩
  · rw [content_take m s pos1 (by omega), content_drop]
    simp only [content]
    have esz : s.size_ + xlen - (pos2 - pos1) = pos1 + xlen + (s.size_ - pos2) := by omega
    rw [esz, Mem.read_append, Mem.read_append]
    congr 1
    · congr 1
      · apply Mem.read_ext
        intro i hi
        simp only [Mem.write]
        rw [if_neg (by omega), hput _ _ _ (by omega)]
        exact hpre i hi
      · apply Mem.read_ext
        intro i hi
        simp only [Mem.write]
        rw [if_neg (by omega)]
    · apply Mem.read_ext
      intro i hi
      simp only [Mem.write]
      rw [if_neg (by omega), hput _ _ _ (by omega),
        show new_str + (pos1 + xlen) + i = new_str + pos1 + xlen + i by omega]
      exact hsuf i hi
  · simp [Mem.write]
  · intro a ha
    simp only [] at ha
    simp only [Mem.write]
    rw [if_neg (by omega), hput _ _ _ (by omega)]
    exact hframe a (by omega)

/-- The writer of the template `replace` writes inside its destination only. -/
theorem copy_frame (m : Mem C) (xp n d a : Nat) (h : a < d ∨ d + n ≤ a) :
    copy m xp (xp + n) d a = m a := by
  unfold copy
  rw [show xp + n - xp = n by omega]
  exact char_traits.move_forward_frame m d xp n a h

/-- The template `replace( first, last, first2, last2 )` on any character source
`[xp, xp+n)`: head and tail are kept, `n` cells are put between them. -/
theorem replace_range_shape [Zero C] (alloc : Nat → Option Nat) (m : Mem C) (s : string_base)
    (pos1 pos2 xp n p : Nat)
    (h12 : pos1 ≤ pos2) (h2 : pos2 ≤ s.size_) (hcap : s.size_ ≤ s.reserved_)
    (halloc : alloc (s.size_ + n - (pos2 - pos1) + 1) = some p)
    (hfresh : disjoint p (s.size_ + n - (pos2 - pos1) + 1) s.str_ s.reserved_) :
    ∃ (m2 m' : Mem C) (s' : string_base),
      replace_range alloc m s (s.str_ + pos1) (s.str_ + pos2) xp (xp + n) = .ok (m', s') ∧
      s'.str_ = (if s.size_ + n - (pos2 - pos1) ≥ s.reserved_ ∨ check_overlap s xp (xp + n) = true
        then p else s.str_) ∧
      s'.size_ = s.size_ + n - (pos2 - pos1) ∧
      s'.reserved_ = (if s'.str_ ≠ s.str_ then s.size_ + n - (pos2 - pos1) + 1
        else s.reserved_) ∧
      (∀ a, a < s'.str_ ∨ s'.str_ + s'.size_ ≤ a → m2 a = m a) ∧
      content m' s' = (content m s).take pos1
        ++ (copy m2 xp (xp + n) (s'.str_ + pos1)).read (s'.str_ + pos1) n
        ++ (content m s).drop pos2 ∧
      m' (s'.str_ + s'.size_) = 0 ∧
      (∀ a, a < s'.str_ ∨ s'.str_ + s'.size_ < a → m' a = m a) := by
  obtain ⟨m2, m', s', heq, hstr, hsize, hres, hframe, hcont, hterm⟩ :=
    do_replace_content alloc m s pos1 pos2 n (fun mem new_i1 => copy mem xp (xp + n) new_i1)
      (check_overlap s xp (xp + n)) p h12 h2 hcap halloc hfresh
      (fun mem d a h => copy_frame mem xp n d a h)
  refine ⟨m2, m', s', ?_, hstr, hsize, hres, hframe, hcont, hterm⟩
  simp only [replace_range, show xp + n - xp = n by omega, heq]

/-- The template `replace( first, last, first2, last2 )` on a character source
`[xp, xp+n)` that the allocated block does not contain and that is either
outside the buffer or causes a reallocation. -/
theorem replace_range_content [Zero C] (alloc : Nat → Option Nat) (m : Mem C) (s : string_base)
    (pos1 pos2 xp n p : Nat)
    (h12 : pos1 ≤ pos2) (h2 : pos2 ≤ s.size_) (hcap : s.size_ ≤ s.reserved_)
    (halloc : alloc (s.size_ + n - (pos2 - pos1) + 1) = some p)
    (hfresh : disjoint p (s.size_ + n - (pos2 - pos1) + 1) s.str_ s.reserved_)
    (hXp : disjoint p (s.size_ + n - (pos2 - pos1) + 1) xp n)
    (hX : s.size_ + n - (pos2 - pos1) ≥ s.reserved_ ∨ check_overlap s xp (xp + n) = true
      ∨ disjoint xp n s.str_ s.reserved_) :
    ∃ (m' : Mem C) (s' : string_base),
      replace_range alloc m s (s.str_ + pos1) (s.str_ + pos2) xp (xp + n) = .ok (m', s') ∧
      s'.str_ = (if s.size_ + n - (pos2 - pos1) ≥ s.reserved_ ∨ check_overlap s xp (xp + n) = true
        then p else s.str_) ∧
      s'.size_ = s.size_ + n - (pos2 - pos1) ∧
      s'.reserved_ = (if s'.str_ ≠ s.str_ then s.size_ + n - (pos2 - pos1) + 1
        else s.reserved_) ∧
      content m' s' = (content m s).take pos1 ++ m.read xp n ++ (content m s).drop pos2 ∧
      m' (s'.str_ + s'.size_) = 0 ∧
      (∀ a, a < s'.str_ ∨ s'.str_ + s'.size_ < a → m' a = m a) := by
  obtain ⟨m2, m', s', heq, hstr, hsize, hres, hframe, hcont, hterm⟩ :=
    replace_range_shape alloc m s pos1 pos2 xp n p h12 h2 hcap halloc hfresh
  refine ⟨m', s', heq, hstr, hsize, hres, ?_, hterm⟩
  have hzone : disjoint xp n s'.str_ s'.size_ := by
    rw [hsize]
    by_cases hre : s.size_ + n - (pos2 - pos1) ≥ s.reserved_ ∨ check_overlap s xp (xp + n) = true
    · rw [if_pos hre] at hstr
      rw [hstr]
      unfold disjoint at hXp ⊢
      omega
    · rw [if_neg hre] at hstr
      rw [hstr]
      have hd : disjoint xp n s.str_ s.reserved_ := by
        rcases hX with h | h | h
        · exact absurd (Or.inl h) hre
        · exact absurd (Or.inr h) hre
        · exact h
      have hlt : s.size_ + n - (pos2 - pos1) < s.reserved_ := by
        by_contra hc
        exact hre (Or.inl (by omega))
      unfold disjoint at hd ⊢
      omega
  rw [hcont]
  congr 2
  apply Mem.read_ext
  intro i hi
  unfold disjoint at hzone
  simp only [copy, show xp + n - xp = n by omega]
  rw [char_traits.move_forward_apply _ _ _ _ _ (by omega) hi]
  exact hframe _ (by omega)

/-- What `erase( pos, n )` does for a valid position. -/
theorem erase_spec [Zero C] (m : Mem C) (s : string_base) (pos n : Nat) (hpos : pos ≤ s.size_) :
    ∃ (m' : Mem C) (s' : string_base),
      erase m s pos n = .ok (m', s') ∧
      s'.str_ = s.str_ ∧
      s'.size_ = s.size_ - min n (s.size_ - pos) ∧
      s'.reserved_ = s.reserved_ ∧
      content m' s' = (content m s).take pos
        ++ (content m s).drop (pos + min n (s.size_ - pos)) := by
  have hk : min n (s.size_ - pos) ≤ s.size_ - pos := Nat.min_le_right _ _
  generalize hkdef : min n (s.size_ - pos) = k at hk
  by_cases hk0 : k = 0
  · subst hk0
    refine ⟨m, s, ?_, rfl, rfl, rfl, ?_⟩
    · simp [erase, erase_range, size, hkdef, Nat.not_lt.mpr hpos]
    · rw [Nat.add_zero, List.take_append_drop]
  · refine ⟨(char_traits.copy m (s.str_ + pos) (s.str_ + pos + k) (s.size_ - pos - k)).write
        (s.str_ + (s.size_ - k)) 0,
      { s with size_ := s.size_ - k }, ?_, rfl, rfl, rfl, ?_⟩
    · have e1 : s.str_ + s.size_ - (s.str_ + pos + k) = s.size_ - pos - k := by omega
      have e2 : s.str_ + pos + k - (s.str_ + pos) = k := by omega
      simp [erase, erase_range, size, begin_, end_, string_base.my_str, hkdef,
        Nat.not_lt.mpr hpos, hk0, string_base.set_end, e1, e2]
    · rw [content_take m s pos hpos, content_drop]
      simp only [content]
      have esz : s.size_ - k = pos + (s.size_ - (pos + k)) := by omega
      rw [esz, Mem.read_append]
      congr 1
      · apply Mem.read_ext
        intro i hi
        simp only [Mem.write, char_traits.copy]
        rw [if_neg (by omega), char_traits.move_frame _ _ _ _ _ (by omega)]
      · apply Mem.read_ext
        intro i hi
        simp only [Mem.write, char_traits.copy]
        rw [if_neg (by omega), char_traits.move_apply _ _ _ _ _ (by omega)]
        congr 1
        omega

/-- C1: for every string, every `pos ≤ length` and every character sequence `X`
(the `n` cells at `xp`) outside the string's buffer, `insert( pos, X )` returns
without error and leaves the content `s[0,pos) ++ X ++ s[pos,length)` and the
length `length + len(X)`. The allocator is taken to hand out a block that
overlaps neither the buffer nor `X`. -/
theorem insert_content_length [Zero C] (alloc : Nat → Option Nat) (m : Mem C) (s : string_base)
    (pos xp n p : Nat)
    (hpos : pos ≤ s.size_) (hcap : s.size_ ≤ s.reserved_)
    (hX : disjoint xp n s.str_ s.reserved_)
    (halloc : alloc (s.size_ + n + 1) = some p)
    (hfresh : disjoint p (s.size_ + n + 1) s.str_ s.reserved_)
    (hfreshX : disjoint p (s.size_ + n + 1) xp n) :
    ∃ (m' : Mem C) (s' : string_base),
      insert alloc m s pos xp n = .ok (m', s') ∧
      content m' s' = (content m s).take pos ++ m.read xp n ++ (content m s).drop pos ∧
      s'.size_ = s.size_ + n ∧
      (content m' s').length = (content m s).length + n := by
  have e0 : s.size_ + n - (pos - pos) = s.size_ + n := by omega
  obtain ⟨m', s', heq, _, hsize, _, hcont, _⟩ :=
    replace_range_content alloc m s pos pos xp n p (Nat.le_refl _) hpos hcap
      (by rw [e0]; exact halloc) (by rw [e0]; exact hfresh) (by rw [e0]; exact hfreshX)
      (Or.inr (Or.inr hX))
  refine ⟨m', s', ?_, hcont, by omega, ?_⟩
  · simp only [insert, verify_pos, size, Nat.not_lt.mpr hpos, if_false, insert_range, begin_,
      string_base.my_str, gt_iff_lt]
    exact heq
  · rw [content_length, content_length]
    omega

/-- C1 at `String("hello").insert(5, " world")`: the result is `hello world`, of
length 11. -/
theorem insert_content_length_witness :
    (5 ≤ hello_str.size_ ∧ hello_str.size_ ≤ hello_str.reserved_
      ∧ disjoint 200 6 hello_str.str_ hello_str.reserved_
      ∧ alloc_300 (hello_str.size_ + 6 + 1) = some 300
      ∧ disjoint 300 (hello_str.size_ + 6 + 1) hello_str.str_ hello_str.reserved_
      ∧ disjoint 300 (hello_str.size_ + 6 + 1) 200 6)
    ∧ (content hello_mem hello_str).take 5 ++ hello_mem.read 200 6
        ++ (content hello_mem hello_str).drop 5
        = ['h', 'e', 'l', 'l', 'o', ' ', 'w', 'o', 'r', 'l', 'd']
    ∧ ∃ (m' : Mem Char) (s' : string_base),
      insert alloc_300 hello_mem hello_str 5 200 6 = .ok (m', s') ∧
      content m' s' = (content hello_mem hello_str).take 5 ++ hello_mem.read 200 6
        ++ (content hello_mem hello_str).drop 5 ∧
      s'.size_ = hello_str.size_ + 6 ∧
      (content m' s').length = (content hello_mem hello_str).length + 6 :=
  ⟨by decide, by decide,
    insert_content_length alloc_300 hello_mem hello_str 5 200 6 300 (by decide) (by decide)
      (by decide) rfl (by decide) (by decide)⟩

/-- C2: for every string, every `pos ≤ length` and every `n`, `erase( pos, n )`
leaves the content `s[0,pos) ++ s[pos+k,length)` with `k = min(n, length - pos)`,
the length reduced by `k` and the capacity unchanged. -/
theorem erase_content_length_capacity [Zero C] (m : Mem C) (s : string_base) (pos n : Nat)
    (hpos : pos ≤ s.size_) :
    ∃ (m' : Mem C) (s' : string_base),
      erase m s pos n = .ok (m', s') ∧
      content m' s' = (content m s).take pos
        ++ (content m s).drop (pos + min n (s.size_ - pos)) ∧
      s'.size_ = s.size_ - min n (s.size_ - pos) ∧
      capacity s' = capacity s := by
  obtain ⟨m', s', heq, _, hsize, hres, hcont⟩ := erase_spec m s pos n hpos
  exact ⟨m', s', heq, hcont, hsize, hres⟩

/-- C2 at `String("abc").erase(1,1)`: the result is `ac`. -/
theorem erase_content_length_capacity_witness :
    1 ≤ abc_str.size_
    ∧ (content abc_mem abc_str).take 1
        ++ (content abc_mem abc_str).drop (1 + min 1 (abc_str.size_ - 1)) = ['a', 'c']
    ∧ ∃ (m' : Mem Char) (s' : string_base),
      erase abc_mem abc_str 1 1 = .ok (m', s') ∧
      content m' s' = (content abc_mem abc_str).take 1
        ++ (content abc_mem abc_str).drop (1 + min 1 (abc_str.size_ - 1)) ∧
      s'.size_ = abc_str.size_ - min 1 (abc_str.size_ - 1) ∧
      capacity s' = capacity abc_str :=
  ⟨by decide, by decide, erase_content_length_capacity abc_mem abc_str 1 1 (by decide)⟩

/-- C3: for every string, every `pos ≤ length`, every `n1` and every character
sequence `X` of `n2` cells (at `xp`) outside the string's buffer,
`replace( pos, n1, X, n2 )` leaves the content `s[0,pos) ++ X ++ s[pos+xlen,length)`
with `xlen = min(n1, length - pos)`, and the length `length - xlen + n2`. The
allocator is taken to hand out a block that overlaps neither the buffer nor
`X`. -/
theorem replace_content_length [Zero C] (alloc : Nat → Option Nat) (m : Mem C) (s : string_base)
    (pos n1 xp n2 p : Nat)
    (hpos : pos ≤ s.size_) (hcap : s.size_ ≤ s.reserved_)
    (hX : disjoint xp n2 s.str_ s.reserved_)
    (halloc : alloc (s.size_ + n2 - min n1 (s.size_ - pos) + 1) = some p)
    (hfresh : disjoint p (s.size_ + n2 - min n1 (s.size_ - pos) + 1) s.str_ s.reserved_)
    (hfreshX : disjoint p (s.size_ + n2 - min n1 (s.size_ - pos) + 1) xp n2) :
    ∃ (m' : Mem C) (s' : string_base),
      replace alloc m s pos n1 xp n2 = .ok (m', s') ∧
      content m' s' = (content m s).take pos ++ m.read xp n2
        ++ (content m s).drop (pos + min n1 (s.size_ - pos)) ∧
      s'.size_ = s.size_ - min n1 (s.size_ - pos) + n2 := by
  have hk : min n1 (s.size_ - pos) ≤ s.size_ - pos := Nat.min_le_right _ _
  generalize hkdef : min n1 (s.size_ - pos) = xlen at hk halloc hfresh hfreshX
  have e0 : s.size_ + n2 - (pos + xlen - pos) = s.size_ + n2 - xlen := by omega
  obtain ⟨m', s', heq, _, hsize, _, hcont, _⟩ :=
    replace_range_content alloc m s pos (pos + xlen) xp n2 p (by omega) (by omega) hcap
      (by rw [e0]; exact halloc) (by rw [e0]; exact hfresh) (by rw [e0]; exact hfreshX)
      (Or.inr (Or.inr hX))
  refine ⟨m', s', ?_, hcont, by omega⟩
  simp only [replace, validate_pos_and_off, verify_pos, size, Nat.not_lt.mpr hpos, if_false,
    begin_, string_base.my_str, gt_iff_lt, hkdef]
  rw [Nat.add_assoc]
  exact heq

/-- C3 at `String("aaa").replace(1,1,"XYZ")`: the result is `aXYZa`. -/
theorem replace_content_length_witness :
    (1 ≤ aaa_str.size_ ∧ aaa_str.size_ ≤ aaa_str.reserved_
      ∧ disjoint 200 3 aaa_str.str_ aaa_str.reserved_
      ∧ alloc_300 (aaa_str.size_ + 3 - min 1 (aaa_str.size_ - 1) + 1) = some 300
      ∧ disjoint 300 (aaa_str.size_ + 3 - min 1 (aaa_str.size_ - 1) + 1) aaa_str.str_
          aaa_str.reserved_
      ∧ disjoint 300 (aaa_str.size_ + 3 - min 1 (aaa_str.size_ - 1) + 1) 200 3)
    ∧ (content aaa_mem aaa_str).take 1 ++ aaa_mem.read 200 3
        ++ (content aaa_mem aaa_str).drop (1 + min 1 (aaa_str.size_ - 1))
        = ['a', 'X', 'Y', 'Z', 'a']
    ∧ ∃ (m' : Mem Char) (s' : string_base),
      replace alloc_300 aaa_mem aaa_str 1 1 200 3 = .ok (m', s') ∧
      content m' s' = (content aaa_mem aaa_str).take 1 ++ aaa_mem.read 200 3
        ++ (content aaa_mem aaa_str).drop (1 + min 1 (aaa_str.size_ - 1)) ∧
      s'.size_ = aaa_str.size_ - min 1 (aaa_str.size_ - 1) + 3 :=
  ⟨by decide, by decide,
    replace_content_length alloc_300 aaa_mem aaa_str 1 1 200 3 300 (by decide) (by decide)
      (by decide) rfl (by decide) (by decide)⟩

/-- C4: for every string, every `pos ≤ length` and every character sequence `X`
(the `n` cells at `xp`, wherever they lie), `insert( pos, X )` followed by
`erase( pos, len(X) )` restores the original content and length. The allocator
is taken to hand out a block that does not overlap the buffer. -/
theorem insert_erase_round_trip [Zero C] (alloc : Nat → Option Nat) (m : Mem C) (s : string_base)
    (pos xp n p : Nat)
    (hpos : pos ≤ s.size_) (hcap : s.size_ ≤ s.reserved_)
    (halloc : alloc (s.size_ + n + 1) = some p)
    (hfresh : disjoint p (s.size_ + n + 1) s.str_ s.reserved_) :
    ∃ (m1 : Mem C) (s1 : string_base) (m2 : Mem C) (s2 : string_base),
      insert alloc m s pos xp n = .ok (m1, s1) ∧
      erase m1 s1 pos n = .ok (m2, s2) ∧
      content m2 s2 = content m s ∧
      s2.size_ = s.size_ := by
  have e0 : s.size_ + n - (pos - pos) = s.size_ + n := by omega
  obtain ⟨w, m1, s1, heq, _, hsize, _, _, hcont, _⟩ :=
    replace_range_shape alloc m s pos pos xp n p (Nat.le_refl _) hpos hcap
      (by rw [e0]; exact halloc) (by rw [e0]; exact hfresh)
  obtain ⟨m2, s2, heq2, _, hsize2, _, hcont2⟩ := erase_spec m1 s1 pos n (by omega)
  have hmin : min n (s1.size_ - pos) = n := by
    rw [hsize]
    exact Nat.min_eq_left (by omega)
  refine ⟨m1, s1, m2, s2, ?_, heq2, ?_, by omega⟩
  · simp only [insert, verify_pos, size, Nat.not_lt.mpr hpos, if_false, insert_range, begin_,
      string_base.my_str, gt_iff_lt]
    exact heq
  · rw [hcont2, hmin, hcont]
    have hl1 : ((content m s).take pos).length = pos := by
      rw [List.length_take, content_length]
      omega
    have hl2 : ((content m s).take pos
        ++ (copy w xp (xp + n) (s1.str_ + pos)).read (s1.str_ + pos) n).length = pos + n := by
      rw [List.length_append, hl1, Mem.read_length]
    rw [List.drop_left' hl2, List.append_assoc, List.take_left' hl1, List.take_append_drop]

/-- C4 at `hello`, inserting ` world` at 5 and erasing 6 characters at 5. -/
theorem insert_erase_round_trip_witness :
    (5 ≤ hello_str.size_ ∧ hello_str.size_ ≤ hello_str.reserved_
      ∧ alloc_300 (hello_str.size_ + 6 + 1) = some 300
      ∧ disjoint 300 (hello_str.size_ + 6 + 1) hello_str.str_ hello_str.reserved_)
    ∧ ∃ (m1 : Mem Char) (s1 : string_base) (m2 : Mem Char) (s2 : string_base),
      insert alloc_300 hello_mem hello_str 5 200 6 = .ok (m1, s1) ∧
      erase m1 s1 5 6 = .ok (m2, s2) ∧
      content m2 s2 = content hello_mem hello_str ∧
      s2.size_ = hello_str.size_ :=
  ⟨by decide,
    insert_erase_round_trip alloc_300 hello_mem hello_str 5 200 6 300 (by decide) (by decide)
      rfl (by decide)⟩

/-- C5: for every string and every character sequence `X` (the `n` cells at
`xp`) outside the buffer, `append( X )` leaves the content `s ++ X` and the
length `length + len(X)`, and `push_back( c )` leaves the content `s ++ [c]` and
the length `length + 1`; both are `do_replace` applied at `[end(), end())`. The
allocator is taken to hand out blocks that overlap neither the buffer nor
`X`. -/
theorem append_push_back_content [Zero C] (alloc : Nat → Option Nat) (m : Mem C)
    (s : string_base) (xp n : Nat) (c : C) (p q : Nat)
    (hcap : s.size_ ≤ s.reserved_)
    (hX : disjoint xp n s.str_ s.reserved_)
    (halloc : alloc (s.size_ + n + 1) = some p)
    (hfresh : disjoint p (s.size_ + n + 1) s.str_ s.reserved_)
    (hfreshX : disjoint p (s.size_ + n + 1) xp n)
    (hallocq : alloc (s.size_ + 1 + 1) = some q)
    (hfreshq : disjoint q (s.size_ + 1 + 1) s.str_ s.reserved_) :
    (∃ (m' : Mem C) (s' : string_base),
      append alloc m s xp n = .ok (m', s') ∧
      content m' s' = content m s ++ m.read xp n ∧
      s'.size_ = s.size_ + n) ∧
    (∃ (m' : Mem C) (s' : string_base),
      push_back alloc m s c = .ok (m', s') ∧
      content m' s' = content m s ++ [c] ∧
      s'.size_ = s.size_ + 1) ∧
    append alloc m s xp n
      = Except.map (fun r => (r.1, r.2.1))
          (do_replace alloc m s (s.str_ + s.size_) (s.str_ + s.size_) n
            (fun mem new_i1 => copy mem xp (xp + n) new_i1) (check_overlap s xp (xp + n))) ∧
    push_back alloc m s c
      = Except.map (fun r => (r.1, r.2.1))
          (do_replace alloc m s (s.str_ + s.size_) (s.str_ + s.size_) 1
            (fun mem new_i1 => char_traits.assign mem new_i1 1 c) false) := by
  have e0 : s.size_ + n - (s.size_ - s.size_) = s.size_ + n := by omega
  have e1 : s.size_ + 1 - (s.size_ - s.size_) = s.size_ + 1 := by omega
  have htake : (content m s).take s.size_ = content m s :=
    List.take_of_length_le (by rw [content_length])
  have hdrop : (content m s).drop s.size_ = [] :=
    List.drop_of_length_le (by rw [content_length])
  refine ⟨?_, ?_, ?_, ?_⟩
  · obtain ⟨m', s', heq, _, hsize, _, hcont, _⟩ :=
      replace_range_content alloc m s s.size_ s.size_ xp n p (Nat.le_refl _) (Nat.le_refl _) hcap
        (by rw [e0]; exact halloc) (by rw [e0]; exact hfresh) (by rw [e0]; exact hfreshX)
        (Or.inr (Or.inr hX))
    refine ⟨m', s', ?_, ?_, by omega⟩
    · simp only [append, insert_range, end_, begin_, string_base.my_str]
      exact heq
    · rw [hcont, htake, hdrop, List.append_nil]
  · obtain ⟨m2, m', s', heq, _, hsize, _, _, hcont, _⟩ :=
      do_replace_content alloc m s s.size_ s.size_ 1
        (fun mem new_i1 => char_traits.assign mem new_i1 1 c) false q
        (Nat.le_refl _) (Nat.le_refl _) hcap
        (by rw [e1]; exact hallocq) (by rw [e1]; exact hfreshq)
        (fun mem d a h => char_traits.assign_frame mem d 1 c a h)
    refine ⟨m', s', ?_, ?_, by omega⟩
    · simp only [push_back, insert_char_at, insert_fill_at, end_, begin_, string_base.my_str, heq]
    · rw [hcont, htake, hdrop, List.append_nil]
      congr 1
      apply List.ext_getElem
      · simp [Mem.read_length]
      · intro i h1 h2
        rw [Mem.read_getElem]
        have hi : i = 0 := by
          rw [Mem.read_length] at h1
          omega
        subst hi
        rw [char_traits.assign_apply _ _ _ _ _ (by omega)]
        rfl
  · simp only [append, insert_range, replace_range, end_, begin_, string_base.my_str,
      show xp + n - xp = n by omega]
    cases do_replace alloc m s (s.str_ + s.size_) (s.str_ + s.size_) n
      (fun mem new_i1 => copy mem xp (xp + n) new_i1) (check_overlap s xp (xp + n)) <;> rfl
  · simp only [push_back, insert_char_at, insert_fill_at, end_, begin_, string_base.my_str]
    cases do_replace alloc m s (s.str_ + s.size_) (s.str_ + s.size_) 1
      (fun mem new_i1 => char_traits.assign mem new_i1 1 c) false <;> rfl

/-- C5 at `hello`: appending ` world` gives `hello world`, and `push_back` of
`!` gives `hello!`. -/
theorem append_push_back_content_witness :
    (hello_str.size_ ≤ hello_str.reserved_
      ∧ disjoint 200 6 hello_str.str_ hello_str.reserved_
      ∧ alloc_300 (hello_str.size_ + 6 + 1) = some 300
      ∧ disjoint 300 (hello_str.size_ + 6 + 1) hello_str.str_ hello_str.reserved_
      ∧ disjoint 300 (hello_str.size_ + 6 + 1) 200 6
      ∧ alloc_300 (hello_str.size_ + 1 + 1) = some 300
      ∧ disjoint 300 (hello_str.size_ + 1 + 1) hello_str.str_ hello_str.reserved_)
    ∧ content hello_mem hello_str ++ hello_mem.read 200 6
        = ['h', 'e', 'l', 'l', 'o', ' ', 'w', 'o', 'r', 'l', 'd']
    ∧ (∃ (m' : Mem Char) (s' : string_base),
      append alloc_300 hello_mem hello_str 200 6 = .ok (m', s') ∧
      content m' s' = content hello_mem hello_str ++ hello_mem.read 200 6 ∧
      s'.size_ = hello_str.size_ + 6) ∧
    (∃ (m' : Mem Char) (s' : string_base),
      push_back alloc_300 hello_mem hello_str '!' = .ok (m', s') ∧
      content m' s' = content hello_mem hello_str ++ ['!'] ∧
      s'.size_ = hello_str.size_ + 1) ∧
    append alloc_300 hello_mem hello_str 200 6
      = Except.map (fun r => (r.1, r.2.1))
          (do_replace alloc_300 hello_mem hello_str (hello_str.str_ + hello_str.size_)
            (hello_str.str_ + hello_str.size_) 6
            (fun mem new_i1 => copy mem 200 (200 + 6) new_i1)
            (check_overlap hello_str 200 (200 + 6))) ∧
    push_back alloc_300 hello_mem hello_str '!'
      = Except.map (fun r => (r.1, r.2.1))
          (do_replace alloc_300 hello_mem hello_str (hello_str.str_ + hello_str.size_)
            (hello_str.str_ + hello_str.size_) 1
            (fun mem new_i1 => char_traits.assign mem new_i1 1 '!') false) :=
  ⟨by decide, by decide,
    append_push_back_content alloc_300 hello_mem hello_str 200 6 '!' 300 300 (by decide)
      (by decide) rfl (by decide) (by decide) rfl (by decide)⟩

/-- The overlap test of `replace` on a sub-range `[pos2, pos2+rlen)` of the
string itself reports an overlap exactly when `pos2 < size()`. -/
theorem check_overlap_self (s : string_base) (pos2 rlen : Nat) :
    check_overlap s (s.str_ + pos2) (s.str_ + pos2 + rlen) = decide (pos2 < s.size_) := by
  unfold check_overlap char_traits.check_overlap
  simp only [begin_, end_, string_base.my_str, Nat.le_add_right, if_true, gt_iff_lt,
    Nat.add_lt_add_iff_left]
  by_cases hlt : pos2 < s.size_
  · simp [hlt]
  · simp [hlt]

/-- C6 (as amended): `s.insert( pos1, s, pos2, n )` with `pos1, pos2 ≤ length`
leaves the content `s[0,pos1) ++ s[pos2,pos2+rlen) ++ s[pos1,length)`,
`rlen = min(n, length - pos2)`, all slices taken from the original content, and
`s.append( s )` yields `s ++ s`. The aliasing is detected and the string is
reallocated whenever `pos2 < length`; for `pos2 = length` the empty source range
is not reported as overlapping and, when `length < capacity`, the string keeps
its buffer. The lengths are taken to be representable (no `length_error`) and
the allocator to hand out blocks that do not overlap the buffer. -/
theorem insert_self_content [Zero C] (alloc : Nat → Option Nat) (m : Mem C) (s : string_base)
    (pos1 pos2 n p q : Nat)
    (hpos1 : pos1 ≤ s.size_) (hpos2 : pos2 ≤ s.size_) (hcap : s.size_ ≤ s.reserved_)
    (hrepr : s.size_ + s.size_ ≤ npos)
    (halloc : alloc (s.size_ + min n (s.size_ - pos2) + 1) = some p)
    (hfresh : disjoint p (s.size_ + min n (s.size_ - pos2) + 1) s.str_ s.reserved_)
    (hallocq : alloc (s.size_ + s.size_ + 1) = some q)
    (hfreshq : disjoint q (s.size_ + s.size_ + 1) s.str_ s.reserved_) :
    (∃ (m' : Mem C) (s' : string_base),
      insert_str alloc m s pos1 s pos2 n = .ok (m', s') ∧
      content m' s' = (content m s).take pos1
        ++ ((content m s).drop pos2).take (min n (s.size_ - pos2))
        ++ (content m s).drop pos1 ∧
      (pos2 < s.size_ →
        check_overlap s (s.str_ + pos2) (s.str_ + pos2 + min n (s.size_ - pos2)) = true
        ∧ s'.str_ = p ∧ capacity s' = s.size_ + min n (s.size_ - pos2) + 1) ∧
      (pos2 = s.size_ →
        check_overlap s (s.str_ + pos2) (s.str_ + pos2 + min n (s.size_ - pos2)) = false
        ∧ (s.size_ < s.reserved_ → s'.str_ = s.str_ ∧ capacity s' = capacity s))) ∧
    (∃ (m' : Mem C) (s' : string_base),
      append_str alloc m s s = .ok (m', s') ∧
      content m' s' = content m s ++ content m s) := by
  have key : ∀ (a b k r : Nat), a ≤ s.size_ → b + k ≤ s.size_ →
      alloc (s.size_ + k + 1) = some r →
      disjoint r (s.size_ + k + 1) s.str_ s.reserved_ →
      ∃ (m' : Mem C) (s' : string_base),
        replace_range alloc m s (s.str_ + a) (s.str_ + a) (s.str_ + b) (s.str_ + b + k)
          = .ok (m', s') ∧
        s'.str_ = (if s.size_ + k ≥ s.reserved_ ∨ decide (b < s.size_) = true
          then r else s.str_) ∧
        s'.reserved_ = (if s'.str_ ≠ s.str_ then s.size_ + k + 1 else s.reserved_) ∧
        content m' s' = (content m s).take a ++ ((content m s).drop b).take k
          ++ (content m s).drop a := by
    intro a b k r ha hb hal hfr
    have e0 : s.size_ + k - (a - a) = s.size_ + k := by omega
    have hov := check_overlap_self s b k
    obtain ⟨m', s', heq, hstr, _, hres, hcont, _⟩ :=
      replace_range_content alloc m s a a (s.str_ + b) k r (Nat.le_refl _) ha hcap
        (by rw [e0]; exact hal) (by rw [e0]; exact hfr)
        (by rw [e0]; unfold disjoint at hfr ⊢; omega)
        (by
          by_cases hlt : b < s.size_
          · exact Or.inr (Or.inl (by rw [hov]; exact decide_eq_true hlt))
          · exact Or.inr (Or.inr (Or.inl (by omega))))
    rw [e0, hov] at hstr
    rw [e0] at hres
    refine ⟨m', s', heq, hstr, hres, ?_⟩
    rw [hcont, content_drop m s b, Mem.read_take, Nat.min_eq_left (by omega)]
  have hmin : min n (s.size_ - pos2) ≤ s.size_ - pos2 := Nat.min_le_right _ _
  refine ⟨?_, ?_⟩
  · generalize hk : min n (s.size_ - pos2) = rlen at hmin halloc hfresh
    obtain ⟨m', s', heq, hstr, hres, hcont⟩ :=
      key pos1 pos2 rlen p hpos1 (by omega) halloc hfresh
    have hov := check_overlap_self s pos2 rlen
    refine ⟨m', s', ?_, hcont, ?_, ?_⟩
    · have hle : ¬ (s.size_ > npos - rlen) := by omega
      simp only [insert_str, validate_pos_and_off, verify_pos, size, Nat.not_lt.mpr hpos1,
        Nat.not_lt.mpr hpos2, if_false, insert_range, begin_, string_base.my_str, gt_iff_lt,
        hk]
      rw [if_neg hle]
      exact heq
    · intro hlt
      have hstr' : s'.str_ = p := by
        rw [hstr, if_pos (Or.inr (decide_eq_true hlt))]
      have hne : s'.str_ ≠ s.str_ := by
        rw [hstr']
        unfold disjoint at hfresh
        omega
      refine ⟨by rw [hov]; exact decide_eq_true hlt, hstr', ?_⟩
      rw [capacity, hres, if_pos hne]
    · intro heq2
      refine ⟨by rw [hov]; exact decide_eq_false (by omega), ?_⟩
      intro hlt
      have hstr' : s'.str_ = s.str_ := by
        rw [hstr, if_neg]
        intro hc
        rcases hc with hc | hc
        · omega
        · have := of_decide_eq_true hc
          omega
      refine ⟨hstr', ?_⟩
      rw [capacity, hres, if_neg (by rw [hstr']; exact fun h => h rfl)]
      rfl
  · obtain ⟨m', s', heq, _, _, hcont⟩ :=
      key s.size_ 0 s.size_ q (Nat.le_refl _) (by omega) hallocq hfreshq
    refine ⟨m', s', ?_, ?_⟩
    · have hmin2 : min npos (s.size_ - 0) = s.size_ := by
        rw [Nat.sub_zero]
        exact Nat.min_eq_right (by omega)
      simp only [append_str, append_str_range, validate_pos_and_off, verify_pos, size,
        Nat.not_lt_zero, if_false, insert_range, begin_, end_, string_base.my_str, gt_iff_lt,
        hmin2]
      exact heq
    · rw [hcont, List.drop_zero]
      rw [List.take_of_length_le (by rw [content_length]),
        List.drop_of_length_le (by rw [content_length]), List.append_nil]

/-- C6 at `abc`: `insert( 1, s, 0, 2 )` gives `aabbc`, `append( s )` gives
`abcabc`. -/
theorem insert_self_content_witness :
    (1 ≤ abc_str.size_ ∧ 0 ≤ abc_str.size_ ∧ abc_str.size_ ≤ abc_str.reserved_
      ∧ abc_str.size_ + abc_str.size_ ≤ npos
      ∧ alloc_300 (abc_str.size_ + min 2 (abc_str.size_ - 0) + 1) = some 300
      ∧ disjoint 300 (abc_str.size_ + min 2 (abc_str.size_ - 0) + 1) abc_str.str_
          abc_str.reserved_
      ∧ alloc_300 (abc_str.size_ + abc_str.size_ + 1) = some 300
      ∧ disjoint 300 (abc_str.size_ + abc_str.size_ + 1) abc_str.str_ abc_str.reserved_)
    ∧ (content abc_mem abc_str).take 1
        ++ ((content abc_mem abc_str).drop 0).take (min 2 (abc_str.size_ - 0))
        ++ (content abc_mem abc_str).drop 1 = ['a', 'a', 'b', 'b', 'c']
    ∧ (∃ (m' : Mem Char) (s' : string_base),
      insert_str alloc_300 abc_mem abc_str 1 abc_str 0 2 = .ok (m', s') ∧
      content m' s' = (content abc_mem abc_str).take 1
        ++ ((content abc_mem abc_str).drop 0).take (min 2 (abc_str.size_ - 0))
        ++ (content abc_mem abc_str).drop 1 ∧
      (0 < abc_str.size_ →
        check_overlap abc_str (abc_str.str_ + 0)
          (abc_str.str_ + 0 + min 2 (abc_str.size_ - 0)) = true
        ∧ s'.str_ = 300 ∧ capacity s' = abc_str.size_ + min 2 (abc_str.size_ - 0) + 1) ∧
      (0 = abc_str.size_ →
        check_overlap abc_str (abc_str.str_ + 0)
          (abc_str.str_ + 0 + min 2 (abc_str.size_ - 0)) = false
        ∧ (abc_str.size_ < abc_str.reserved_ →
          s'.str_ = abc_str.str_ ∧ capacity s' = capacity abc_str))) ∧
    (∃ (m' : Mem Char) (s' : string_base),
      append_str alloc_300 abc_mem abc_str abc_str = .ok (m', s') ∧
      content m' s' = content abc_mem abc_str ++ content abc_mem abc_str) :=
  ⟨by decide, by decide,
    insert_self_content alloc_300 abc_mem abc_str 1 0 2 300 300 (by decide) (by decide)
      (by decide) (by decide) rfl (by decide) rfl (by decide)⟩

/-- C6 as stated fails at `abc`: `s.insert( 0, s, 3, 5 )` inserts the empty
range `[end(), end())`; the overlap test reports nothing and the string is not
reallocated: it keeps its buffer at 100 and its capacity 4 although the
allocator would have handed out the block at 300. -/
theorem insert_self_empty_tail_not_reallocated :
    ∃ (m' : Mem Char) (s' : string_base),
      insert_str alloc_300 abc_mem abc_str 0 abc_str 3 5 = .ok (m', s') ∧
      check_overlap abc_str (abc_str.str_ + 3) (abc_str.str_ + 3 + min 5 (abc_str.size_ - 3))
        = false ∧
      s'.str_ = 100 ∧ s'.str_ ≠ 300 ∧ capacity s' = 4 ∧
      content m' s' = ['a', 'b', 'c'] :=
  ⟨_, _, rfl, by decide, by decide, by decide, by decide, by decide⟩

end basic_string

/-! ## The search loops -/

theorem Mem.read_eq_iff {C : Type} (m1 m2 : Mem C) (a b n : Nat) :
    m1.read a n = m2.read b n ↔ ∀ k, k < n → m1 (a + k) = m2 (b + k) := by
  constructor
  · intro h k hk
    have h1 : k < (m1.read a n).length := by rw [Mem.read_length]; exact hk
    have h2 : k < (m2.read b n).length := by rw [Mem.read_length]; exact hk
    have h3 : (m1.read a n)[k] = (m2.read b n)[k] := by simp only [h]
    rwa [Mem.read_getElem, Mem.read_getElem] at h3
  · exact Mem.read_ext m1 m2 a b n

namespace char_traits

variable {C : Type} [DecidableEq C]

theorem find_eq_none (m : Mem C) (s n : Nat) (a : C) (h : find m s n a = none) :
    ∀ j, j < n → m (s + j) ≠ a := by
  induction n generalizing s with
  | zero => intro j hj; omega
  | succ k ih =>
    rw [find] at h
    by_cases hc : m s = a
    · simp [eq, hc] at h
    · simp only [eq, hc, decide_False, Bool.false_eq_true, if_false] at h
      intro j hj
      cases j with
      | zero => exact hc
      | succ i =>
        rw [show s + (i + 1) = s + 1 + i by omega]
        exact ih (s + 1) h i (by omega)

theorem find_eq_some (m : Mem C) (s n : Nat) (a : C) (q : Nat) (h : find m s n a = some q) :
    ∃ j, j < n ∧ q = s + j ∧ m (s + j) = a ∧ ∀ i, i < j → m (s + i) ≠ a := by
  induction n generalizing s with
  | zero => simp [find] at h
  | succ k ih =>
    rw [find] at h
    by_cases hc : m s = a
    · simp only [eq, hc, decide_True, if_true, Option.some.injEq] at h
      exact ⟨0, by omega, by omega, hc, fun i hi => by omega⟩
    · simp only [eq, hc, decide_False, Bool.false_eq_true, if_false] at h
      obtain ⟨j, hj, hq, hm, hmin⟩ := ih (s + 1) h
      refine ⟨j + 1, by omega, by omega, ?_, ?_⟩
      · rw [show s + (j + 1) = s + 1 + j by omega]
        exact hm
      · intro i hi
        cases i with
        | zero => exact hc
        | succ i' =>
          rw [show s + (i' + 1) = s + 1 + i' by omega]
          exact hmin i' (by omega)

variable [LT C] [DecidableRel (fun (a b : C) => a < b)]

theorem compare_eq_zero_iff (m : Mem C) (s1 s2 n : Nat) :
    compare m s1 s2 n = 0 ↔ ∀ k, k < n → m (s1 + k) = m (s2 + k) := by
  induction n generalizing s1 s2 with
  | zero => simp [compare]
  | succ j ih =>
    rw [compare]
    by_cases h : m s1 = m s2
    · simp only [eq, h, decide_True, Bool.not_true, Bool.false_eq_true, if_false]
      rw [ih]
      constructor
      · intro hk k hlt
        cases k with
        | zero => exact h
        | succ i =>
          have := hk i (by omega)
          rw [show s1 + (i + 1) = s1 + 1 + i by omega, show s2 + (i + 1) = s2 + 1 + i by omega]
          exact this
      · intro hk k hlt
        have := hk (k + 1) (by omega)
        rw [show s1 + 1 + k = s1 + (k + 1) by omega, show s2 + 1 + k = s2 + (k + 1) by omega]
        exact this
    · simp only [eq, h, decide_False, Bool.not_false, if_true]
      constructor
      · intro hc
        exfalso
        by_cases hl : lt (m s1) (m s2) = true
        · rw [if_pos hl] at hc
          exact absurd hc (by decide)
        · rw [if_neg hl] at hc
          exact absurd hc (by decide)
      · intro hk
        exact absurd (hk 0 (by omega)) h

end char_traits

namespace basic_string

variable {C : Type} [DecidableEq C] [LT C] [DecidableRel (fun (a b : C) => a < b)]

/-- The loop of `find` started at offset `off` with `cnt` candidate positions
and a bound of at least `cnt`: it returns, and the result is either `npos` with
no match among the candidates, or the first match among them. -/
theorem find_loop_spec (m : Mem C) (s : string_base) (sp n : Nat) (hn : 0 < n)
    (fuel off cnt : Nat) (hfuel : cnt ≤ fuel) :
    ∃ r, find_loop m s sp n fuel (s.str_ + off) cnt = some r ∧
      ((r = npos ∧ ∀ i, off ≤ i → i < off + cnt → m.read (s.str_ + i) n ≠ m.read sp n) ∨
       (off ≤ r ∧ r < off + cnt ∧ m.read (s.str_ + r) n = m.read sp n ∧
          ∀ i, off ≤ i → i < r → m.read (s.str_ + i) n ≠ m.read sp n)) := by
  have first : ∀ i, m (s.str_ + i) ≠ m sp → m.read (s.str_ + i) n ≠ m.read sp n := by
    intro i hne hread
    rw [Mem.read_eq_iff] at hread
    exact hne (hread 0 hn)
  induction fuel generalizing off cnt with
  | zero =>
    have hc : cnt = 0 := by omega
    subst hc
    refine ⟨npos, ?_, Or.inl ⟨rfl, fun i h1 h2 => by omega⟩⟩
    simp [find_loop, char_traits.find]
  | succ k ih =>
    rw [find_loop]
    cases hf : char_traits.find m (s.str_ + off) cnt (m sp) with
    | none =>
      refine ⟨npos, rfl, Or.inl ⟨rfl, ?_⟩⟩
      intro i h1 h2
      apply first
      have := char_traits.find_eq_none m (s.str_ + off) cnt (m sp) hf (i - off) (by omega)
      rwa [show s.str_ + off + (i - off) = s.str_ + i by omega] at this
    | some q =>
      obtain ⟨j, hj, hq, hm, hmin⟩ := char_traits.find_eq_some m (s.str_ + off) cnt (m sp) q hf
      have hbefore : ∀ i, off ≤ i → i < off + j → m.read (s.str_ + i) n ≠ m.read sp n := by
        intro i h1 h2
        apply first
        have := hmin (i - off) (by omega)
        rwa [show s.str_ + off + (i - off) = s.str_ + i by omega] at this
      subst hq
      by_cases hcmp : char_traits.compare m (s.str_ + off + j) sp n = 0
      · refine ⟨off + j, ?_, Or.inr ⟨by omega, by omega, ?_, hbefore⟩⟩
        · simp only [hcmp, if_true, string_base.my_str]
          congr 1
          omega
        · rw [char_traits.compare_eq_zero_iff] at hcmp
          rw [Mem.read_eq_iff, ← Nat.add_assoc]
          exact hcmp
      · have hno : m.read (s.str_ + (off + j)) n ≠ m.read sp n := by
          intro hread
          apply hcmp
          rw [char_traits.compare_eq_zero_iff, Nat.add_assoc, ← Mem.read_eq_iff]
          exact hread
        simp only [hcmp, if_false]
        obtain ⟨r, hr, hspec⟩ := ih (off + j + 1) (cnt - (j + 1)) (by omega)
        refine ⟨r, ?_, ?_⟩
        · rw [show s.str_ + off + j + 1 = s.str_ + (off + j + 1) by omega,
            show s.str_ + off + j - (s.str_ + off) + 1 = j + 1 by omega]
          exact hr
        · rcases hspec with ⟨hnp, hnone⟩ | ⟨h1, h2, h3, h4⟩
          · refine Or.inl ⟨hnp, ?_⟩
            intro i hi1 hi2
            by_cases hlt : i < off + j
            · exact hbefore i hi1 hlt
            · by_cases he : i = off + j
              · rw [he]; exact hno
              · exact hnone i (by omega) (by omega)
          · refine Or.inr ⟨by omega, by omega, h3, ?_⟩
            intro i hi1 hi2
            by_cases hlt : i < off + j
            · exact hbefore i hi1 hlt
            · by_cases he : i = off + j
              · rw [he]; exact hno
              · exact h4 i (by omega) hi2

/-- C7: for every string of representable length, every non-empty needle (the
`n` cells at `sp`) and every `pos`, `find( needle, pos, n )` returns a value
`r`; when the needle occurs at some index `i ≥ pos`, `r` is the smallest such
index; and `r` is `npos` exactly when there is no such index. -/
theorem find_smallest_occurrence (m : Mem C) (s : string_base) (sp pos n : Nat)
    (hn : 0 < n) (hsize : s.size_ ≤ npos) :
    ∃ r, find m s sp pos n = some r ∧
      ((∃ i, pos ≤ i ∧ occurs_at m s sp n i) →
        pos ≤ r ∧ occurs_at m s sp n r ∧ ∀ i, pos ≤ i → occurs_at m s sp n i → r ≤ i) ∧
      (r = npos ↔ ¬ ∃ i, pos ≤ i ∧ occurs_at m s sp n i) := by
  by_cases hguard : pos < s.size_ ∧ n ≤ s.size_ - pos
  · obtain ⟨hlt, hle⟩ := hguard
    obtain ⟨r, hr, hspec⟩ :=
      find_loop_spec m s sp n hn (s.size_ - pos - (n - 1)) pos (s.size_ - pos - (n - 1))
        (Nat.le_refl _)
    have hfind : find m s sp pos n = some r := by
      simp only [find, Nat.pos_iff_ne_zero.mp hn, if_false, hlt, hle, and_self, if_true,
        string_base.my_str]
      exact hr
    refine ⟨r, hfind, ?_⟩
    rcases hspec with ⟨hnp, hnone⟩ | ⟨h1, h2, h3, h4⟩
    · have hno : ¬ ∃ i, pos ≤ i ∧ occurs_at m s sp n i := by
        rintro ⟨i, hi, hb, hread⟩
        exact hnone i hi (by omega) hread
      exact ⟨fun h => absurd h hno, fun _ => hno, fun _ => hnp⟩
    · have hocc : occurs_at m s sp n r := ⟨by omega, h3⟩
      refine ⟨fun _ => ⟨h1, hocc, ?_⟩, ?_, ?_⟩
      · intro i hi hoi
        by_contra hc
        exact h4 i hi (by omega) hoi.2
      · intro hnp
        omega
      · intro hno
        exact absurd ⟨r, h1, hocc⟩ hno
  · have hfind : find m s sp pos n = some npos := by
      simp only [find, Nat.pos_iff_ne_zero.mp hn, if_false, hguard]
    have hno : ¬ ∃ i, pos ≤ i ∧ occurs_at m s sp n i := by
      rintro ⟨i, hi, hb, _⟩
      apply hguard
      omega
    exact ⟨npos, hfind, fun h => absurd h hno, fun _ => hno, fun _ => rfl⟩

/-- C7 at `String("abcabcabc")`: `find("bca", 0)` is 1 and `find("bca", 2)` is 4. -/
theorem find_smallest_occurrence_witness :
    (0 < 3 ∧ abc3_str.size_ ≤ npos)
    ∧ find abc3_mem abc3_str 200 0 3 = some 1
    ∧ find abc3_mem abc3_str 200 2 3 = some 4
    ∧ ∃ r, find abc3_mem abc3_str 200 2 3 = some r ∧
      ((∃ i, 2 ≤ i ∧ occurs_at abc3_mem abc3_str 200 3 i) →
        2 ≤ r ∧ occurs_at abc3_mem abc3_str 200 3 r
          ∧ ∀ i, 2 ≤ i → occurs_at abc3_mem abc3_str 200 3 i → r ≤ i) ∧
      (r = npos ↔ ¬ ∃ i, 2 ≤ i ∧ occurs_at abc3_mem abc3_str 200 3 i) :=
  ⟨by decide, by decide, by decide,
    find_smallest_occurrence abc3_mem abc3_str 200 2 3 (by decide) (by decide)⟩

/-- C8: for every string and every `pos`, `find` with an empty needle returns
`pos` when `pos < length` and `npos` otherwise; at `pos = 0` on a non-empty
string (of length `k + 1`) it returns 0. -/
theorem find_empty_needle (m : Mem C) (s : string_base) (sp pos k : Nat) :
    find m s sp pos 0 = some (if pos < s.size_ then pos else npos) ∧
    find m { s with size_ := k + 1 } sp 0 0 = some 0 := by
  constructor
  · simp [find]
  · simp [find]

/-- The loop of `rfind` started at offset `k`: the result is either `npos` with
no match at any offset up to `k`, or the last match at an offset up to `k`. -/
theorem rfind_loop_spec (m : Mem C) (s : string_base) (sp n : Nat) (hn : 0 < n) (k : Nat) :
    (rfind_loop m s sp n k = npos ∧ ∀ i, i ≤ k → m.read (s.str_ + i) n ≠ m.read sp n) ∨
    (rfind_loop m s sp n k ≤ k ∧
      m.read (s.str_ + rfind_loop m s sp n k) n = m.read sp n ∧
      ∀ i, rfind_loop m s sp n k < i → i ≤ k → m.read (s.str_ + i) n ≠ m.read sp n) := by
  have hmatch : ∀ i, (char_traits.eq (m (s.my_str + i)) (m sp)
      && char_traits.compare m (s.my_str + i) sp n == 0) = true
      ↔ m.read (s.str_ + i) n = m.read sp n := by
    intro i
    rw [Mem.read_eq_iff, Bool.and_eq_true, beq_iff_eq, char_traits.compare_eq_zero_iff]
    simp only [char_traits.eq, decide_eq_true_eq, string_base.my_str]
    constructor
    · exact fun h => h.2
    · exact fun h => ⟨h 0 hn, h⟩
  induction k with
  | zero =>
    rw [rfind_loop]
    by_cases h : m.read (s.str_ + 0) n = m.read sp n
    · rw [if_pos ((hmatch 0).mpr h)]
      exact Or.inr ⟨Nat.le_refl _, h, fun i h1 h2 => by omega⟩
    · rw [if_neg (fun hc => h ((hmatch 0).mp hc))]
      refine Or.inl ⟨rfl, ?_⟩
      intro i hi
      have : i = 0 := by omega
      subst this
      exact h
  | succ j ih =>
    rw [rfind_loop]
    by_cases h : m.read (s.str_ + (j + 1)) n = m.read sp n
    · rw [if_pos ((hmatch (j + 1)).mpr h)]
      exact Or.inr ⟨Nat.le_refl _, h, fun i h1 h2 => by omega⟩
    · rw [if_neg (fun hc => h ((hmatch (j + 1)).mp hc))]
      rcases ih with ⟨h1, h2⟩ | ⟨h1, h2, h3⟩
      · refine Or.inl ⟨h1, ?_⟩
        intro i hi
        by_cases he : i = j + 1
        · rw [he]; exact h
        · exact h2 i (by omega)
      · refine Or.inr ⟨by omega, h2, ?_⟩
        intro i hi1 hi2
        by_cases he : i = j + 1
        · rw [he]; exact h
        · exact h3 i hi1 (by omega)

/-- C9: for every string of representable length, every non-empty needle (the
`n` cells at `sp`) and every `pos`, when the needle occurs at some index
`i ≤ min(pos, length - n)`, `rfind( needle, pos, n )` returns the largest such
index; and it returns `npos` exactly when `n > length` or there is no such
index. -/
theorem rfind_largest_occurrence (m : Mem C) (s : string_base) (sp pos n : Nat)
    (hn : 0 < n) (hsize : s.size_ ≤ npos) :
    ((∃ i, i ≤ min pos (s.size_ - n) ∧ occurs_at m s sp n i) →
      rfind m s sp pos n ≤ min pos (s.size_ - n) ∧
      occurs_at m s sp n (rfind m s sp pos n) ∧
      ∀ i, i ≤ min pos (s.size_ - n) → occurs_at m s sp n i → i ≤ rfind m s sp pos n) ∧
    (rfind m s sp pos n = npos ↔
      (n > s.size_ ∨ ¬ ∃ i, i ≤ min pos (s.size_ - n) ∧ occurs_at m s sp n i)) := by
  by_cases hle : n ≤ s.size_
  · have hr : rfind m s sp pos n = rfind_loop m s sp n (min pos (s.size_ - n)) := by
      simp only [rfind, Nat.pos_iff_ne_zero.mp hn, if_false, hle, if_true]
    rw [hr]
    have hk : min pos (s.size_ - n) ≤ s.size_ - n := Nat.min_le_right _ _
    generalize min pos (s.size_ - n) = k at hk
    rcases rfind_loop_spec m s sp n hn k with ⟨h1, h2⟩ | ⟨h1, h2, h3⟩
    · have hno : ¬ ∃ i, i ≤ k ∧ occurs_at m s sp n i := by
        rintro ⟨i, hi, _, hread⟩
        exact h2 i hi hread
      exact ⟨fun h => absurd h hno, fun _ => Or.inr hno, fun _ => h1⟩
    · have hocc : occurs_at m s sp n (rfind_loop m s sp n k) := ⟨by omega, h2⟩
      refine ⟨fun _ => ⟨h1, hocc, ?_⟩, ?_, ?_⟩
      · intro i hi hoi
        by_contra hc
        exact h3 i (by omega) hi hoi.2
      · intro hnp
        omega
      · intro hc
        rcases hc with hc | hc
        · omega
        · exact absurd ⟨_, h1, hocc⟩ hc
  · have hr : rfind m s sp pos n = npos := by
      simp only [rfind, Nat.pos_iff_ne_zero.mp hn, if_false, hle]
    rw [hr]
    have hno : ¬ ∃ i, i ≤ min pos (s.size_ - n) ∧ occurs_at m s sp n i := by
      rintro ⟨i, _, hb, _⟩
      omega
    exact ⟨fun h => absurd h hno, fun _ => Or.inl (by omega), fun _ => rfl⟩

/-- C9 at `String("abcabcabc")`: `rfind("bca")` is 4 and `rfind("bca", 3)` is 1. -/
theorem rfind_largest_occurrence_witness :
    (0 < 3 ∧ abc3_str.size_ ≤ npos)
    ∧ rfind abc3_mem abc3_str 200 npos 3 = 4
    ∧ rfind abc3_mem abc3_str 200 3 3 = 1
    ∧ ((∃ i, i ≤ min 3 (abc3_str.size_ - 3) ∧ occurs_at abc3_mem abc3_str 200 3 i) →
      rfind abc3_mem abc3_str 200 3 3 ≤ min 3 (abc3_str.size_ - 3) ∧
      occurs_at abc3_mem abc3_str 200 3 (rfind abc3_mem abc3_str 200 3 3) ∧
      ∀ i, i ≤ min 3 (abc3_str.size_ - 3) → occurs_at abc3_mem abc3_str 200 3 i
        → i ≤ rfind abc3_mem abc3_str 200 3 3) ∧
    (rfind abc3_mem abc3_str 200 3 3 = npos ↔
      (3 > abc3_str.size_
        ∨ ¬ ∃ i, i ≤ min 3 (abc3_str.size_ - 3) ∧ occurs_at abc3_mem abc3_str 200 3 i)) :=
  ⟨by decide, by decide, by decide,
    rfind_largest_occurrence abc3_mem abc3_str 200 3 3 (by decide) (by decide)⟩

/-- C10 (as amended): for every string and every `pos`, `rfind` with an empty
needle returns `min(pos, length)` (which is `pos`) when `pos < length`, and
`npos` when `pos ≥ length`; with the default `pos = npos` it returns `npos`. -/
theorem rfind_empty_needle (m : Mem C) (s : string_base) (sp pos : Nat) :
    rfind m s sp pos 0 = (if pos < s.size_ then min pos s.size_ else npos) ∧
    rfind m s sp pos 0 = (if pos < s.size_ then pos else npos) ∧
    rfind m s sp npos 0 = npos := by
  refine ⟨?_, ?_, ?_⟩
  · by_cases h : pos < s.size_
    · simp [rfind, h, Nat.min_eq_left (Nat.le_of_lt h)]
    · simp [rfind, h]
  · simp [rfind]
  · simp [rfind]

/-- C10 as stated fails at `abc`: `rfind` with an empty needle and the default
`pos = npos` returns `npos`, and at `pos = 3` it returns `npos` too, while
`min(pos, length)` is 3. -/
theorem rfind_empty_needle_not_min :
    rfind abc_mem abc_str 200 npos 0 = npos ∧ min npos abc_str.size_ = 3 ∧
    rfind abc_mem abc_str 200 3 0 = npos ∧ min 3 abc_str.size_ = 3 ∧
    rfind abc_mem abc_str 200 npos 0 ≠ abc_str.size_ := by
  decide

end basic_string

/-! ## The character-set searches -/

theorem Mem.mem_read {C : Type} (m : Mem C) (a n : Nat) (c : C) :
    c ∈ m.read a n ↔ ∃ j, j < n ∧ m (a + j) = c := by
  simp [Mem.read]

namespace char_traits

variable {C : Type} [DecidableEq C]

theorem find_isSome_iff (m : Mem C) (s n : Nat) (a : C) :
    (find m s n a).isSome = true ↔ a ∈ m.read s n := by
  rw [Mem.mem_read]
  cases h : find m s n a with
  | none =>
    simp only [Option.isSome_none, Bool.false_eq_true, false_iff]
    rintro ⟨j, hj, hm⟩
    exact find_eq_none m s n a h j hj hm
  | some q =>
    obtain ⟨j, hj, _, hm, _⟩ := find_eq_some m s n a q h
    simp only [Option.isSome_some, true_iff]
    exact ⟨j, hj, hm⟩

theorem find_isNone_iff (m : Mem C) (s n : Nat) (a : C) :
    (find m s n a).isNone = true ↔ a ∉ m.read s n := by
  rw [← find_isSome_iff]
  cases find m s n a <;> simp

end char_traits

namespace basic_string

variable {C : Type} [DecidableEq C]

/-- The forward loop of `find_first_of` over the `cnt` cells from index `k`:
`npos` with no member among them, or the first member. -/
theorem find_first_of_loop_spec (m : Mem C) (s : string_base) (sp n : Nat) (k cnt : Nat) :
    (find_first_of_loop m s sp n k cnt = npos ∧
      ∀ i, k ≤ i → i < k + cnt → m (s.str_ + i) ∉ m.read sp n) ∨
    (k ≤ find_first_of_loop m s sp n k cnt ∧ find_first_of_loop m s sp n k cnt < k + cnt ∧
      m (s.str_ + find_first_of_loop m s sp n k cnt) ∈ m.read sp n ∧
      ∀ i, k ≤ i → i < find_first_of_loop m s sp n k cnt → m (s.str_ + i) ∉ m.read sp n) := by
  induction cnt generalizing k with
  | zero =>
    rw [find_first_of_loop]
    exact Or.inl ⟨rfl, fun i h1 h2 => by omega⟩
  | succ c ih =>
    rw [find_first_of_loop]
    simp only [string_base.my_str]
    by_cases h : m (s.str_ + k) ∈ m.read sp n
    · rw [if_pos ((char_traits.find_isSome_iff m sp n _).mpr h)]
      exact Or.inr ⟨Nat.le_refl _, by omega, h, fun i h1 h2 => by omega⟩
    · rw [if_neg (fun hc => h ((char_traits.find_isSome_iff m sp n _).mp hc))]
      rcases ih (k + 1) with ⟨h1, h2⟩ | ⟨h1, h2, h3, h4⟩
      · refine Or.inl ⟨h1, ?_⟩
        intro i hi1 hi2
        by_cases he : i = k
        · rw [he]; exact h
        · exact h2 i (by omega) (by omega)
      · refine Or.inr ⟨by omega, by omega, h3, ?_⟩
        intro i hi1 hi2
        by_cases he : i = k
        · rw [he]; exact h
        · exact h4 i (by omega) hi2

/-- The backward loop of `find_last_of` from index `k` down to 0: `npos` with
no member at an index up to `k`, or the last member. -/
theorem find_last_of_loop_spec (m : Mem C) (s : string_base) (sp n : Nat) (k : Nat) :
    (find_last_of_loop m s sp n k = npos ∧ ∀ i, i ≤ k → m (s.str_ + i) ∉ m.read sp n) ∨
    (find_last_of_loop m s sp n k ≤ k ∧
      m (s.str_ + find_last_of_loop m s sp n k) ∈ m.read sp n ∧
      ∀ i, find_last_of_loop m s sp n k < i → i ≤ k → m (s.str_ + i) ∉ m.read sp n) := by
  induction k with
  | zero =>
    rw [find_last_of_loop]
    simp only [string_base.my_str]
    by_cases h : m (s.str_ + 0) ∈ m.read sp n
    · rw [if_pos ((char_traits.find_isSome_iff m sp n _).mpr h)]
      exact Or.inr ⟨Nat.le_refl _, h, fun i h1 h2 => by omega⟩
    · rw [if_neg (fun hc => h ((char_traits.find_isSome_iff m sp n _).mp hc))]
      refine Or.inl ⟨rfl, ?_⟩
      intro i hi
      have : i = 0 := by omega
      subst this
      exact h
  | succ j ih =>
    rw [find_last_of_loop]
    simp only [string_base.my_str]
    by_cases h : m (s.str_ + (j + 1)) ∈ m.read sp n
    · rw [if_pos ((char_traits.find_isSome_iff m sp n _).mpr h)]
      exact Or.inr ⟨Nat.le_refl _, h, fun i h1 h2 => by omega⟩
    · rw [if_neg (fun hc => h ((char_traits.find_isSome_iff m sp n _).mp hc))]
      rcases ih with ⟨h1, h2⟩ | ⟨h1, h2, h3⟩
      · refine Or.inl ⟨h1, ?_⟩
        intro i hi
        by_cases he : i = j + 1
        · rw [he]; exact h
        · exact h2 i (by omega)
      · refine Or.inr ⟨by omega, h2, ?_⟩
        intro i hi1 hi2
        by_cases he : i = j + 1
        · rw [he]; exact h
        · exact h3 i hi1 (by omega)

/-- The forward loop of `find_first_not_of` over the `cnt` cells from index
`k`: `npos` with only members among them, or the first non-member. -/
theorem find_first_not_of_loop_spec (m : Mem C) (s : string_base) (sp n : Nat) (k cnt : Nat) :
    (find_first_not_of_loop m s sp n k cnt = npos ∧
      ∀ i, k ≤ i → i < k + cnt → m (s.str_ + i) ∈ m.read sp n) ∨
    (k ≤ find_first_not_of_loop m s sp n k cnt ∧
      find_first_not_of_loop m s sp n k cnt < k + cnt ∧
      m (s.str_ + find_first_not_of_loop m s sp n k cnt) ∉ m.read sp n ∧
      ∀ i, k ≤ i → i < find_first_not_of_loop m s sp n k cnt →
        m (s.str_ + i) ∈ m.read sp n) := by
  induction cnt generalizing k with
  | zero =>
    rw [find_first_not_of_loop]
    exact Or.inl ⟨rfl, fun i h1 h2 => by omega⟩
  | succ c ih =>
    rw [find_first_not_of_loop]
    simp only [string_base.my_str]
    by_cases h : m (s.str_ + k) ∈ m.read sp n
    · rw [if_neg (fun hc => (char_traits.find_isNone_iff m sp n _).mp hc h)]
      rcases ih (k + 1) with ⟨h1, h2⟩ | ⟨h1, h2, h3, h4⟩
      · refine Or.inl ⟨h1, ?_⟩
        intro i hi1 hi2
        by_cases he : i = k
        · rw [he]; exact h
        · exact h2 i (by omega) (by omega)
      · refine Or.inr ⟨by omega, by omega, h3, ?_⟩
        intro i hi1 hi2
        by_cases he : i = k
        · rw [he]; exact h
        · exact h4 i (by omega) hi2
    · rw [if_pos ((char_traits.find_isNone_iff m sp n _).mpr h)]
      exact Or.inr ⟨Nat.le_refl _, by omega, h, fun i h1 h2 => by omega⟩

/-- The backward loop of `find_last_not_of` from index `k` down to 0: `npos`
with only members at the indices up to `k`, or the last non-member. -/
theorem find_last_not_of_loop_spec (m : Mem C) (s : string_base) (sp n : Nat) (k : Nat) :
    (find_last_not_of_loop m s sp n k = npos ∧ ∀ i, i ≤ k → m (s.str_ + i) ∈ m.read sp n) ∨
    (find_last_not_of_loop m s sp n k ≤ k ∧
      m (s.str_ + find_last_not_of_loop m s sp n k) ∉ m.read sp n ∧
      ∀ i, find_last_not_of_loop m s sp n k < i → i ≤ k → m (s.str_ + i) ∈ m.read sp n) := by
  induction k with
  | zero =>
    rw [find_last_not_of_loop]
    simp only [string_base.my_str]
    by_cases h : m (s.str_ + 0) ∈ m.read sp n
    · rw [if_neg (fun hc => (char_traits.find_isNone_iff m sp n _).mp hc h)]
      refine Or.inl ⟨rfl, ?_⟩
      intro i hi
      have : i = 0 := by omega
      subst this
      exact h
    · rw [if_pos ((char_traits.find_isNone_iff m sp n _).mpr h)]
      exact Or.inr ⟨Nat.le_refl _, h, fun i h1 h2 => by omega⟩
  | succ j ih =>
    rw [find_last_not_of_loop]
    simp only [string_base.my_str]
    by_cases h : m (s.str_ + (j + 1)) ∈ m.read sp n
    · rw [if_neg (fun hc => (char_traits.find_isNone_iff m sp n _).mp hc h)]
      rcases ih with ⟨h1, h2⟩ | ⟨h1, h2, h3⟩
      · refine Or.inl ⟨h1, ?_⟩
        intro i hi
        by_cases he : i = j + 1
        · rw [he]; exact h
        · exact h2 i (by omega)
      · refine Or.inr ⟨by omega, h2, ?_⟩
        intro i hi1 hi2
        by_cases he : i = j + 1
        · rw [he]; exact h
        · exact h3 i hi1 (by omega)
    · rw [if_pos ((char_traits.find_isNone_iff m sp n _).mpr h)]
      exact Or.inr ⟨Nat.le_refl _, h, fun i h1 h2 => by omega⟩

/-- C11: for every string of representable length, every character set (the `n`
cells at `sp`) and every `pos`: when the string holds a member of the set at
some index `i ≥ pos`, `find_first_of` returns the smallest such index; and it
returns `npos` exactly when there is no such index. -/
theorem find_first_of_smallest_member (m : Mem C) (s : string_base) (sp pos n : Nat)
    (hsize : s.size_ ≤ npos) :
    ((∃ i, pos ≤ i ∧ member_at m s sp n i) →
      pos ≤ find_first_of m s sp pos n ∧ member_at m s sp n (find_first_of m s sp pos n) ∧
      ∀ i, pos ≤ i → member_at m s sp n i → find_first_of m s sp pos n ≤ i) ∧
    (find_first_of m s sp pos n = npos ↔ ¬ ∃ i, pos ≤ i ∧ member_at m s sp n i) := by
  by_cases hguard : n > 0 ∧ pos < s.size_
  · have hr : find_first_of m s sp pos n = find_first_of_loop m s sp n pos (s.size_ - pos) := by
      simp only [find_first_of, hguard, and_self, if_true]
    rw [hr]
    rcases find_first_of_loop_spec m s sp n pos (s.size_ - pos) with ⟨h1, h2⟩ | ⟨h1, h2, h3, h4⟩
    · have hno : ¬ ∃ i, pos ≤ i ∧ member_at m s sp n i := by
        rintro ⟨i, hi, hlt, hmem⟩
        exact h2 i hi (by omega) hmem
      exact ⟨fun h => absurd h hno, fun _ => hno, fun _ => h1⟩
    · have hmem : member_at m s sp n (find_first_of_loop m s sp n pos (s.size_ - pos)) :=
        ⟨by omega, h3⟩
      refine ⟨fun _ => ⟨h1, hmem, ?_⟩, ?_, ?_⟩
      · intro i hi hmi
        by_contra hc
        exact h4 i hi (by omega) hmi.2
      · intro hnp
        omega
      · intro hno
        exact absurd ⟨_, h1, hmem⟩ hno
  · have hr : find_first_of m s sp pos n = npos := by
      simp only [find_first_of, hguard, if_false]
    rw [hr]
    have hno : ¬ ∃ i, pos ≤ i ∧ member_at m s sp n i := by
      rintro ⟨i, hi, hlt, hmem⟩
      apply hguard
      rw [Mem.mem_read] at hmem
      obtain ⟨j, hj, _⟩ := hmem
      exact ⟨by omega, by omega⟩
    exact ⟨fun h => absurd h hno, fun _ => hno, fun _ => rfl⟩

/-- C11 at `hello` with the set ` world`: `find_first_of` from 0 is 2. -/
theorem find_first_of_smallest_member_witness :
    hello_str.size_ ≤ npos
    ∧ find_first_of hello_mem hello_str 200 0 6 = 2
    ∧ ((∃ i, 0 ≤ i ∧ member_at hello_mem hello_str 200 6 i) →
      0 ≤ find_first_of hello_mem hello_str 200 0 6 ∧
      member_at hello_mem hello_str 200 6 (find_first_of hello_mem hello_str 200 0 6) ∧
      ∀ i, 0 ≤ i → member_at hello_mem hello_str 200 6 i →
        find_first_of hello_mem hello_str 200 0 6 ≤ i) ∧
    (find_first_of hello_mem hello_str 200 0 6 = npos ↔
      ¬ ∃ i, 0 ≤ i ∧ member_at hello_mem hello_str 200 6 i) :=
  ⟨by decide, by decide,
    find_first_of_smallest_member hello_mem hello_str 200 0 6 (by decide)⟩

/-- C12: for every string of representable length, every character set (the `n`
cells at `sp`) and every `pos`: when the string holds a member of the set at
some index `i ≤ pos`, `find_last_of` returns the largest such index; and it
returns `npos` exactly when there is no such index. -/
theorem find_last_of_largest_member (m : Mem C) (s : string_base) (sp pos n : Nat)
    (hsize : s.size_ ≤ npos) :
    ((∃ i, i ≤ pos ∧ member_at m s sp n i) →
      find_last_of m s sp pos n ≤ pos ∧ member_at m s sp n (find_last_of m s sp pos n) ∧
      ∀ i, i ≤ pos → member_at m s sp n i → i ≤ find_last_of m s sp pos n) ∧
    (find_last_of m s sp pos n = npos ↔ ¬ ∃ i, i ≤ pos ∧ member_at m s sp n i) := by
  by_cases hguard : n > 0 ∧ s.size_ ≠ 0
  · have hr : find_last_of m s sp pos n = find_last_of_loop m s sp n (min pos (s.size_ - 1)) := by
      simp only [find_last_of, hguard, and_self, if_true, ne_eq, not_false_eq_true]
    rw [hr]
    have hk1 : min pos (s.size_ - 1) ≤ pos := Nat.min_le_left _ _
    have hk2 : min pos (s.size_ - 1) ≤ s.size_ - 1 := Nat.min_le_right _ _
    have hk3 : ∀ i, i ≤ pos → i < s.size_ → i ≤ min pos (s.size_ - 1) := by
      intro i h1 h2
      exact Nat.le_min.mpr ⟨h1, by omega⟩
    generalize min pos (s.size_ - 1) = k at hk1 hk2 hk3
    rcases find_last_of_loop_spec m s sp n k with ⟨h1, h2⟩ | ⟨h1, h2, h3⟩
    · have hno : ¬ ∃ i, i ≤ pos ∧ member_at m s sp n i := by
        rintro ⟨i, hi, hlt, hmem⟩
        exact h2 i (hk3 i hi hlt) hmem
      exact ⟨fun h => absurd h hno, fun _ => hno, fun _ => h1⟩
    · have hmem : member_at m s sp n (find_last_of_loop m s sp n k) := ⟨by omega, h2⟩
      refine ⟨fun _ => ⟨by omega, hmem, ?_⟩, ?_, ?_⟩
      · intro i hi hmi
        by_contra hc
        exact h3 i (by omega) (hk3 i hi hmi.1) hmi.2
      · intro hnp
        omega
      · intro hno
        exact absurd ⟨_, by omega, hmem⟩ hno
  · have hr : find_last_of m s sp pos n = npos := by
      simp only [find_last_of, hguard, if_false]
    rw [hr]
    have hno : ¬ ∃ i, i ≤ pos ∧ member_at m s sp n i := by
      rintro ⟨i, hi, hlt, hmem⟩
      apply hguard
      rw [Mem.mem_read] at hmem
      obtain ⟨j, hj, _⟩ := hmem
      exact ⟨by omega, by omega⟩
    exact ⟨fun h => absurd h hno, fun _ => hno, fun _ => rfl⟩

/-- C12 at `hello` with the set ` world`: `find_last_of` from `npos` is 4. -/
theorem find_last_of_largest_member_witness :
    hello_str.size_ ≤ npos
    ∧ find_last_of hello_mem hello_str 200 npos 6 = 4
    ∧ ((∃ i, i ≤ npos ∧ member_at hello_mem hello_str 200 6 i) →
      find_last_of hello_mem hello_str 200 npos 6 ≤ npos ∧
      member_at hello_mem hello_str 200 6 (find_last_of hello_mem hello_str 200 npos 6) ∧
      ∀ i, i ≤ npos → member_at hello_mem hello_str 200 6 i →
        i ≤ find_last_of hello_mem hello_str 200 npos 6) ∧
    (find_last_of hello_mem hello_str 200 npos 6 = npos ↔
      ¬ ∃ i, i ≤ npos ∧ member_at hello_mem hello_str 200 6 i) :=
  ⟨by decide, by decide,
    find_last_of_largest_member hello_mem hello_str 200 npos 6 (by decide)⟩

/-- What `find_first_not_of` does for a non-empty character set (the `n > 0`
cells at `sp`), on a string of representable length: when the string holds a
non-member of the set at some index `i ≥ pos` it returns the smallest such
index, and it returns `npos` exactly when there is no such index. For `n = 0`
the guard `n > 0 && pos < size_` skips the scan and the result is `npos`. -/
theorem find_first_not_of_smallest_non_member (m : Mem C) (s : string_base) (sp pos n : Nat)
    (hn : 0 < n) (hsize : s.size_ ≤ npos) :
    ((∃ i, pos ≤ i ∧ non_member_at m s sp n i) →
      pos ≤ find_first_not_of m s sp pos n ∧
      non_member_at m s sp n (find_first_not_of m s sp pos n) ∧
      ∀ i, pos ≤ i → non_member_at m s sp n i → find_first_not_of m s sp pos n ≤ i) ∧
    (find_first_not_of m s sp pos n = npos ↔ ¬ ∃ i, pos ≤ i ∧ non_member_at m s sp n i) ∧
    find_first_not_of m s sp pos 0 = npos := by
  refine ⟨?_, ?_, by simp [find_first_not_of]⟩
  all_goals
    by_cases hlt : pos < s.size_
    · have hr : find_first_not_of m s sp pos n
          = find_first_not_of_loop m s sp n pos (s.size_ - pos) := by
        simp only [find_first_not_of, hn, hlt, and_self, if_true, gt_iff_lt]
      rw [hr]
      rcases find_first_not_of_loop_spec m s sp n pos (s.size_ - pos) with
        ⟨h1, h2⟩ | ⟨h1, h2, h3, h4⟩
      · have hno : ¬ ∃ i, pos ≤ i ∧ non_member_at m s sp n i := by
          rintro ⟨i, hi, hlt2, hmem⟩
          exact hmem (h2 i hi (by omega))
        first
          | exact fun h => absurd h hno
          | exact ⟨fun _ => hno, fun _ => h1⟩
      · have hmem : non_member_at m s sp n
            (find_first_not_of_loop m s sp n pos (s.size_ - pos)) := ⟨by omega, h3⟩
        first
          | exact fun _ => ⟨h1, hmem, fun i hi hmi => by
              by_contra hc
              exact hmi.2 (h4 i hi (by omega))⟩
          | exact ⟨fun hnp => by omega, fun hno => absurd ⟨_, h1, hmem⟩ hno⟩
    · have hr : find_first_not_of m s sp pos n = npos := by
        simp only [find_first_not_of, hlt, and_false, if_false]
      rw [hr]
      have hno : ¬ ∃ i, pos ≤ i ∧ non_member_at m s sp n i := by
        rintro ⟨i, hi, hlt2, _⟩
        omega
      first
        | exact fun h => absurd h hno
        | exact ⟨fun _ => hno, fun _ => rfl⟩

/-- The same at `hello` with the set ` world`: `find_first_not_of` from 0 is 0,
and from 1 it is 1. -/
theorem find_first_not_of_smallest_non_member_witness :
    (0 < 6 ∧ hello_str.size_ ≤ npos)
    ∧ find_first_not_of hello_mem hello_str 200 0 6 = 0
    ∧ find_first_not_of hello_mem hello_str 200 1 6 = 1
    ∧ ((∃ i, 1 ≤ i ∧ non_member_at hello_mem hello_str 200 6 i) →
      1 ≤ find_first_not_of hello_mem hello_str 200 1 6 ∧
      non_member_at hello_mem hello_str 200 6 (find_first_not_of hello_mem hello_str 200 1 6) ∧
      ∀ i, 1 ≤ i → non_member_at hello_mem hello_str 200 6 i →
        find_first_not_of hello_mem hello_str 200 1 6 ≤ i) ∧
    (find_first_not_of hello_mem hello_str 200 1 6 = npos ↔
      ¬ ∃ i, 1 ≤ i ∧ non_member_at hello_mem hello_str 200 6 i) ∧
    find_first_not_of hello_mem hello_str 200 1 0 = npos :=
  ⟨by decide, by decide, by decide,
    find_first_not_of_smallest_non_member hello_mem hello_str 200 1 6 (by decide) (by decide)⟩

/-- C13 at its failing input, `abc` with the empty set: the character at the
index 0 is not a member of the empty set, so 0 is the smallest index of a
character "not from s", and `find_first_not_of` from 0 returns `npos`. -/
theorem find_first_not_of_empty_set_npos :
    find_first_not_of abc_mem abc_str 200 0 0 = npos ∧
    0 ≤ 0 ∧ non_member_at abc_mem abc_str 200 0 0 ∧
    find_first_not_of abc_mem abc_str 200 0 0 ≠ 0 := by
  decide

/-- What `find_last_not_of` does for a non-empty character set (the `n > 0`
cells at `sp`), on a string of representable length: when the string holds a
non-member of the set at some index `i ≤ pos` it returns the largest such
index, and it returns `npos` exactly when there is no such index. For `n = 0`
the guard `n > 0 && size_` skips the scan and the result is `npos`. -/
theorem find_last_not_of_largest_non_member (m : Mem C) (s : string_base) (sp pos n : Nat)
    (hn : 0 < n) (hsize : s.size_ ≤ npos) :
    ((∃ i, i ≤ pos ∧ non_member_at m s sp n i) →
      find_last_not_of m s sp pos n ≤ pos ∧
      non_member_at m s sp n (find_last_not_of m s sp pos n) ∧
      ∀ i, i ≤ pos → non_member_at m s sp n i → i ≤ find_last_not_of m s sp pos n) ∧
    (find_last_not_of m s sp pos n = npos ↔ ¬ ∃ i, i ≤ pos ∧ non_member_at m s sp n i) ∧
    find_last_not_of m s sp pos 0 = npos := by
  refine ⟨?_, ?_, by simp [find_last_not_of]⟩
  all_goals
    by_cases hne : s.size_ ≠ 0
    · have hr : find_last_not_of m s sp pos n
          = find_last_not_of_loop m s sp n (min pos (s.size_ - 1)) := by
        simp only [find_last_not_of, hn, hne, and_self, if_true, gt_iff_lt, ne_eq,
          not_false_eq_true]
      rw [hr]
      have hk1 : min pos (s.size_ - 1) ≤ pos := Nat.min_le_left _ _
      have hk2 : min pos (s.size_ - 1) ≤ s.size_ - 1 := Nat.min_le_right _ _
      have hk3 : ∀ i, i ≤ pos → i < s.size_ → i ≤ min pos (s.size_ - 1) := by
        intro i h1 h2
        exact Nat.le_min.mpr ⟨h1, by omega⟩
      generalize min pos (s.size_ - 1) = k at hk1 hk2 hk3
      rcases find_last_not_of_loop_spec m s sp n k with ⟨h1, h2⟩ | ⟨h1, h2, h3⟩
      · have hno : ¬ ∃ i, i ≤ pos ∧ non_member_at m s sp n i := by
          rintro ⟨i, hi, hlt, hmem⟩
          exact hmem (h2 i (hk3 i hi hlt))
        first
          | exact fun h => absurd h hno
          | exact ⟨fun _ => hno, fun _ => h1⟩
      · have hmem : non_member_at m s sp n (find_last_not_of_loop m s sp n k) :=
          ⟨by omega, h2⟩
        first
          | exact fun _ => ⟨by omega, hmem, fun i hi hmi => by
              by_contra hc
              exact hmi.2 (h3 i (by omega) (hk3 i hi hmi.1))⟩
          | exact ⟨fun hnp => by omega, fun hno => absurd ⟨_, by omega, hmem⟩ hno⟩
    · have hr : find_last_not_of m s sp pos n = npos := by
        simp only [find_last_not_of, hne, and_false, if_false]
      rw [hr]
      have hno : ¬ ∃ i, i ≤ pos ∧ non_member_at m s sp n i := by
        rintro ⟨i, hi, hlt, _⟩
        omega
      first
        | exact fun h => absurd h hno
        | exact ⟨fun _ => hno, fun _ => rfl⟩

/-- The same at `hello` with the set ` world`: `find_last_not_of` from `npos`
is 1. -/
theorem find_last_not_of_largest_non_member_witness :
    (0 < 6 ∧ hello_str.size_ ≤ npos)
    ∧ find_last_not_of hello_mem hello_str 200 npos 6 = 1
    ∧ ((∃ i, i ≤ npos ∧ non_member_at hello_mem hello_str 200 6 i) →
      find_last_not_of hello_mem hello_str 200 npos 6 ≤ npos ∧
      non_member_at hello_mem hello_str 200 6
        (find_last_not_of hello_mem hello_str 200 npos 6) ∧
      ∀ i, i ≤ npos → non_member_at hello_mem hello_str 200 6 i →
        i ≤ find_last_not_of hello_mem hello_str 200 npos 6) ∧
    (find_last_not_of hello_mem hello_str 200 npos 6 = npos ↔
      ¬ ∃ i, i ≤ npos ∧ non_member_at hello_mem hello_str 200 6 i) ∧
    find_last_not_of hello_mem hello_str 200 npos 0 = npos :=
  ⟨by decide, by decide,
    find_last_not_of_largest_non_member hello_mem hello_str 200 npos 6 (by decide)
      (by decide)⟩

/-- C14 at its failing input, `abc` with the empty set: the character at the
index 2 is not a member of the empty set, so 2 is the largest index of a
character "not from s", and `find_last_not_of` from `npos` returns `npos`. -/
theorem find_last_not_of_empty_set_npos :
    find_last_not_of abc_mem abc_str 200 npos 0 = npos ∧
    2 ≤ npos ∧ non_member_at abc_mem abc_str 200 0 2 ∧
    find_last_not_of abc_mem abc_str 200 npos 0 ≠ 2 := by
  decide

end basic_string

/-! ## compare -/

/-- The conversion to `int` of the `size_type` difference of two lengths below
`2^31` is their difference. -/
theorem to_int_size_type_sub (a b : Nat) (ha : a < 2 ^ 31) (hb : b < 2 ^ 31) :
    to_int (size_type_sub a b) = (a : Int) - (b : Int) := by
  unfold to_int size_type_sub npos
  norm_num
  split_ifs with h <;> omega

theorem to_int_size_type_sub_self (a : Nat) : to_int (size_type_sub a a) = 0 := by
  unfold to_int size_type_sub npos
  norm_num

namespace char_traits

variable {C : Type} [DecidableEq C]

/-- Two cell sequences agree on `n` cells, or have a first differing index. -/
theorem first_diff_cases (m : Mem C) (s1 s2 n : Nat) :
    (∀ k, k < n → m (s1 + k) = m (s2 + k)) ∨
    ∃ j, j < n ∧ (∀ i, i < j → m (s1 + i) = m (s2 + i)) ∧ m (s1 + j) ≠ m (s2 + j) := by
  induction n with
  | zero => exact Or.inl (fun k hk => by omega)
  | succ k ih =>
    rcases ih with h | ⟨j, hj, h1, h2⟩
    · by_cases hk : m (s1 + k) = m (s2 + k)
      · refine Or.inl ?_
        intro i hi
        by_cases he : i = k
        · rw [he]; exact hk
        · exact h i (by omega)
      · exact Or.inr ⟨k, by omega, h, hk⟩
    · exact Or.inr ⟨j, by omega, h1, h2⟩

variable [LT C] [DecidableRel (fun (a b : C) => a < b)]

/-- The result of `compare` when the first differing cell is at index `j`. -/
theorem compare_of_first_diff (m : Mem C) (s1 s2 n j : Nat) (hj : j < n)
    (heq : ∀ i, i < j → m (s1 + i) = m (s2 + i)) (hne : m (s1 + j) ≠ m (s2 + j)) :
    compare m s1 s2 n = if m (s1 + j) < m (s2 + j) then -1 else 1 := by
  induction n generalizing s1 s2 j with
  | zero => omega
  | succ k ih =>
    rw [compare]
    cases j with
    | zero =>
      simp only [Nat.add_zero] at hne ⊢
      simp [eq, lt, hne]
    | succ j' =>
      have h0 : m s1 = m s2 := heq 0 (by omega)
      simp only [eq, h0, decide_True, Bool.not_true, Bool.false_eq_true, if_false]
      have := ih (s1 + 1) (s2 + 1) j' (by omega)
        (fun i hi => by
          have := heq (i + 1) (by omega)
          rwa [show s1 + (i + 1) = s1 + 1 + i by omega,
            show s2 + (i + 1) = s2 + 1 + i by omega] at this)
        (by rwa [show s1 + (j' + 1) = s1 + 1 + j' by omega,
            show s2 + (j' + 1) = s2 + 1 + j' by omega] at hne)
      rw [this, show s1 + 1 + j' = s1 + (j' + 1) by omega,
        show s2 + 1 + j' = s2 + (j' + 1) by omega]

end char_traits

namespace basic_string

variable {C : Type}

/-- Two strings have the same content iff they have the same length and the
same cells. -/
theorem content_eq_iff (m : Mem C) (a b : string_base) :
    content m a = content m b ↔
      a.size_ = b.size_ ∧ ∀ i, i < a.size_ → m (a.str_ + i) = m (b.str_ + i) := by
  constructor
  · intro h
    have hl : a.size_ = b.size_ := by
      have := congrArg List.length h
      rwa [content_length, content_length] at this
    refine ⟨hl, ?_⟩
    unfold content at h
    rw [← hl, Mem.read_eq_iff] at h
    exact h
  · rintro ⟨hl, hc⟩
    unfold content
    rw [← hl]
    exact Mem.read_ext m m a.str_ b.str_ a.size_ hc

variable [DecidableEq C] [LT C] [DecidableRel (fun (a b : C) => a < b)]

/-- The value of `compare( str )`: the comparison of the common part, or the
converted difference of the lengths when the common parts are equal. -/
theorem compare_eval (m : Mem C) (a b : string_base) :
    basic_string.compare m a b
      = .ok (if char_traits.compare m a.str_ b.str_ (min a.size_ b.size_) = 0
          then to_int (size_type_sub a.size_ b.size_)
          else char_traits.compare m a.str_ b.str_ (min a.size_ b.size_)) := by
  simp only [basic_string.compare, compare_str_range, compare_cstr, verify_pos,
    validate_pos_and_off, size, data, c_str, string_base.my_str, gt_iff_lt, Nat.not_lt_zero,
    if_false, Nat.sub_zero, Nat.min_self, Nat.add_zero]
  split_ifs <;> rfl

/-- For strings shorter than `2^31`, `a.compare( b )` is zero iff `a` and `b`
have the same content, and negative iff `a` precedes `b`: at the first
differing index the cell of `a` is smaller, or `a` is a proper initial part of
`b`. -/
theorem compare_lexicographic_of_short (m : Mem C) (a b : string_base)
    (ha : a.size_ < 2 ^ 31) (hb : b.size_ < 2 ^ 31) :
    ∃ r : Int, basic_string.compare m a b = .ok r ∧
      (r = 0 ↔ content m a = content m b) ∧
      (r < 0 ↔
        ((∃ j, j < a.size_ ∧ j < b.size_ ∧ (∀ i, i < j → m (a.str_ + i) = m (b.str_ + i)) ∧
            m (a.str_ + j) ≠ m (b.str_ + j) ∧ m (a.str_ + j) < m (b.str_ + j)) ∨
          (a.size_ < b.size_ ∧ ∀ i, i < a.size_ → m (a.str_ + i) = m (b.str_ + i)))) := by
  refine ⟨_, compare_eval m a b, ?_⟩
  rw [content_eq_iff]
  rcases char_traits.first_diff_cases m a.str_ b.str_ (min a.size_ b.size_) with
    hall | ⟨j, hj, heq, hne⟩
  · rw [if_pos ((char_traits.compare_eq_zero_iff m _ _ _).mpr hall),
      to_int_size_type_sub _ _ ha hb]
    constructor
    · constructor
      · intro h
        have hl : a.size_ = b.size_ := by omega
        exact ⟨hl, fun i hi => hall i (by rw [← hl, Nat.min_self]; exact hi)⟩
      · rintro ⟨hl, _⟩
        omega
    · constructor
      · intro h
        have hl : a.size_ < b.size_ := by omega
        exact Or.inr ⟨hl, fun i hi => hall i (by rw [Nat.min_eq_left (by omega)]; exact hi)⟩
      · rintro (⟨j, hja, hjb, _, hne, _⟩ | ⟨hl, _⟩)
        · exact absurd (hall j (Nat.lt_min.mpr ⟨hja, hjb⟩)) hne
        · omega
  · have hja : j < a.size_ := Nat.lt_of_lt_of_le hj (Nat.min_le_left _ _)
    have hjb : j < b.size_ := Nat.lt_of_lt_of_le hj (Nat.min_le_right _ _)
    have hcmp := char_traits.compare_of_first_diff m a.str_ b.str_ _ j hj heq hne
    have hnz : char_traits.compare m a.str_ b.str_ (min a.size_ b.size_) ≠ 0 := by
      rw [hcmp]
      split_ifs <;> decide
    rw [if_neg hnz, hcmp]
    constructor
    · constructor
      · intro h
        exact absurd h (by split_ifs <;> decide)
      · rintro ⟨_, hc⟩
        exact absurd (hc j hja) hne
    · constructor
      · intro h
        by_cases hlt : m (a.str_ + j) < m (b.str_ + j)
        · exact Or.inl ⟨j, hja, hjb, heq, hne, hlt⟩
        · rw [if_neg hlt] at h
          exact absurd h (by decide)
      · rintro (⟨j', hja', hjb', heq', hne', hlt'⟩ | ⟨_, hc⟩)
        · have hjj : j' = j := by
            rcases Nat.lt_trichotomy j' j with h | h | h
            · exact absurd (heq j' h) hne'
            · exact h
            · exact absurd (heq' j h) hne
          subst hjj
          rw [if_pos hlt']
          decide
        · exact absurd (hc j hja) hne

/-- The same at the empty string compared with itself, which gives 0, and at
`String("a").compare("b")`, which is negative. -/
theorem compare_lexicographic_of_short_witness :
    (a_str.size_ < 2 ^ 31 ∧ b_str.size_ < 2 ^ 31)
    ∧ basic_string.compare ab_mem empty_str empty_str = .ok 0
    ∧ basic_string.compare ab_mem a_str b_str = .ok (-1)
    ∧ ∃ r : Int, basic_string.compare ab_mem a_str b_str = .ok r ∧
      (r = 0 ↔ content ab_mem a_str = content ab_mem b_str) ∧
      (r < 0 ↔
        ((∃ j, j < a_str.size_ ∧ j < b_str.size_ ∧
            (∀ i, i < j → ab_mem (a_str.str_ + i) = ab_mem (b_str.str_ + i)) ∧
            ab_mem (a_str.str_ + j) ≠ ab_mem (b_str.str_ + j) ∧
            ab_mem (a_str.str_ + j) < ab_mem (b_str.str_ + j)) ∨
          (a_str.size_ < b_str.size_ ∧
            ∀ i, i < a_str.size_ → ab_mem (a_str.str_ + i) = ab_mem (b_str.str_ + i)))) :=
  ⟨by decide, rfl, rfl,
    compare_lexicographic_of_short ab_mem a_str b_str (by decide) (by decide)⟩

/-- C15 at its failing input: a string of `2^31` characters compared with the
empty string. The empty string is a proper initial part of the long one, so the
result should be positive; `len1 - n2` converted to `int` is `-2^31`. -/
theorem compare_long_with_empty_negative :
    basic_string.compare (Mem.zero : Mem Char) long_str empty_str = .ok (-2147483648) ∧
    empty_str.size_ < long_str.size_ ∧
    long_str.size_ ≤ npos := by
  refine ⟨rfl, by decide, by decide⟩

/-- For strings shorter than `2^31` over a totally ordered character type,
`a.compare( b )` and `b.compare( a )` have opposite signs. -/
theorem compare_antisymmetric_of_short (m : Mem C) (a b : string_base)
    (htri : ∀ c d : C, c < d ∨ c = d ∨ d < c) (hasym : ∀ c d : C, c < d → ¬ d < c)
    (ha : a.size_ < 2 ^ 31) (hb : b.size_ < 2 ^ 31) :
    ∃ r1 r2 : Int, basic_string.compare m a b = .ok r1 ∧ basic_string.compare m b a = .ok r2 ∧
      Int.sign r1 = - Int.sign r2 := by
  refine ⟨_, _, compare_eval m a b, compare_eval m b a, ?_⟩
  rw [Nat.min_comm b.size_ a.size_]
  rcases char_traits.first_diff_cases m a.str_ b.str_ (min a.size_ b.size_) with
    hall | ⟨j, hj, heq, hne⟩
  · rw [if_pos ((char_traits.compare_eq_zero_iff m _ _ _).mpr hall),
      if_pos ((char_traits.compare_eq_zero_iff m _ _ _).mpr (fun k hk => (hall k hk).symm)),
      to_int_size_type_sub _ _ ha hb, to_int_size_type_sub _ _ hb ha, ← Int.sign_neg]
    congr 1
    omega
  · have h1 := char_traits.compare_of_first_diff m a.str_ b.str_ _ j hj heq hne
    have h2 := char_traits.compare_of_first_diff m b.str_ a.str_ _ j hj
      (fun i hi => (heq i hi).symm) (fun h => hne h.symm)
    rw [h1, h2]
    by_cases hlt : m (a.str_ + j) < m (b.str_ + j)
    · have hgt : ¬ m (b.str_ + j) < m (a.str_ + j) := hasym _ _ hlt
      simp [hlt, hgt]
    · have hgt : m (b.str_ + j) < m (a.str_ + j) := by
        rcases htri (m (a.str_ + j)) (m (b.str_ + j)) with h | h | h
        · exact absurd h hlt
        · exact absurd h hne
        · exact h
      simp [hlt, hgt]

/-- For every string, `a.compare( a )` is 0. -/
theorem compare_self (m : Mem C) (a : string_base) : basic_string.compare m a a = .ok 0 := by
  rw [compare_eval, Nat.min_self,
    if_pos ((char_traits.compare_eq_zero_iff m _ _ _).mpr (fun _ _ => rfl)),
    to_int_size_type_sub_self]

/-- C16 at its failing input: a string of `2^31` characters and the empty
string compare negative in both orders, so the signs are not opposite. -/
theorem compare_not_antisymmetric_for_long :
    basic_string.compare (Mem.zero : Mem Char) long_str empty_str = .ok (-2147483648) ∧
    basic_string.compare (Mem.zero : Mem Char) empty_str long_str = .ok (-2147483648) ∧
    Int.sign (-2147483648) ≠ - Int.sign (-2147483648) := by
  refine ⟨rfl, rfl, by decide⟩

/-- C17 at its failing input: for `a = b = abc`, `a.compare( 0, 3, b, 0, 100 )`
is `3 - 100`, not 0: `n2` is not clamped to the length of `b`, while
`a.compare( 0, 3, b, 0, 3 )`, the comparison with both lengths clamped, is 0. -/
theorem compare_str_range_second_length_not_clamped :
    compare_str_range abc_mem abc_str 0 3 abc_str 0 100 = .ok (-97) ∧
    compare_str_range abc_mem abc_str 0 3 abc_str 0 (min 100 (abc_str.size_ - 0)) = .ok 0 := by
  refine ⟨rfl, rfl⟩

end basic_string

/-! ## Construction, `substr` and the position checks -/

namespace string_base

variable {C : Type}

/-- The only exceptions of `reserve` are `length_error` and `bad_alloc`, both
thrown before any change. -/
theorem reserve_error [Zero C] (floor : Nat → Nat → Nat) (alloc_max_size : Nat)
    (alloc : Nat → Option Nat) (m : Mem C) (s : string_base) (n : Nat) (t : Thrown C)
    (h : reserve floor alloc_max_size alloc m s n = .error t) :
    t = (.length_error, m, s) ∨ t = (.bad_alloc, m, s) := by
  unfold reserve at h
  by_cases h1 : n ≥ max_size alloc_max_size
  · rw [if_pos h1] at h
    injection h with h
    exact Or.inl h.symm
  · rw [if_neg h1] at h
    by_cases h2 : n > s.reserved_
    · rw [if_pos h2] at h
      cases ha : alloc (floor n min_buff_size) with
      | none =>
        rw [ha] at h
        injection h with h
        exact Or.inr h.symm
      | some p =>
        rw [ha] at h
        exact absurd h (by simp)
    · rw [if_neg h2] at h
      exact absurd h (by simp)

/-- The base constructor, when its allocation succeeds: an empty string in the
block handed out, with the terminator written at its first cell. -/
theorem ctor_ok [Zero C] (floor : Nat → Nat → Nat) (alloc_max_size : Nat)
    (alloc0 : Nat → Option Nat) (m : Mem C) (p0 : Nat)
    (hmax : min_buff_size < max_size alloc_max_size)
    (halloc0 : alloc0 (floor min_buff_size min_buff_size) = some p0)
    (hp0 : p0 ≠ null_ptr) :
    ctor floor alloc_max_size alloc0 m
      = .ok (m.write (p0 + 0) 0, ⟨p0, 0, floor min_buff_size min_buff_size⟩) := by
  have h1 : ¬ (min_buff_size ≥ max_size alloc_max_size) := by omega
  have h2 : min_buff_size > 0 := by decide
  simp only [ctor, reserve, h1, if_false, h2, if_true, halloc0, ne_eq, not_true_eq_false,
    reset_ptr, hp0, not_false_eq_true, set_end]

end string_base

namespace basic_string

variable {C : Type}

/-- The only exception of `do_replace` is `bad_alloc`, thrown before any
change. -/
theorem do_replace_error [Zero C] (alloc : Nat → Option Nat) (m : Mem C) (s : string_base)
    (i1 i2 xlen : Nat) (put : Mem C → Nat → Mem C) (overlaped : Bool) (t : Thrown C)
    (h : do_replace alloc m s i1 i2 xlen put overlaped = .error t) :
    t = (.bad_alloc, m, s) := by
  unfold do_replace at h
  simp only [] at h
  split at h
  · injection h with h
    exact h.symm
  · exact absurd h (by simp)

/-- The only exception of the template `replace` is `bad_alloc`, thrown before
any change. -/
theorem replace_range_error [Zero C] (alloc : Nat → Option Nat) (m : Mem C) (s : string_base)
    (first last first2 last2 : Nat) (t : Thrown C)
    (h : replace_range alloc m s first last first2 last2 = .error t) :
    t = (.bad_alloc, m, s) := by
  unfold replace_range at h
  simp only [] at h
  split at h
  · rename_i e he
    injection h with h
    rw [← h]
    exact do_replace_error alloc m s _ _ _ _ _ e he
  · exact absurd h (by simp)

/-- What `substr( pos, n )` does for a valid position, when the allocator
hands out blocks that overlap neither the source buffer nor each other: a new
string holding the clamped range, in a buffer of its own, and no cell of the
source buffer is written. -/
theorem substr_spec [Zero C] (floor : Nat → Nat → Nat) (alloc_max_size : Nat)
    (alloc0 alloc : Nat → Option Nat) (m : Mem C) (s : string_base) (pos n p0 p1 : Nat)
    (hpos : pos ≤ s.size_) (hcap : s.size_ ≤ s.reserved_)
    (hmax : string_base.min_buff_size < string_base.max_size alloc_max_size)
    (hfloor : 0 < floor string_base.min_buff_size string_base.min_buff_size)
    (halloc0 : alloc0 (floor string_base.min_buff_size string_base.min_buff_size) = some p0)
    (hp0 : p0 ≠ string_base.null_ptr)
    (hfresh0 : disjoint p0 (floor string_base.min_buff_size string_base.min_buff_size)
      s.str_ s.reserved_)
    (halloc : alloc (min n (s.size_ - pos) + 1) = some p1)
    (hfresh1 : disjoint p1 (min n (s.size_ - pos) + 1) s.str_ s.reserved_)
    (hfresh10 : disjoint p1 (min n (s.size_ - pos) + 1) p0
      (floor string_base.min_buff_size string_base.min_buff_size)) :
    ∃ (m' : Mem C) (t : string_base),
      substr floor alloc_max_size alloc0 alloc m s pos n = .ok (m', t) ∧
      t.size_ = min n (s.size_ - pos) ∧
      content m' t = ((content m s).drop pos).take (min n (s.size_ - pos)) ∧
      t.size_ < t.reserved_ ∧
      disjoint t.str_ t.reserved_ s.str_ s.reserved_ ∧
      (∀ a, s.str_ ≤ a → a < s.str_ + s.reserved_ → m' a = m a) := by
  have hmin : min n (s.size_ - pos) ≤ s.size_ - pos := Nat.min_le_right _ _
  generalize hk : min n (s.size_ - pos) = rlen at hmin halloc hfresh1 hfresh10
  generalize hf : floor string_base.min_buff_size string_base.min_buff_size = f
    at hfloor halloc0 hfresh0 hfresh10
  have e0 : 0 + rlen - (0 - 0) = rlen := by omega
  obtain ⟨m', t, heq, hstr, hsize, hres, hcont, _, hframe⟩ :=
    replace_range_content alloc ((m.write (p0 + 0) 0).write (p0 + 0) 0) ⟨p0, 0, f⟩ 0 0
      (s.str_ + pos) rlen p1 (Nat.le_refl _) (Nat.le_refl _) (Nat.zero_le _)
      (by rw [e0]; exact halloc) (by rw [e0]; exact hfresh10)
      (by rw [e0]; unfold disjoint at hfresh1 ⊢; omega)
      (Or.inr (Or.inr (by unfold disjoint at hfresh0 ⊢; simp only []; omega)))
  simp only [e0, Nat.add_zero] at heq hstr hsize hres hcont hframe
  have hread : ((m.write p0 0).write p0 0).read (s.str_ + pos) rlen
      = m.read (s.str_ + pos) rlen := by
    apply Mem.read_ext
    intro i hi
    unfold disjoint at hfresh0
    simp only [Mem.write]
    rw [if_neg (by omega), if_neg (by omega)]
  have hcases : (t.str_ = p1 ∧ t.reserved_ = rlen + 1) ∨
      (t.str_ = p0 ∧ t.reserved_ = f ∧ rlen < f) := by
    by_cases hre : rlen ≥ f ∨ check_overlap ⟨p0, 0, f⟩ (s.str_ + pos) (s.str_ + pos + rlen) = true
    · rw [if_pos hre] at hstr
      have hne : p1 ≠ p0 := by
        unfold disjoint at hfresh10
        omega
      rw [hstr, if_pos hne] at hres
      exact Or.inl ⟨hstr, hres⟩
    · rw [if_neg hre] at hstr
      rw [hstr, if_neg (fun h => h rfl)] at hres
      refine Or.inr ⟨hstr, hres, ?_⟩
      by_contra hc
      exact hre (Or.inl (by omega))
  refine ⟨m', t, ?_, hsize, ?_, ?_, ?_, ?_⟩
  · simp only [substr, ctor_str_range,
      string_base.ctor_ok floor alloc_max_size alloc0 m p0 hmax (hf ▸ halloc0) hp0,
      assign_str_range, validate_pos_and_off, verify_pos, size, Nat.not_lt.mpr hpos, if_false,
      assign_range, string_base.set_end, insert_range, begin_, string_base.my_str, gt_iff_lt,
      hk, hf, Nat.add_zero]
    exact heq
  · have hc0 : content ((m.write p0 0).write p0 0) ⟨p0, 0, f⟩ = [] := by
      simp [content, Mem.read]
    rw [hcont, hread, hc0, List.take_nil, List.drop_nil, List.nil_append, List.append_nil,
      content_drop m s pos, Mem.read_take, Nat.min_eq_left hmin]
  · rcases hcases with ⟨_, h2⟩ | ⟨_, h2, h3⟩ <;> omega
  · unfold disjoint at hfresh0 hfresh1 ⊢
    rcases hcases with ⟨h1, h2⟩ | ⟨h1, h2, h3⟩ <;> omega
  · intro a ha1 ha2
    unfold disjoint at hfresh0 hfresh1
    rw [hframe a (by rcases hcases with ⟨h1, h2⟩ | ⟨h1, h2, h3⟩ <;> omega)]
    simp only [Mem.write]
    rw [if_neg (by omega), if_neg (by omega)]

/-- C18: for every string, every `pos ≤ length` and every `n`, `substr( pos, n )`
returns a new string, in a buffer of its own, whose content is
`s[pos, pos+rlen)` and whose length is `rlen = min(n, length - pos)`, with
capacity at least its length, and leaves the source unchanged. The allocator is taken to succeed and to hand out blocks that
overlap neither the buffer of `s` nor each other, and the rounding helper to
return a positive size. -/
theorem substr_content_length_capacity [Zero C] (floor : Nat → Nat → Nat)
    (alloc_max_size : Nat) (alloc0 alloc : Nat → Option Nat) (m : Mem C) (s : string_base)
    (pos n p0 p1 : Nat)
    (hpos : pos ≤ s.size_) (hcap : s.size_ ≤ s.reserved_)
    (hmax : string_base.min_buff_size < string_base.max_size alloc_max_size)
    (hfloor : 0 < floor string_base.min_buff_size string_base.min_buff_size)
    (halloc0 : alloc0 (floor string_base.min_buff_size string_base.min_buff_size) = some p0)
    (hp0 : p0 ≠ string_base.null_ptr)
    (hfresh0 : disjoint p0 (floor string_base.min_buff_size string_base.min_buff_size)
      s.str_ s.reserved_)
    (halloc : alloc (min n (s.size_ - pos) + 1) = some p1)
    (hfresh1 : disjoint p1 (min n (s.size_ - pos) + 1) s.str_ s.reserved_)
    (hfresh10 : disjoint p1 (min n (s.size_ - pos) + 1) p0
      (floor string_base.min_buff_size string_base.min_buff_size)) :
    ∃ (m' : Mem C) (t : string_base),
      substr floor alloc_max_size alloc0 alloc m s pos n = .ok (m', t) ∧
      content m' t = ((content m s).drop pos).take (min n (s.size_ - pos)) ∧
      t.size_ = min n (s.size_ - pos) ∧
      t.size_ ≤ capacity t ∧
      disjoint t.str_ (capacity t) s.str_ (capacity s) ∧
      content m' s = content m s := by
  obtain ⟨m', t, heq, hsize, hcont, hlt, hown, hframe⟩ :=
    substr_spec floor alloc_max_size alloc0 alloc m s pos n p0 p1 hpos hcap hmax hfloor halloc0
      hp0 hfresh0 halloc hfresh1 hfresh10
  refine ⟨m', t, heq, hcont, hsize, Nat.le_of_lt hlt, hown, ?_⟩
  unfold content
  apply Mem.read_ext
  intro i hi
  exact hframe _ (by omega) (by omega)

/-- C18 at `String("hello").substr(1,3)`: the result is `ell`. -/
theorem substr_content_length_capacity_witness :
    (1 ≤ hello_str.size_ ∧ hello_str.size_ ≤ hello_str.reserved_
      ∧ string_base.min_buff_size < string_base.max_size 1000
      ∧ 0 < round_up string_base.min_buff_size string_base.min_buff_size
      ∧ alloc_300 (round_up string_base.min_buff_size string_base.min_buff_size) = some 300
      ∧ 300 ≠ string_base.null_ptr
      ∧ disjoint 300 (round_up string_base.min_buff_size string_base.min_buff_size)
          hello_str.str_ hello_str.reserved_
      ∧ alloc_106 (min 3 (hello_str.size_ - 1) + 1) = some 106
      ∧ disjoint 106 (min 3 (hello_str.size_ - 1) + 1) hello_str.str_ hello_str.reserved_
      ∧ disjoint 106 (min 3 (hello_str.size_ - 1) + 1) 300
          (round_up string_base.min_buff_size string_base.min_buff_size))
    ∧ ((content hello_mem hello_str).drop 1).take (min 3 (hello_str.size_ - 1))
        = ['e', 'l', 'l']
    ∧ ∃ (m' : Mem Char) (t : string_base),
      substr round_up 1000 alloc_300 alloc_106 hello_mem hello_str 1 3 = .ok (m', t) ∧
      content m' t = ((content hello_mem hello_str).drop 1).take (min 3 (hello_str.size_ - 1)) ∧
      t.size_ = min 3 (hello_str.size_ - 1) ∧
      t.size_ ≤ capacity t ∧
      disjoint t.str_ (capacity t) hello_str.str_ (capacity hello_str) ∧
      content m' hello_str = content hello_mem hello_str :=
  ⟨by decide, by decide,
    substr_content_length_capacity round_up 1000 alloc_300 alloc_106 hello_mem hello_str 1 3
      300 106 (by decide) (by decide) (by decide) (by decide) rfl (by decide) (by decide) rfl
      (by decide) (by decide)⟩

/-- An operation that throws `out_of_range` with the state `(m, s)` throws it
with no other state. -/
theorem out_of_range_state {α : Type} (r : Except (Thrown C) α) (m m' : Mem C)
    (s s' : string_base) (h : r = .error (.out_of_range, m, s))
    (h' : r = .error (.out_of_range, m', s')) :
    content m' s' = content m s ∧ s'.size_ = s.size_ ∧ capacity s' = capacity s := by
  rw [h] at h'
  injection h' with h'
  injection h' with _ h'
  injection h' with h1 h2
  subst h1
  subst h2
  exact ⟨rfl, rfl, rfl⟩

/-- The position check of `insert( pos, s, n )`. -/
theorem insert_out_of_range [Zero C] (alloc : Nat → Option Nat) (m : Mem C) (s : string_base)
    (pos xp n : Nat) :
    (s.size_ < pos → insert alloc m s pos xp n = .error (.out_of_range, m, s)) ∧
    (∀ (m' : Mem C) (s' : string_base),
      insert alloc m s pos xp n = .error (.out_of_range, m', s') → s.size_ < pos) := by
  constructor
  · intro h
    simp [insert, verify_pos, size, h]
  · intro m' s' h
    by_contra hc
    simp only [insert, verify_pos, size, hc, if_false, insert_range, gt_iff_lt] at h
    have := replace_range_error alloc m s _ _ _ _ _ h
    simp at this

/-- The position check of `erase( pos, n )`. -/
theorem erase_out_of_range [Zero C] (m : Mem C) (s : string_base) (pos n : Nat) :
    (s.size_ < pos → erase m s pos n = .error (.out_of_range, m, s)) ∧
    (∀ (m' : Mem C) (s' : string_base),
      erase m s pos n = .error (.out_of_range, m', s') → s.size_ < pos) := by
  constructor
  · intro h
    simp [erase, size, h]
  · intro m' s' h
    by_contra hc
    simp [erase, size, hc] at h

/-- The position check of `replace( pos, n1, s, n2 )`. -/
theorem replace_out_of_range [Zero C] (alloc : Nat → Option Nat) (m : Mem C) (s : string_base)
    (pos n1 xp n2 : Nat) :
    (s.size_ < pos → replace alloc m s pos n1 xp n2 = .error (.out_of_range, m, s)) ∧
    (∀ (m' : Mem C) (s' : string_base),
      replace alloc m s pos n1 xp n2 = .error (.out_of_range, m', s') → s.size_ < pos) := by
  constructor
  · intro h
    simp [replace, validate_pos_and_off, verify_pos, size, h]
  · intro m' s' h
    by_contra hc
    simp only [replace, validate_pos_and_off, verify_pos, size, hc, if_false, gt_iff_lt] at h
    have := replace_range_error alloc m s _ _ _ _ _ h
    simp at this

/-- The position check of `append( str, pos, n )`: the position indexes `str`. -/
theorem append_str_range_out_of_range [Zero C] (alloc : Nat → Option Nat) (m : Mem C)
    (s str : string_base) (pos n : Nat) :
    (str.size_ < pos → append_str_range alloc m s str pos n = .error (.out_of_range, m, s)) ∧
    (∀ (m' : Mem C) (s' : string_base),
      append_str_range alloc m s str pos n = .error (.out_of_range, m', s') →
        str.size_ < pos) := by
  constructor
  · intro h
    simp [append_str_range, validate_pos_and_off, verify_pos, size, h]
  · intro m' s' h
    by_contra hc
    simp only [append_str_range, validate_pos_and_off, verify_pos, size, hc, if_false,
      insert_range, gt_iff_lt] at h
    have := replace_range_error alloc m s _ _ _ _ _ h
    simp at this

/-- The position check of `assign( str, pos, n )`: the position indexes `str`,
and the check precedes `set_end( 0 )`. -/
theorem assign_str_range_out_of_range [Zero C] (alloc : Nat → Option Nat) (m : Mem C)
    (s str : string_base) (pos n : Nat) :
    (str.size_ < pos → assign_str_range alloc m s str pos n = .error (.out_of_range, m, s)) ∧
    (∀ (m' : Mem C) (s' : string_base),
      assign_str_range alloc m s str pos n = .error (.out_of_range, m', s') →
        str.size_ < pos) := by
  constructor
  · intro h
    simp [assign_str_range, validate_pos_and_off, verify_pos, size, h]
  · intro m' s' h
    by_contra hc
    simp only [assign_str_range, validate_pos_and_off, verify_pos, size, hc, if_false,
      assign_range, insert_range, gt_iff_lt] at h
    have := replace_range_error alloc _ _ _ _ _ _ _ h
    simp at this

/-- A `substr( pos, n )` that throws `out_of_range` was given `pos > length`. -/
theorem substr_out_of_range_only_if [Zero C] (floor : Nat → Nat → Nat) (alloc_max_size : Nat)
    (alloc0 alloc : Nat → Option Nat) (m : Mem C) (s : string_base) (pos n : Nat)
    (m' : Mem C) (t : string_base)
    (h : substr floor alloc_max_size alloc0 alloc m s pos n = .error (.out_of_range, m', t)) :
    s.size_ < pos := by
  unfold substr ctor_str_range at h
  cases hc : string_base.ctor floor alloc_max_size alloc0 m with
  | error e =>
    rw [hc] at h
    simp only [] at h
    injection h with h
    unfold string_base.ctor at hc
    rcases string_base.reserve_error _ _ _ _ _ _ _ hc with he | he <;>
      · rw [he] at h
        simp at h
  | ok r =>
    rw [hc] at h
    exact (assign_str_range_out_of_range alloc r.1 r.2 s pos n).2 m' t h

/-- C20: each of `insert( pos, X )`, `erase( pos, n )`, `replace( pos, n1, X )`,
`append( str, pos, n )`, `assign( str, pos, n )` and `substr( pos, n )` throws
`out_of_range` exactly when its position exceeds the length of the string it
indexes, and then the receiver keeps its content, length and capacity. For
`substr`, whose constructor allocates before the check, the allocator is taken
to succeed with a block that does not overlap the buffer of the receiver. -/
theorem out_of_range_exactly_when_pos_exceeds_length [Zero C] (floor : Nat → Nat → Nat)
    (alloc_max_size : Nat) (alloc0 alloc : Nat → Option Nat) (m : Mem C) (s str : string_base)
    (pos n n1 xp p0 : Nat)
    (hcap : s.size_ ≤ s.reserved_)
    (hmax : string_base.min_buff_size < string_base.max_size alloc_max_size)
    (hfloor : 0 < floor string_base.min_buff_size string_base.min_buff_size)
    (halloc0 : alloc0 (floor string_base.min_buff_size string_base.min_buff_size) = some p0)
    (hp0 : p0 ≠ string_base.null_ptr)
    (hfresh0 : disjoint p0 (floor string_base.min_buff_size string_base.min_buff_size)
      s.str_ s.reserved_) :
    ((s.size_ < pos → insert alloc m s pos xp n = .error (.out_of_range, m, s)) ∧
      (∀ (m' : Mem C) (s' : string_base),
        insert alloc m s pos xp n = .error (.out_of_range, m', s') →
          s.size_ < pos ∧ content m' s' = content m s ∧ s'.size_ = s.size_ ∧
            capacity s' = capacity s)) ∧
    ((s.size_ < pos → erase m s pos n = .error (.out_of_range, m, s)) ∧
      (∀ (m' : Mem C) (s' : string_base),
        erase m s pos n = .error (.out_of_range, m', s') →
          s.size_ < pos ∧ content m' s' = content m s ∧ s'.size_ = s.size_ ∧
            capacity s' = capacity s)) ∧
    ((s.size_ < pos → replace alloc m s pos n1 xp n = .error (.out_of_range, m, s)) ∧
      (∀ (m' : Mem C) (s' : string_base),
        replace alloc m s pos n1 xp n = .error (.out_of_range, m', s') →
          s.size_ < pos ∧ content m' s' = content m s ∧ s'.size_ = s.size_ ∧
            capacity s' = capacity s)) ∧
    ((str.size_ < pos → append_str_range alloc m s str pos n = .error (.out_of_range, m, s)) ∧
      (∀ (m' : Mem C) (s' : string_base),
        append_str_range alloc m s str pos n = .error (.out_of_range, m', s') →
          str.size_ < pos ∧ content m' s' = content m s ∧ s'.size_ = s.size_ ∧
            capacity s' = capacity s)) ∧
    ((str.size_ < pos → assign_str_range alloc m s str pos n = .error (.out_of_range, m, s)) ∧
      (∀ (m' : Mem C) (s' : string_base),
        assign_str_range alloc m s str pos n = .error (.out_of_range, m', s') →
          str.size_ < pos ∧ content m' s' = content m s ∧ s'.size_ = s.size_ ∧
            capacity s' = capacity s)) ∧
    ((s.size_ < pos → ∃ (m' : Mem C) (t : string_base),
        substr floor alloc_max_size alloc0 alloc m s pos n = .error (.out_of_range, m', t) ∧
          content m' s = content m s) ∧
      (∀ (m' : Mem C) (t : string_base),
        substr floor alloc_max_size alloc0 alloc m s pos n = .error (.out_of_range, m', t) →
          s.size_ < pos)) := by
  refine ⟨⟨(insert_out_of_range alloc m s pos xp n).1, ?_⟩,
    ⟨(erase_out_of_range m s pos n).1, ?_⟩,
    ⟨(replace_out_of_range alloc m s pos n1 xp n).1, ?_⟩,
    ⟨(append_str_range_out_of_range alloc m s str pos n).1, ?_⟩,
    ⟨(assign_str_range_out_of_range alloc m s str pos n).1, ?_⟩, ⟨?_, ?_⟩⟩
  · intro m' s' h
    have hlt := (insert_out_of_range alloc m s pos xp n).2 m' s' h
    exact ⟨hlt, out_of_range_state _ m m' s s' ((insert_out_of_range alloc m s pos xp n).1 hlt) h⟩
  · intro m' s' h
    have hlt := (erase_out_of_range m s pos n).2 m' s' h
    exact ⟨hlt, out_of_range_state _ m m' s s' ((erase_out_of_range m s pos n).1 hlt) h⟩
  · intro m' s' h
    have hlt := (replace_out_of_range alloc m s pos n1 xp n).2 m' s' h
    exact ⟨hlt, out_of_range_state _ m m' s s'
      ((replace_out_of_range alloc m s pos n1 xp n).1 hlt) h⟩
  · intro m' s' h
    have hlt := (append_str_range_out_of_range alloc m s str pos n).2 m' s' h
    exact ⟨hlt, out_of_range_state _ m m' s s'
      ((append_str_range_out_of_range alloc m s str pos n).1 hlt) h⟩
  · intro m' s' h
    have hlt := (assign_str_range_out_of_range alloc m s str pos n).2 m' s' h
    exact ⟨hlt, out_of_range_state _ m m' s s'
      ((assign_str_range_out_of_range alloc m s str pos n).1 hlt) h⟩
  · intro hlt
    refine ⟨m.write (p0 + 0) 0,
      ⟨p0, 0, floor string_base.min_buff_size string_base.min_buff_size⟩, ?_, ?_⟩
    · simp only [substr, ctor_str_range,
        string_base.ctor_ok floor alloc_max_size alloc0 m p0 hmax halloc0 hp0,
        assign_str_range, validate_pos_and_off, verify_pos, size, hlt, gt_iff_lt, if_true]
    · unfold content
      apply Mem.read_ext
      intro i hi
      unfold disjoint at hfresh0
      simp only [Mem.write]
      rw [if_neg (by omega)]
  · exact substr_out_of_range_only_if floor alloc_max_size alloc0 alloc m s pos n

/-- C20 at `hello` with the position 9. -/
theorem out_of_range_exactly_when_pos_exceeds_length_witness :
    (hello_str.size_ ≤ hello_str.reserved_
      ∧ string_base.min_buff_size < string_base.max_size 1000
      ∧ 0 < round_up string_base.min_buff_size string_base.min_buff_size
      ∧ alloc_300 (round_up string_base.min_buff_size string_base.min_buff_size) = some 300
      ∧ 300 ≠ string_base.null_ptr
      ∧ disjoint 300 (round_up string_base.min_buff_size string_base.min_buff_size)
          hello_str.str_ hello_str.reserved_)
    ∧ hello_str.size_ < 9
    ∧ (∃ (m' : Mem Char) (t : string_base),
        substr round_up 1000 alloc_300 alloc_300 hello_mem hello_str 9 3
          = .error (.out_of_range, m', t) ∧
        content m' hello_str = content hello_mem hello_str)
    ∧ insert alloc_300 hello_mem hello_str 9 200 6 = .error (.out_of_range, hello_mem, hello_str)
    ∧ erase hello_mem hello_str 9 3 = .error (.out_of_range, hello_mem, hello_str) :=
  have h := out_of_range_exactly_when_pos_exceeds_length round_up 1000 alloc_300 alloc_300
    hello_mem hello_str hello_str 9 3 1 200 300 (by decide) (by decide) (by decide) rfl
    (by decide) (by decide)
  ⟨by decide, by decide, h.2.2.2.2.2.1 (by decide), h.1.1 (by decide), h.2.1.1 (by decide)⟩

/-- C19 at its failing input: the block of `hello` is `[100, 106)` and the
allocator places `t = s.substr( 1, 3 )`, the string `ell`, in the next block,
at 106. Then `s.resize( 6, 'x' )`, a resize to the capacity of `s`, does not
reallocate and `set_end( 6 )` writes the terminator to the cell 106, the first
character of `t`. -/
theorem resize_to_capacity_overwrites_substr :
    ∃ (m1 : Mem Char) (t : string_base) (m2 : Mem Char) (s2 : string_base),
      substr round_up 1000 alloc_106 alloc_300 hello_mem hello_str 1 3 = .ok (m1, t) ∧
      content m1 t = ['e', 'l', 'l'] ∧
      disjoint t.str_ t.reserved_ hello_str.str_ hello_str.reserved_ ∧
      resize round_up 1000 alloc_300 m1 hello_str (capacity hello_str) 'x' = .ok (m2, s2) ∧
      content m2 t = [Char.ofNat 0, 'l', 'l'] ∧
      content m2 t ≠ content m1 t ∧
      s2.str_ + s2.size_ = t.str_ :=
  ⟨_, _, _, _, rfl, by decide, by decide, rfl, by decide, by decide, by decide⟩

/-- The template `replace` on `s` writes no cell of a buffer that overlaps
neither the buffer of `s` nor the block the allocator hands out. -/
theorem replace_range_keeps [Zero C] (alloc : Nat → Option Nat) (m : Mem C)
    (s t : string_base) (pos1 pos2 xp n : Nat)
    (h12 : pos1 ≤ pos2) (h2 : pos2 ≤ s.size_) (hcap : s.size_ ≤ s.reserved_)
    (hdisj : disjoint t.str_ t.reserved_ s.str_ s.reserved_)
    (halloc : ∀ k, ∃ p, alloc k = some p ∧ disjoint p k s.str_ s.reserved_ ∧
      disjoint p k t.str_ t.reserved_) :
    ∃ (m' : Mem C) (s' : string_base),
      replace_range alloc m s (s.str_ + pos1) (s.str_ + pos2) xp (xp + n) = .ok (m', s') ∧
      (∀ a, t.str_ ≤ a → a < t.str_ + t.reserved_ → m' a = m a) := by
  obtain ⟨p, hp, hps, hpt⟩ := halloc (s.size_ + n - (pos2 - pos1) + 1)
  obtain ⟨_, m', s', heq, hstr, hsize, _, _, _, _, hframe⟩ :=
    replace_range_shape alloc m s pos1 pos2 xp n p h12 h2 hcap hp hps
  refine ⟨m', s', heq, ?_⟩
  intro a ha1 ha2
  apply hframe
  unfold disjoint at hdisj hpt
  by_cases hre : s.size_ + n - (pos2 - pos1) ≥ s.reserved_
      ∨ check_overlap s xp (xp + n) = true
  · rw [if_pos hre] at hstr
    omega
  · rw [if_neg hre] at hstr
    have hlt : s.size_ + n - (pos2 - pos1) < s.reserved_ := by
      by_contra hc
      exact hre (Or.inl (by omega))
    omega

/-- `erase( pos, n )` writes no cell outside `[begin(), end())`. -/
theorem erase_keeps [Zero C] (m : Mem C) (s : string_base) (pos n : Nat)
    (hpos : pos ≤ s.size_) :
    ∃ (m' : Mem C) (s' : string_base),
      erase m s pos n = .ok (m', s') ∧
      (∀ a, a < s.str_ ∨ s.str_ + s.size_ ≤ a → m' a = m a) := by
  have hk : min n (s.size_ - pos) ≤ s.size_ - pos := Nat.min_le_right _ _
  generalize hkdef : min n (s.size_ - pos) = k at hk
  by_cases hk0 : k = 0
  · subst hk0
    refine ⟨m, s, ?_, fun _ _ => rfl⟩
    simp [erase, erase_range, size, hkdef, Nat.not_lt.mpr hpos]
  · refine ⟨(char_traits.copy m (s.str_ + pos) (s.str_ + pos + k) (s.size_ - pos - k)).write
        (s.str_ + (s.size_ - k)) 0,
      { s with size_ := s.size_ - k }, ?_, ?_⟩
    · have e1 : s.str_ + s.size_ - (s.str_ + pos + k) = s.size_ - pos - k := by omega
      have e2 : s.str_ + pos + k - (s.str_ + pos) = k := by omega
      simp [erase, erase_range, size, begin_, end_, string_base.my_str, hkdef,
        Nat.not_lt.mpr hpos, hk0, string_base.set_end, e1, e2]
    · intro a ha
      simp only [Mem.write, char_traits.copy]
      rw [if_neg (by omega), char_traits.move_frame _ _ _ _ _ (by omega)]

/-- The content of a string is determined by the cells of its buffer. -/
theorem content_congr (m m' : Mem C) (t : string_base) (ht : t.size_ ≤ t.reserved_)
    (h : ∀ a, t.str_ ≤ a → a < t.str_ + t.reserved_ → m' a = m a) :
    content m' t = content m t := by
  unfold content
  apply Mem.read_ext
  intro i hi
  exact h _ (by omega) (by omega)

/-- Mutations that stay inside their buffer: `insert`, `erase`, `replace`,
`append` and `assign` applied to a string `s` with `length < capacity` leave the
content of every string `t` whose buffer does not overlap the buffer of `s`
unchanged, the allocator handing out blocks that overlap neither buffer. -/
theorem other_string_kept_by_insert_erase_replace_append_assign [Zero C]
    (alloc : Nat → Option Nat) (m : Mem C) (s t : string_base) (pos n n1 xp : Nat)
    (hpos : pos ≤ s.size_) (hcap : s.size_ < s.reserved_) (ht : t.size_ ≤ t.reserved_)
    (hdisj : disjoint t.str_ t.reserved_ s.str_ s.reserved_)
    (halloc : ∀ k, ∃ p, alloc k = some p ∧ disjoint p k s.str_ s.reserved_ ∧
      disjoint p k t.str_ t.reserved_) :
    (∃ (m' : Mem C) (s' : string_base),
      insert alloc m s pos xp n = .ok (m', s') ∧ content m' t = content m t) ∧
    (∃ (m' : Mem C) (s' : string_base),
      erase m s pos n = .ok (m', s') ∧ content m' t = content m t) ∧
    (∃ (m' : Mem C) (s' : string_base),
      replace alloc m s pos n1 xp n = .ok (m', s') ∧ content m' t = content m t) ∧
    (∃ (m' : Mem C) (s' : string_base),
      append alloc m s xp n = .ok (m', s') ∧ content m' t = content m t) ∧
    (∃ (m' : Mem C) (s' : string_base),
      assign alloc m s xp n = .ok (m', s') ∧ content m' t = content m t) := by
  refine ⟨?_, ?_, ?_, ?_, ?_⟩
  · obtain ⟨m', s', heq, hkeep⟩ :=
      replace_range_keeps alloc m s t pos pos xp n (Nat.le_refl _) hpos (Nat.le_of_lt hcap)
        hdisj halloc
    refine ⟨m', s', ?_, content_congr m m' t ht hkeep⟩
    simp only [insert, verify_pos, size, Nat.not_lt.mpr hpos, if_false, insert_range, begin_,
      string_base.my_str, gt_iff_lt]
    exact heq
  · obtain ⟨m', s', heq, hkeep⟩ := erase_keeps m s pos n hpos
    refine ⟨m', s', heq, content_congr m m' t ht ?_⟩
    intro a ha1 ha2
    apply hkeep
    unfold disjoint at hdisj
    omega
  · have hk : min n1 (s.size_ - pos) ≤ s.size_ - pos := Nat.min_le_right _ _
    generalize hkdef : min n1 (s.size_ - pos) = xlen at hk
    obtain ⟨m', s', heq, hkeep⟩ :=
      replace_range_keeps alloc m s t pos (pos + xlen) xp n (by omega) (by omega)
        (Nat.le_of_lt hcap) hdisj halloc
    refine ⟨m', s', ?_, content_congr m m' t ht hkeep⟩
    simp only [replace, validate_pos_and_off, verify_pos, size, Nat.not_lt.mpr hpos, if_false,
      begin_, string_base.my_str, gt_iff_lt, hkdef]
    rw [Nat.add_assoc]
    exact heq
  · obtain ⟨m', s', heq, hkeep⟩ :=
      replace_range_keeps alloc m s t s.size_ s.size_ xp n (Nat.le_refl _) (Nat.le_refl _)
        (Nat.le_of_lt hcap) hdisj halloc
    refine ⟨m', s', ?_, content_congr m m' t ht hkeep⟩
    simp only [append, insert_range, end_, begin_, string_base.my_str]
    exact heq
  · obtain ⟨m', s', heq, hkeep⟩ :=
      replace_range_keeps alloc (m.write (s.str_ + 0) 0) { s with size_ := 0 } t 0 0 xp n
        (Nat.le_refl _) (Nat.le_refl _) (Nat.zero_le _) hdisj halloc
    refine ⟨m', s', ?_, content_congr m m' t ht ?_⟩
    · simp only [assign, string_base.set_end, insert, verify_pos, size, Nat.not_lt_zero,
        if_false, insert_range, begin_, string_base.my_str, gt_iff_lt]
      exact heq
    · intro a ha1 ha2
      rw [hkeep a ha1 ha2]
      unfold disjoint at hdisj
      simp only [Mem.write]
      rw [if_neg (by omega)]

/-- The same at `hello` and a string `ell` placed in the block right behind
it: inserting ` world` into `hello` leaves `ell` as it is. -/
theorem other_string_kept_by_insert_erase_replace_append_assign_witness :
    (5 ≤ hello_str.size_ ∧ hello_str.size_ < hello_str.reserved_
      ∧ (⟨106, 3, 4⟩ : string_base).size_ ≤ (⟨106, 3, 4⟩ : string_base).reserved_
      ∧ disjoint 106 4 hello_str.str_ hello_str.reserved_)
    ∧ ∃ (m' : Mem Char) (s' : string_base),
      insert alloc_300 hello_mem hello_str 5 200 6 = .ok (m', s') ∧
      content m' ⟨106, 3, 4⟩ = content hello_mem ⟨106, 3, 4⟩ :=
  ⟨by decide,
    (other_string_kept_by_insert_erase_replace_append_assign alloc_300 hello_mem hello_str
      ⟨106, 3, 4⟩ 5 6 1 200 (by decide) (by decide) (by decide) (by decide)
      (fun _ => ⟨300, rfl, Or.inr (Or.inr (Or.inr (by decide))),
        Or.inr (Or.inr (Or.inr (by decide)))⟩)).1⟩

end basic_string

end gstl

/-! ## Capacity, the terminator and the error paths -/

namespace gstl

namespace basic_string

variable {C : Type}

/-- The fields after any successful `do_replace`: the terminator is the last
cell written; either the buffer is kept, with its capacity, or the block handed
out for `new_size + 1` cells is installed, with capacity `new_size + 1`. -/
theorem do_replace_ok_shape [Zero C] (alloc : Nat → Option Nat) (m : Mem C) (s : string_base)
    (i1 i2 xlen : Nat) (put : Mem C → Nat → Mem C) (overlaped : Bool)
    (m' : Mem C) (s' : string_base) (r : Nat)
    (h : do_replace alloc m s i1 i2 xlen put overlaped = .ok (m', s', r)) :
    m' (s'.str_ + s'.size_) = 0 ∧
    s'.size_ = s.size_ + xlen - (i2 - i1) ∧
    ((s'.str_ = s.str_ ∧ s'.reserved_ = s.reserved_ ∧
        ((s'.size_ < s.reserved_ ∧ overlaped = false) ∨ alloc (s'.size_ + 1) = some s.str_)) ∨
      (s'.str_ ≠ s.str_ ∧ alloc (s'.size_ + 1) = some s'.str_ ∧ s'.reserved_ = s'.size_ + 1 ∧
        (s.reserved_ ≤ s'.size_ ∨ overlaped = true))) := by
  unfold do_replace at h
  simp only [size] at h
  by_cases hre : (decide (s.size_ + xlen - (i2 - i1) ≥ s.reserved_) || overlaped) = true
  · rw [if_pos hre] at h
    cases ha : alloc (s.size_ + xlen - (i2 - i1) + 1) with
    | none =>
      rw [ha] at h
      exact absurd h (by simp)
    | some p =>
      rw [ha] at h
      have hre2 : s.reserved_ ≤ s.size_ + xlen - (i2 - i1) ∨ overlaped = true := by
        simpa using hre
      by_cases hp : p = s.str_
      · simp only [string_base.reset_ptr, string_base.set_end, hp, ne_eq, not_true_eq_false,
          if_false, Except.ok.injEq, Prod.mk.injEq] at h
        obtain ⟨hm, hs, _⟩ := h
        subst hm hs
        refine ⟨by simp [Mem.write], rfl, Or.inl ⟨rfl, rfl, Or.inr ?_⟩⟩
        rw [ha, hp]
      · simp only [string_base.reset_ptr, string_base.set_end, hp, ne_eq, not_false_eq_true,
          if_true, Except.ok.injEq, Prod.mk.injEq] at h
        obtain ⟨hm, hs, _⟩ := h
        subst hm hs
        exact ⟨by simp [Mem.write], rfl, Or.inr ⟨hp, ha, rfl, hre2⟩⟩
  · rw [if_neg hre] at h
    have hre2 : s.size_ + xlen - (i2 - i1) < s.reserved_ ∧ overlaped = false := by
      simpa using hre
    simp only [string_base.reset_ptr, string_base.set_end, ne_eq, not_true_eq_false,
      if_false, Except.ok.injEq, Prod.mk.injEq] at h
    obtain ⟨hm, hs, _⟩ := h
    subst hm hs
    exact ⟨by simp [Mem.write], rfl, Or.inl ⟨rfl, rfl, Or.inl hre2⟩⟩

/-- A successful template `replace` is a successful `do_replace`. -/
theorem replace_range_ok [Zero C] (alloc : Nat → Option Nat) (m : Mem C) (s : string_base)
    (first last first2 last2 : Nat) (m' : Mem C) (s' : string_base)
    (h : replace_range alloc m s first last first2 last2 = .ok (m', s')) :
    ∃ r, do_replace alloc m s first last (last2 - first2)
      (fun mem new_i1 => copy mem first2 last2 new_i1) (check_overlap s first2 last2)
        = .ok (m', s', r) := by
  unfold replace_range at h
  simp only [] at h
  split at h
  · exact absurd h (by simp)
  · rename_i r hr
    simp only [Except.ok.injEq, Prod.mk.injEq] at h
    obtain ⟨hm, hs⟩ := h
    subst hm hs
    exact ⟨r.2.2, hr⟩

/-- After a successful `do_replace` on a string with a non-empty block, the
allocator never handing out a block that overlaps it: `length < capacity`, and
the cell `data[length]` holds the terminator. -/
theorem do_replace_ok_lt [Zero C] (alloc : Nat → Option Nat) (m : Mem C) (s : string_base)
    (i1 i2 xlen : Nat) (put : Mem C → Nat → Mem C) (overlaped : Bool)
    (m' : Mem C) (s' : string_base) (r : Nat)
    (h : do_replace alloc m s i1 i2 xlen put overlaped = .ok (m', s', r))
    (hpos : 0 < s.reserved_)
    (hfresh : ∀ k p, alloc k = some p → disjoint p k s.str_ s.reserved_) :
    s'.size_ < s'.reserved_ ∧ m' (s'.str_ + s'.size_) = 0 := by
  obtain ⟨hterm, _, hshape⟩ := do_replace_ok_shape alloc m s i1 i2 xlen put overlaped m' s' r h
  refine ⟨?_, hterm⟩
  rcases hshape with ⟨_, hres, hlt | ha⟩ | ⟨_, _, hres, _⟩
  · rw [hres]
    exact hlt.1
  · have hd := hfresh _ _ ha
    unfold disjoint at hd
    omega
  · omega

/-- The capacity after a successful `do_replace`: the one before, or the new
length plus one. -/
theorem do_replace_ok_capacity [Zero C] (alloc : Nat → Option Nat) (m : Mem C)
    (s : string_base) (i1 i2 xlen : Nat) (put : Mem C → Nat → Mem C) (overlaped : Bool)
    (m' : Mem C) (s' : string_base) (r : Nat)
    (h : do_replace alloc m s i1 i2 xlen put overlaped = .ok (m', s', r)) :
    s'.reserved_ = s.reserved_ ∨ s'.reserved_ = s'.size_ + 1 := by
  obtain ⟨_, _, hshape⟩ := do_replace_ok_shape alloc m s i1 i2 xlen put overlaped m' s' r h
  rcases hshape with ⟨_, hres, _⟩ | ⟨_, _, hres, _⟩
  · exact Or.inl hres
  · exact Or.inr hres

/-- A successful `do_replace` that is not told of an overlap does not lower the
capacity. -/
theorem do_replace_ok_monotone [Zero C] (alloc : Nat → Option Nat) (m : Mem C)
    (s : string_base) (i1 i2 xlen : Nat) (put : Mem C → Nat → Mem C)
    (m' : Mem C) (s' : string_base) (r : Nat)
    (h : do_replace alloc m s i1 i2 xlen put false = .ok (m', s', r)) :
    s.reserved_ ≤ s'.reserved_ := by
  obtain ⟨_, _, hshape⟩ := do_replace_ok_shape alloc m s i1 i2 xlen put false m' s' r h
  rcases hshape with ⟨_, hres, _⟩ | ⟨_, _, hres, hge | hov⟩
  · omega
  · omega
  · exact absurd hov (by decide)

/-- A successful `insert( pos, s, n )` is a successful template `replace` at a
valid position. -/
theorem insert_ok [Zero C] (alloc : Nat → Option Nat) (m : Mem C) (s : string_base)
    (pos xp n : Nat) (m' : Mem C) (s' : string_base)
    (h : insert alloc m s pos xp n = .ok (m', s')) :
    pos ≤ s.size_ ∧
    replace_range alloc m s (s.str_ + pos) (s.str_ + pos) xp (xp + n) = .ok (m', s') := by
  unfold insert verify_pos at h
  by_cases hp : pos > size s
  · rw [if_pos hp] at h
    exact absurd h (by simp)
  · rw [if_neg hp] at h
    exact ⟨Nat.not_lt.mp hp, h⟩

/-- A successful `replace( pos, n1, s, n2 )` is a successful template `replace`
at a valid position. -/
theorem replace_ok [Zero C] (alloc : Nat → Option Nat) (m : Mem C) (s : string_base)
    (pos n1 xp n2 : Nat) (m' : Mem C) (s' : string_base)
    (h : replace alloc m s pos n1 xp n2 = .ok (m', s')) :
    pos ≤ s.size_ ∧
    replace_range alloc m s (s.str_ + pos) (s.str_ + pos + min n1 (s.size_ - pos)) xp (xp + n2)
      = .ok (m', s') := by
  unfold replace validate_pos_and_off verify_pos at h
  by_cases hp : pos > size s
  · rw [if_pos hp] at h
    exact absurd h (by simp)
  · rw [if_neg hp] at h
    exact ⟨Nat.not_lt.mp hp, h⟩

/-- A successful `push_back( c )` is a successful `do_replace` that is not told
of an overlap. -/
theorem push_back_ok [Zero C] (alloc : Nat → Option Nat) (m : Mem C) (s : string_base)
    (c : C) (m' : Mem C) (s' : string_base)
    (h : push_back alloc m s c = .ok (m', s')) :
    ∃ r, do_replace alloc m s (end_ s) (end_ s) 1
      (fun mem new_i1 => char_traits.assign mem new_i1 1 c) false = .ok (m', s', r) := by
  unfold push_back insert_char_at insert_fill_at at h
  split at h
  · exact absurd h (by simp)
  · rename_i r hr
    simp only [Except.ok.injEq, Prod.mk.injEq] at h
    obtain ⟨hm, hs⟩ := h
    subst hm hs
    exact ⟨r.2.2, hr⟩

/-- A successful `assign( s, n )` is `set_end( 0 )` followed by a successful
template `replace`. -/
theorem assign_ok [Zero C] (alloc : Nat → Option Nat) (m : Mem C) (s : string_base)
    (xp n : Nat) (m' : Mem C) (s' : string_base)
    (h : assign alloc m s xp n = .ok (m', s')) :
    replace_range alloc (m.write (s.str_ + 0) 0) { s with size_ := 0 } (s.str_ + 0) (s.str_ + 0)
      xp (xp + n) = .ok (m', s') := by
  unfold assign at h
  exact (insert_ok alloc _ _ 0 xp n m' s' h).2

/-- What `erase( first, last )` leaves of the fields and of the terminator, on
a string with `length < capacity` and the terminator in place. -/
theorem erase_range_invariant [Zero C] (m : Mem C) (s : string_base) (first last : Nat)
    (hlt : s.size_ < s.reserved_) (hterm : m (s.str_ + s.size_) = 0) :
    (erase_range m s first last).2.1.size_ < (erase_range m s first last).2.1.reserved_ ∧
    (erase_range m s first last).1
      ((erase_range m s first last).2.1.str_ + (erase_range m s first last).2.1.size_) = 0 := by
  unfold erase_range
  by_cases hne : first ≠ last
  · rw [if_pos hne]
    simp only [string_base.set_end, size]
    exact ⟨by omega, by simp [Mem.write]⟩
  · rw [if_neg hne]
    exact ⟨hlt, hterm⟩

/-- The capacity is untouched by `erase( first, last )`. -/
theorem erase_range_capacity [Zero C] (m : Mem C) (s : string_base) (first last : Nat) :
    (erase_range m s first last).2.1.reserved_ = s.reserved_ := by
  unfold erase_range
  by_cases hne : first ≠ last
  · rw [if_pos hne]
    rfl
  · rw [if_neg hne]

/-- A successful `erase( pos, n )` is an `erase( first, last )`. -/
theorem erase_ok [Zero C] (m : Mem C) (s : string_base) (pos n : Nat)
    (m' : Mem C) (s' : string_base) (h : erase m s pos n = .ok (m', s')) :
    ∃ first last, m' = (erase_range m s first last).1 ∧ s' = (erase_range m s first last).2.1 := by
  unfold erase at h
  by_cases hp : pos > size s
  · rw [if_pos hp] at h
    exact absurd h (by simp)
  · rw [if_neg hp] at h
    simp only [Except.ok.injEq, Prod.mk.injEq] at h
    exact ⟨_, _, h.1.symm, h.2.symm⟩

end basic_string

end gstl

/-! ## The claims on `move`, `reserve`, `swap` and the error path of `do_replace` -/

namespace gstl

namespace char_traits

variable {C : Type}

/-- C30: for every memory, every `n` and every pair of addresses `dst` and
`src`, whatever the overlap of `[dst, dst+n)` and `[src, src+n)`: after
`char_traits::move( dst, src, n )` every cell `dst[i]`, `i < n`, holds the value
`src[i]` had before the call and every cell outside `[dst, dst+n)` is unchanged;
`char_traits::copy` is the same function. -/
theorem move_and_copy_overlap_safe (m : Mem C) (dst src n : Nat) :
    (∀ i, i < n → move m dst src n (dst + i) = m (src + i)) ∧
    (∀ a, a < dst ∨ dst + n ≤ a → move m dst src n a = m a) ∧
    copy m dst src n = move m dst src n :=
  ⟨fun i hi => move_apply m dst src n i hi, fun a ha => move_frame m dst src n a ha, rfl⟩

/-- C30 at `hello`: moving the four cells `hell` one cell up, and the four
cells `ello` one cell down, both inside the buffer. -/
theorem move_and_copy_overlap_safe_witness :
    (hello_mem.read 101 4 = ['e', 'l', 'l', 'o'] ∧ hello_mem.read 100 4 = ['h', 'e', 'l', 'l'])
    ∧ (move hello_mem 101 100 4).read 100 5 = ['h', 'h', 'e', 'l', 'l']
    ∧ (copy hello_mem 100 101 4).read 100 5 = ['e', 'l', 'l', 'o', 'o']
    ∧ (∀ i, i < 4 → move hello_mem 101 100 4 (101 + i) = hello_mem (100 + i)) :=
  ⟨by decide, by decide, by decide,
    (move_and_copy_overlap_safe hello_mem 101 100 4).1⟩

end char_traits

namespace string_base

variable {C : Type}

/-- C26: `reserve( n )` throws `length_error` exactly when `n ≥ max_size()`,
and the exception carries the memory and the fields of the call: nothing is
changed. When `n < max_size()` and `n ≤ capacity` it returns the memory and the
fields as they are, and it does so with an allocator that is out of memory too:
no allocation takes place. -/
theorem reserve_length_error_iff_and_no_op [Zero C] (floor : Nat → Nat → Nat)
    (alloc_max_size : Nat) (alloc : Nat → Option Nat) (m : Mem C) (s : string_base) (n : Nat) :
    (n ≥ max_size alloc_max_size →
      reserve floor alloc_max_size alloc m s n = .error (.length_error, m, s)) ∧
    (∀ (m' : Mem C) (s' : string_base),
      reserve floor alloc_max_size alloc m s n = .error (.length_error, m', s') →
        n ≥ max_size alloc_max_size) ∧
    (n < max_size alloc_max_size → n ≤ s.reserved_ →
      reserve floor alloc_max_size alloc m s n = .ok (m, s) ∧
      reserve floor alloc_max_size alloc_none m s n = .ok (m, s)) := by
  refine ⟨?_, ?_, ?_⟩
  · intro h
    unfold reserve
    rw [if_pos h]
  · intro m' s' h
    by_contra hc
    unfold reserve at h
    rw [if_neg hc] at h
    by_cases h2 : n > s.reserved_
    · rw [if_pos h2] at h
      cases ha : alloc (floor n min_buff_size) with
      | none =>
        rw [ha] at h
        simp at h
      | some p =>
        rw [ha] at h
        exact absurd h (by simp)
    · rw [if_neg h2] at h
      exact absurd h (by simp)
  · intro h1 h2
    unfold reserve
    rw [if_neg (by omega), if_neg (by omega), if_neg (by omega), if_neg (by omega)]
    exact ⟨rfl, rfl⟩

/-- C26 at `hello` (capacity 6), with `max_size() = 999`: `reserve( 999 )`
throws `length_error`, `reserve( 6 )` changes nothing. -/
theorem reserve_length_error_iff_and_no_op_witness :
    (999 ≥ max_size 1000 ∧ 6 < max_size 1000 ∧ 6 ≤ hello_str.reserved_)
    ∧ reserve round_up 1000 alloc_300 hello_mem hello_str 999
        = .error (.length_error, hello_mem, hello_str)
    ∧ reserve round_up 1000 alloc_300 hello_mem hello_str 6 = .ok (hello_mem, hello_str) :=
  ⟨by decide,
    (reserve_length_error_iff_and_no_op round_up 1000 alloc_300 hello_mem hello_str 999).1
      (by decide),
    ((reserve_length_error_iff_and_no_op round_up 1000 alloc_300 hello_mem hello_str 6).2.2
      (by decide) (by decide)).1⟩

/-- C27: for a string with a buffer and `capacity < n < max_size()`, the
rounding helper giving a multiple of `min_buff_size` that is at least `n`, and
the allocator handing out a block that does not overlap the buffer:
`reserve( n )` returns, the string is in the block handed out, content and
length are as before, `data[length]` is the terminator and lies in the block,
and the capacity is a multiple of 4 that is at least `n`. -/
theorem reserve_grows_keeps_content [Zero C] (floor : Nat → Nat → Nat)
    (alloc_max_size : Nat) (alloc : Nat → Option Nat) (m : Mem C) (s : string_base) (n p : Nat)
    (hnull : s.str_ ≠ null_ptr) (hcap : s.size_ ≤ s.reserved_) (hpos : 0 < s.reserved_)
    (hn : s.reserved_ < n) (hmax : n < max_size alloc_max_size)
    (hfloor : min_buff_size ∣ floor n min_buff_size ∧ n ≤ floor n min_buff_size)
    (halloc : alloc (floor n min_buff_size) = some p)
    (hfresh : disjoint p (floor n min_buff_size) s.str_ s.reserved_) :
    ∃ (m' : Mem C) (s' : string_base),
      reserve floor alloc_max_size alloc m s n = .ok (m', s') ∧
      s'.str_ = p ∧
      basic_string.content m' s' = basic_string.content m s ∧
      s'.size_ = s.size_ ∧
      m' (s'.str_ + s'.size_) = 0 ∧
      s'.size_ < s'.reserved_ ∧
      4 ∣ s'.reserved_ ∧ n ≤ s'.reserved_ := by
  have hp : p ≠ s.str_ := by
    unfold disjoint at hfresh
    omega
  refine ⟨(char_traits.move m p s.str_ s.size_).write (p + s.size_) 0,
    ⟨p, s.size_, floor n min_buff_size⟩, ?_, rfl, ?_, rfl, by simp [Mem.write], ?_,
    hfloor.1, hfloor.2⟩
  · unfold reserve
    rw [if_neg (by omega), if_pos (by omega), halloc]
    simp only [reset_ptr, set_end, hp, hnull, ne_eq, not_false_eq_true, if_true, my_str]
  · unfold basic_string.content
    apply Mem.read_ext
    intro i hi
    simp only [] at hi
    simp only [Mem.write]
    rw [if_neg (by omega), char_traits.move_apply _ _ _ _ _ hi]
  · simp only []
    omega

/-- C27 at `abc` (capacity 4): `reserve( 10 )` moves the string to the block
at 300, of 12 cells. -/
theorem reserve_grows_keeps_content_witness :
    (abc_str.str_ ≠ null_ptr ∧ abc_str.size_ ≤ abc_str.reserved_ ∧ 0 < abc_str.reserved_
      ∧ abc_str.reserved_ < 10 ∧ 10 < max_size 1000
      ∧ min_buff_size ∣ round_up 10 min_buff_size ∧ 10 ≤ round_up 10 min_buff_size
      ∧ disjoint 300 (round_up 10 min_buff_size) abc_str.str_ abc_str.reserved_)
    ∧ ∃ (m' : Mem Char) (s' : string_base),
      reserve round_up 1000 alloc_300 abc_mem abc_str 10 = .ok (m', s') ∧
      s'.str_ = 300 ∧
      basic_string.content m' s' = basic_string.content abc_mem abc_str ∧
      s'.size_ = abc_str.size_ ∧
      m' (s'.str_ + s'.size_) = 0 ∧
      s'.size_ < s'.reserved_ ∧
      4 ∣ s'.reserved_ ∧ 10 ≤ s'.reserved_ :=
  ⟨by decide,
    reserve_grows_keeps_content round_up 1000 alloc_300 abc_mem abc_str 10 300 (by decide)
      (by decide) (by decide) (by decide) (by decide) (by decide) rfl (by decide)⟩

end string_base

namespace basic_string

variable {C : Type}

/-- C28: when `do_replace` needs a new block (the new length reaches the
capacity, or an overlap is reported) and `allocate` throws, the exception
carries the memory and the fields of the call: no cell has been written, and
buffer, content, length and capacity are as before. And this is the only way
`do_replace` fails. -/
theorem do_replace_bad_alloc_keeps_string [Zero C] (alloc : Nat → Option Nat) (m : Mem C)
    (s : string_base) (i1 i2 xlen : Nat) (put : Mem C → Nat → Mem C) (overlaped : Bool) :
    ((size s + xlen - (i2 - i1) ≥ capacity s ∨ overlaped = true) →
      alloc (size s + xlen - (i2 - i1) + 1) = none →
      ∃ (m' : Mem C) (s' : string_base),
        do_replace alloc m s i1 i2 xlen put overlaped = .error (.bad_alloc, m', s') ∧
        (∀ a, m' a = m a) ∧ data s' = data s ∧ content m' s' = content m s ∧
        size s' = size s ∧ capacity s' = capacity s) ∧
    (∀ (e : Exn) (m' : Mem C) (s' : string_base),
      do_replace alloc m s i1 i2 xlen put overlaped = .error (e, m', s') →
        e = .bad_alloc ∧ m' = m ∧ s' = s ∧
        (size s + xlen - (i2 - i1) ≥ capacity s ∨ overlaped = true) ∧
        alloc (size s + xlen - (i2 - i1) + 1) = none) := by
  constructor
  · intro hre hfail
    refine ⟨m, s, ?_, fun _ => rfl, rfl, rfl, rfl, rfl⟩
    have hre2 : (decide (size s + xlen - (i2 - i1) ≥ s.reserved_) || overlaped) = true := by
      simpa [capacity] using hre
    unfold do_replace
    simp only [hre2, if_true, hfail]
  · intro e m' s' h
    have ht := do_replace_error alloc m s i1 i2 xlen put overlaped _ h
    simp only [Prod.mk.injEq] at ht
    obtain ⟨he, hm, hs⟩ := ht
    refine ⟨he, hm, hs, ?_⟩
    unfold do_replace at h
    simp only [] at h
    by_cases hre : (decide (size s + xlen - (i2 - i1) ≥ s.reserved_) || overlaped) = true
    · rw [if_pos hre] at h
      cases ha : alloc (size s + xlen - (i2 - i1) + 1) with
      | none => exact ⟨by simpa [capacity] using hre, rfl⟩
      | some p =>
        rw [ha] at h
        exact absurd h (by simp)
    · rw [if_neg hre] at h
      exact absurd h (by simp)

/-- C28 at `hello`: inserting the six cells of ` world` at the end needs a
block of 12 cells; with an allocator that is out of memory the call throws and
`hello` is as before. -/
theorem do_replace_bad_alloc_keeps_string_witness :
    (size hello_str + 6 - (105 - 105) ≥ capacity hello_str)
    ∧ ∃ (m' : Mem Char) (s' : string_base),
        do_replace alloc_none hello_mem hello_str 105 105 6
          (fun mem new_i1 => copy mem 200 206 new_i1) false = .error (.bad_alloc, m', s') ∧
        (∀ a, m' a = hello_mem a) ∧ data s' = data hello_str ∧
        content m' s' = content hello_mem hello_str ∧
        size s' = size hello_str ∧ capacity s' = capacity hello_str :=
  ⟨by decide,
    (do_replace_bad_alloc_keeps_string alloc_none hello_mem hello_str 105 105 6
      (fun mem new_i1 => copy mem 200 206 new_i1) false).1 (Or.inl (by decide)) rfl⟩

/-- C29: `a.swap( b )` is a total function of the two sets of fields (it has
no error result): afterwards `a` has the buffer, the content, the length and the
capacity `b` had and `b` has those of `a`; no cell is written. A second swap
restores both strings. -/
theorem swap_exchanges_and_is_involutive (m : Mem C) (a b : string_base) :
    (swap a b).1 = b ∧ (swap a b).2 = a ∧
    content m (swap a b).1 = content m b ∧ size (swap a b).1 = size b ∧
    capacity (swap a b).1 = capacity b ∧
    content m (swap a b).2 = content m a ∧ size (swap a b).2 = size a ∧
    capacity (swap a b).2 = capacity a ∧
    swap (swap a b).1 (swap a b).2 = (a, b) :=
  ⟨rfl, rfl, rfl, rfl, rfl, rfl, rfl, rfl, rfl⟩

end basic_string

end gstl

/-! ## The invariants: length, capacity and the terminator -/

namespace gstl

namespace basic_string

variable {C : Type}

/-- C23: on a string with `length < capacity` and the terminator at
`data[length]`, the allocator never handing out a block that overlaps the
buffer: whenever `insert`, `erase`, `replace`, `append`, `push_back` or `assign`
returns, and after `clear`, `length < capacity` holds and `data[length]` is the
terminator `char_type()`. -/
theorem terminator_kept_by_mutations [Zero C] (alloc : Nat → Option Nat) (m : Mem C)
    (s : string_base) (pos n n1 xp : Nat) (c : C)
    (hlt : s.size_ < s.reserved_) (hterm : m (s.str_ + s.size_) = 0)
    (hfresh : ∀ k p, alloc k = some p → disjoint p k s.str_ s.reserved_) :
    (∀ (m' : Mem C) (s' : string_base), insert alloc m s pos xp n = .ok (m', s') →
      size s' < capacity s' ∧ m' (data s' + size s') = 0) ∧
    (∀ (m' : Mem C) (s' : string_base), erase m s pos n = .ok (m', s') →
      size s' < capacity s' ∧ m' (data s' + size s') = 0) ∧
    (∀ (m' : Mem C) (s' : string_base), replace alloc m s pos n1 xp n = .ok (m', s') →
      size s' < capacity s' ∧ m' (data s' + size s') = 0) ∧
    (∀ (m' : Mem C) (s' : string_base), append alloc m s xp n = .ok (m', s') →
      size s' < capacity s' ∧ m' (data s' + size s') = 0) ∧
    (∀ (m' : Mem C) (s' : string_base), push_back alloc m s c = .ok (m', s') →
      size s' < capacity s' ∧ m' (data s' + size s') = 0) ∧
    (∀ (m' : Mem C) (s' : string_base), assign alloc m s xp n = .ok (m', s') →
      size s' < capacity s' ∧ m' (data s' + size s') = 0) ∧
    (size (clear m s).2 < capacity (clear m s).2 ∧
      (clear m s).1 (data (clear m s).2 + size (clear m s).2) = 0) := by
  have hpos : 0 < s.reserved_ := by omega
  refine ⟨?_, ?_, ?_, ?_, ?_, ?_, ?_⟩
  · intro m' s' h
    obtain ⟨r, hr⟩ :=
      replace_range_ok alloc m s _ _ _ _ m' s' (insert_ok alloc m s pos xp n m' s' h).2
    exact do_replace_ok_lt alloc m s _ _ _ _ _ m' s' r hr hpos hfresh
  · intro m' s' h
    obtain ⟨first, last, hm, hs⟩ := erase_ok m s pos n m' s' h
    subst hm hs
    exact erase_range_invariant m s first last hlt hterm
  · intro m' s' h
    obtain ⟨r, hr⟩ :=
      replace_range_ok alloc m s _ _ _ _ m' s' (replace_ok alloc m s pos n1 xp n m' s' h).2
    exact do_replace_ok_lt alloc m s _ _ _ _ _ m' s' r hr hpos hfresh
  · intro m' s' h
    obtain ⟨r, hr⟩ := replace_range_ok alloc m s _ _ _ _ m' s' h
    exact do_replace_ok_lt alloc m s _ _ _ _ _ m' s' r hr hpos hfresh
  · intro m' s' h
    obtain ⟨r, hr⟩ := push_back_ok alloc m s c m' s' h
    exact do_replace_ok_lt alloc m s _ _ _ _ _ m' s' r hr hpos hfresh
  · intro m' s' h
    obtain ⟨r, hr⟩ :=
      replace_range_ok alloc _ _ _ _ _ _ m' s' (assign_ok alloc m s xp n m' s' h)
    exact do_replace_ok_lt alloc _ { s with size_ := 0 } _ _ _ _ _ m' s' r hr hpos hfresh
  · exact erase_range_invariant m s (begin_ s) (end_ s) hlt hterm

/-- C23 at `hello`, whose terminator is in place: after appending ` world`
the string has 11 characters in a block of 12 and the cell behind them is the
terminator. -/
theorem terminator_kept_by_mutations_witness :
    (hello_str.size_ < hello_str.reserved_ ∧ hello_mem (hello_str.str_ + hello_str.size_) = 0)
    ∧ ∃ (m' : Mem Char) (s' : string_base),
        append alloc_300 hello_mem hello_str 200 6 = .ok (m', s') ∧
        size s' = 11 ∧ capacity s' = 12 ∧
        size s' < capacity s' ∧ m' (data s' + size s') = 0 :=
  ⟨by decide, _, _, rfl, by decide, by decide,
    (terminator_kept_by_mutations alloc_300 hello_mem hello_str 5 6 0 200 'x' (by decide)
      (by decide) (fun _ _ h => Or.inr (Or.inr (Or.inr (by
        have h300 : 300 = _ := Option.some.inj h
        rw [← h300]
        decide))))).2.2.2.1 _ _ rfl⟩

end basic_string

end gstl

/-! ## Capacity and length against the claims on them -/

namespace gstl

namespace basic_string

variable {C : Type}

/-- A `resize( capacity(), c )` of a string with `length < capacity` and
`capacity < max_size()` returns without a reallocation, whatever the rounding
helper and the allocator are, and leaves the length equal to the capacity. -/
theorem resize_to_capacity_length_eq_capacity [Zero C] (floor : Nat → Nat → Nat)
    (alloc_max_size : Nat) (alloc : Nat → Option Nat) (m : Mem C) (s : string_base) (c : C)
    (hlt : s.size_ < s.reserved_) (hmax : s.reserved_ < string_base.max_size alloc_max_size) :
    ∃ (m' : Mem C) (s' : string_base),
      resize floor alloc_max_size alloc m s (capacity s) c = .ok (m', s') ∧
      s'.str_ = s.str_ ∧ capacity s' = capacity s ∧ size s' = capacity s' := by
  refine ⟨(char_traits.assign m (s.str_ + s.size_) (s.reserved_ - s.size_) c).write
      (s.str_ + s.reserved_) 0, { s with size_ := s.reserved_ }, ?_, rfl, rfl, rfl⟩
  unfold resize capacity string_base.reserve
  rw [if_pos hlt, if_neg (by omega), if_neg (by omega)]
  rfl

/-- C22 at its failing input: the default constructor leaves an empty string
in a block of 4 cells, `[300, 304)`. Then `resize( capacity(), 'x' )` does not
reallocate (`reserve( 4 )` finds `4 > reserved_` false), fills the 4 cells and
`set_end( 4 )` writes the terminator at the cell 304, the first one behind the
block: length and capacity are both 4, so `length ≤ capacity - 1` fails. -/
theorem default_ctor_resize_to_capacity_fills_block :
    ∃ (m0 : Mem Char) (s0 : string_base) (m1 : Mem Char) (s1 : string_base),
      ctor round_up 1000 alloc_300 Mem.zero = .ok (m0, s0) ∧
      data s0 = 300 ∧ size s0 = 0 ∧ capacity s0 = 4 ∧
      resize round_up 1000 alloc_300 m0 s0 (capacity s0) 'x' = .ok (m1, s1) ∧
      content m1 s1 = ['x', 'x', 'x', 'x'] ∧
      data s1 = 300 ∧ size s1 = 4 ∧ capacity s1 = 4 ∧
      ¬ (size s1 ≤ capacity s1 - 1) ∧
      data s1 + size s1 = data s0 + capacity s0 :=
  ⟨_, _, _, _, rfl, by decide, by decide, by decide, rfl, by decide, by decide, by decide,
    by decide, by decide, by decide⟩

/-- The string constructed from the five characters of `hello`, with a
rounding helper for which `floor( 4, 4 )` is 4: the base constructor reserves 4
cells, the assignment reallocates, and the capacity is 6. -/
theorem ctor_hello_capacity_six :
    ∃ (m1 : Mem Char) (s1 : string_base),
      ctor_cstr_n round_up 1000 alloc_300 alloc_400 hello_mem 100 5 = .ok (m1, s1) ∧
      content m1 s1 = ['h', 'e', 'l', 'l', 'o'] ∧ size s1 = 5 ∧ capacity s1 = 6 ∧
      ¬ (4 ∣ capacity s1) :=
  ⟨_, _, rfl, by decide, by decide, by decide, by decide⟩

/-- C25 as stated fails for a self-sourced insert: `abc` after `reserve( 100 )`
has capacity 100; `s.insert( 0, s, 0, 3 )` is reported as overlapping, so
`do_replace` allocates a block for the new length plus one and installs the
capacity 7. -/
theorem insert_self_shrinks_capacity :
    ∃ (m1 : Mem Char) (s1 : string_base) (m2 : Mem Char) (s2 : string_base),
      string_base.reserve round_up 1000 alloc_300 abc_mem abc_str 100 = .ok (m1, s1) ∧
      content m1 s1 = ['a', 'b', 'c'] ∧ capacity s1 = 100 ∧
      insert_str alloc_400 m1 s1 0 s1 0 3 = .ok (m2, s2) ∧
      content m2 s2 = ['a', 'b', 'c', 'a', 'b', 'c'] ∧ capacity s2 = 7 ∧
      capacity s2 < capacity s1 :=
  ⟨_, _, _, _, rfl, by decide, by decide, rfl, by decide, by decide, by decide⟩

end basic_string

end gstl

/-! ## The classification of ranges, `compare`, and the two insertion primitives -/

namespace gstl

namespace char_traits

variable {C : Type}

/-- C31 (as amended): two half-open ranges that share a cell are classified by
their starts, `-1` if `first1 ≤ first2` and `+1` if `first1 > first2`; for two
non-empty ranges the result is 0 exactly when no cell belongs to both. In
general the result is `-1` exactly when `first1 ≤ first2 < last1` and `+1`
exactly when `first2 < first1 < last2`, whether or not the ranges are empty. -/
theorem check_overlap_classifies (first1 last1 first2 last2 : Nat) :
    ((∃ a, first1 ≤ a ∧ a < last1 ∧ first2 ≤ a ∧ a < last2) →
      (first1 ≤ first2 → check_overlap first1 last1 first2 last2 = -1) ∧
      (first2 < first1 → check_overlap first1 last1 first2 last2 = 1)) ∧
    (first1 < last1 → first2 < last2 →
      (check_overlap first1 last1 first2 last2 = 0 ↔
        ¬ ∃ a, first1 ≤ a ∧ a < last1 ∧ first2 ≤ a ∧ a < last2)) ∧
    (check_overlap first1 last1 first2 last2 = -1 ↔ first1 ≤ first2 ∧ first2 < last1) ∧
    (check_overlap first1 last1 first2 last2 = 1 ↔ first2 < first1 ∧ first1 < last2) := by
  unfold check_overlap
  refine ⟨?_, ?_, ?_, ?_⟩
  · rintro ⟨a, h1, h2, h3, h4⟩
    constructor
    · intro h
      rw [if_pos h, if_pos (by omega)]
    · intro h
      rw [if_neg (by omega), if_pos (by omega)]
  · intro hn1 hn2
    by_cases h : first1 ≤ first2
    · rw [if_pos h]
      by_cases h' : last1 > first2
      · rw [if_pos h']
        constructor
        · intro hc
          exact absurd hc (by decide)
        · intro hno
          exact absurd ⟨first2, h, h', Nat.le_refl _, hn2⟩ hno
      · rw [if_neg h']
        constructor
        · rintro - ⟨a, h1, h2, h3, h4⟩
          omega
        · intro _
          rfl
    · rw [if_neg h]
      by_cases h' : first1 < last2
      · rw [if_pos h']
        constructor
        · intro hc
          exact absurd hc (by decide)
        · intro hno
          exact absurd ⟨first1, Nat.le_refl _, hn1, by omega, h'⟩ hno
      · rw [if_neg h']
        constructor
        · rintro - ⟨a, h1, h2, h3, h4⟩
          omega
        · intro _
          rfl
  · by_cases h : first1 ≤ first2
    · rw [if_pos h]
      by_cases h' : last1 > first2
      · rw [if_pos h']
        exact ⟨fun _ => ⟨h, h'⟩, fun _ => rfl⟩
      · rw [if_neg h']
        exact ⟨fun hc => absurd hc (by decide), fun hc => absurd hc.2 h'⟩
    · rw [if_neg h]
      by_cases h' : first1 < last2
      · rw [if_pos h']
        exact ⟨fun hc => absurd hc (by decide), fun hc => absurd hc.1 h⟩
      · rw [if_neg h']
        exact ⟨fun hc => absurd hc (by decide), fun hc => absurd hc.1 h⟩
  · by_cases h : first1 ≤ first2
    · rw [if_pos h]
      by_cases h' : last1 > first2
      · rw [if_pos h']
        exact ⟨fun hc => absurd hc (by decide), fun hc => absurd h (by omega)⟩
      · rw [if_neg h']
        exact ⟨fun hc => absurd hc (by decide), fun hc => absurd h (by omega)⟩
    · rw [if_neg h]
      by_cases h' : first1 < last2
      · rw [if_pos h']
        exact ⟨fun _ => ⟨by omega, h'⟩, fun _ => rfl⟩
      · rw [if_neg h']
        exact ⟨fun hc => absurd hc (by decide), fun hc => absurd hc.2 h'⟩

/-- C31 (as amended) at the ranges `[3, 8)` and `[5, 9)`, which share the cells
5, 6 and 7: the result is `-1`, and with the ranges exchanged it is `+1`. -/
theorem check_overlap_classifies_witness :
    ((∃ a, 3 ≤ a ∧ a < 8 ∧ 5 ≤ a ∧ a < 9) ∧ 3 ≤ 5)
    ∧ check_overlap 3 8 5 9 = -1 ∧ check_overlap 5 9 3 8 = 1 :=
  ⟨⟨⟨5, by decide⟩, by decide⟩,
    ((check_overlap_classifies 3 8 5 9).1 ⟨5, by decide⟩).1 (by decide), by decide⟩

/-- C31 as stated fails for empty ranges: the empty range `[5, 5)` lies inside
`[3, 8)` and shares no cell with it, and the result is `-1`, or `+1` with the
ranges exchanged. -/
theorem check_overlap_empty_range_inside :
    (¬ ∃ a, 3 ≤ a ∧ a < 8 ∧ 5 ≤ a ∧ a < 5) ∧
    3 ≤ 8 ∧ 5 ≤ 5 ∧
    check_overlap 3 8 5 5 = -1 ∧ check_overlap 5 5 3 8 = 1 :=
  ⟨by rintro ⟨a, _, _, h3, h4⟩; omega, by decide, by decide, by decide, by decide⟩

variable [DecidableEq C] [LT C] [DecidableRel (fun (a b : C) => a < b)]

/-- C32: `char_traits::compare( s1, s2, n )` returns 0 iff `s1[i]` equals
`s2[i]` for every `i < n`; otherwise there is a smallest index `j` where the
two sequences differ, and the result is negative iff `s1[j] < s2[j]` and
positive otherwise. -/
theorem compare_first_difference (m : Mem C) (s1 s2 n : Nat) :
    (compare m s1 s2 n = 0 ↔ ∀ i, i < n → m (s1 + i) = m (s2 + i)) ∧
    (¬ (∀ i, i < n → m (s1 + i) = m (s2 + i)) →
      ∃ j, j < n ∧ (∀ i, i < j → m (s1 + i) = m (s2 + i)) ∧ m (s1 + j) ≠ m (s2 + j)) ∧
    (∀ j, j < n → (∀ i, i < j → m (s1 + i) = m (s2 + i)) → m (s1 + j) ≠ m (s2 + j) →
      (compare m s1 s2 n < 0 ↔ m (s1 + j) < m (s2 + j)) ∧
      (compare m s1 s2 n > 0 ↔ ¬ m (s1 + j) < m (s2 + j))) := by
  refine ⟨compare_eq_zero_iff m s1 s2 n, ?_, ?_⟩
  · intro hne
    rcases first_diff_cases m s1 s2 n with h | h
    · exact absurd h hne
    · exact h
  · intro j hj heq hne
    rw [compare_of_first_diff m s1 s2 n j hj heq hne]
    by_cases hlt : m (s1 + j) < m (s2 + j)
    · rw [if_pos hlt]
      exact ⟨⟨fun _ => hlt, fun _ => by decide⟩,
        fun h => absurd h (by decide), fun h => absurd hlt h⟩
    · rw [if_neg hlt]
      exact ⟨⟨fun h => absurd h (by decide), fun h => absurd h hlt⟩,
        fun _ => hlt, fun _ => by decide⟩

/-- C32 at `hel` against `ell`, both inside `hello`: they differ at the index
0, where `h` is not less than `e`, and the result is positive. -/
theorem compare_first_difference_witness :
    (0 < 3 ∧ hello_mem (100 + 0) ≠ hello_mem (101 + 0))
    ∧ compare hello_mem 100 101 3 = 1
    ∧ (compare hello_mem 100 101 3 > 0 ↔ ¬ hello_mem (100 + 0) < hello_mem (101 + 0)) :=
  ⟨by decide, by decide,
    ((compare_first_difference hello_mem 100 101 3).2.2 0 (by decide)
      (fun i hi => absurd hi (Nat.not_lt_zero i)) (by decide)).2⟩

end char_traits

namespace string_hpp

variable {C : Type}

/-- C40: on every memory, every string state, every position `p`, inserted
length `xlen`, writer and aliasing flag, `do_insert( p, xlen, writer,
overlaped )` of `string.hpp` and `do_replace( p, p, xlen, writer, overlaped )`
of `basic_string.hpp` have the same outcome: the same exception with the same
state, or the same memory (so the same content), the same buffer, length and
capacity, and the same returned position. -/
theorem do_insert_eq_do_replace [Zero C] (alloc : Nat → Option Nat) (m : Mem C)
    (s : string_base) (p xlen : Nat) (put : Mem C → Nat → Mem C) (overlaped : Bool) :
    do_insert alloc m s p xlen put overlaped
      = basic_string.do_replace alloc m s p p xlen put overlaped := by
  unfold do_insert basic_string.do_replace
  simp only [Nat.sub_self, Nat.sub_zero]
  rfl

end string_hpp

end gstl

/-! ## `do_replace` in place and reallocating, and `resize` -/

namespace gstl

namespace basic_string

variable {C : Type}

/-- An in-place `do_replace` does not consult the allocator. -/
theorem do_replace_in_place_alloc [Zero C] (alloc alloc' : Nat → Option Nat) (m : Mem C)
    (s : string_base) (i1 i2 xlen : Nat) (put : Mem C → Nat → Mem C) (overlaped : Bool)
    (h : s.size_ + xlen - (i2 - i1) < s.reserved_) (hov : overlaped = false) :
    do_replace alloc m s i1 i2 xlen put overlaped
      = do_replace alloc' m s i1 i2 xlen put overlaped := by
  have hre : (decide (s.size_ + xlen - (i2 - i1) ≥ s.reserved_) || overlaped) = false := by
    simp [hov]
    omega
  unfold do_replace
  simp only [size, hre, Bool.false_eq_true, if_false]

/-- C33: for a call `do_replace( begin() + pos1, begin() + pos2, xlen, writer,
overlaped )` with `pos1 ≤ pos2 ≤ length`, a writer that writes only the `xlen`
cells it is given, and `new_size = length - (pos2 - pos1) + xlen`. If
`new_size < capacity` and no overlap is reported, the call returns with the
same buffer and capacity, and it does so with an allocator that is out of
memory too: nothing is allocated. Otherwise, the allocator handing out a block
for `new_size + 1` cells that does not overlap the buffer, the call returns with
the string in that block and the capacity `new_size + 1`. In both cases the
length is `new_size` and the content is `old[0,pos1) ++ written cells ++
old[pos2,length)`. -/
theorem do_replace_in_place_or_reallocating [Zero C] (alloc : Nat → Option Nat) (m : Mem C)
    (s : string_base) (pos1 pos2 xlen : Nat) (put : Mem C → Nat → Mem C) (overlaped : Bool)
    (p : Nat)
    (h12 : pos1 ≤ pos2) (h2 : pos2 ≤ s.size_) (hcap : s.size_ ≤ s.reserved_)
    (hpos : 0 < s.reserved_)
    (hput : ∀ (mem : Mem C) (d a : Nat), a < d ∨ d + xlen ≤ a → put mem d a = mem a) :
    (s.size_ - (pos2 - pos1) + xlen < capacity s → overlaped = false →
      ∃ (m2 m' : Mem C) (s' : string_base),
        do_replace alloc m s (s.str_ + pos1) (s.str_ + pos2) xlen put overlaped
          = .ok (m', s', s'.str_ + pos1 + xlen) ∧
        do_replace alloc_none m s (s.str_ + pos1) (s.str_ + pos2) xlen put overlaped
          = .ok (m', s', s'.str_ + pos1 + xlen) ∧
        data s' = data s ∧ capacity s' = capacity s ∧
        size s' = s.size_ - (pos2 - pos1) + xlen ∧
        content m' s' = (content m s).take pos1
          ++ (put m2 (s'.str_ + pos1)).read (s'.str_ + pos1) xlen ++ (content m s).drop pos2) ∧
    ((s.size_ - (pos2 - pos1) + xlen ≥ capacity s ∨ overlaped = true) →
      alloc (s.size_ - (pos2 - pos1) + xlen + 1) = some p →
      disjoint p (s.size_ - (pos2 - pos1) + xlen + 1) s.str_ s.reserved_ →
      ∃ (m2 m' : Mem C) (s' : string_base),
        do_replace alloc m s (s.str_ + pos1) (s.str_ + pos2) xlen put overlaped
          = .ok (m', s', s'.str_ + pos1 + xlen) ∧
        data s' = p ∧ capacity s' = s.size_ - (pos2 - pos1) + xlen + 1 ∧
        size s' = s.size_ - (pos2 - pos1) + xlen ∧
        content m' s' = (content m s).take pos1
          ++ (put m2 (s'.str_ + pos1)).read (s'.str_ + pos1) xlen ++ (content m s).drop pos2) := by
  have hns : s.size_ + xlen - (pos2 - pos1) = s.size_ - (pos2 - pos1) + xlen := by omega
  have e3 : s.str_ + pos2 - (s.str_ + pos1) = pos2 - pos1 := by omega
  constructor
  · intro hlt hov
    simp only [capacity] at hlt
    obtain ⟨m2, m', s', heq, hstr, hsize, hres, _, hcont, _, _⟩ :=
      do_replace_content (fun _ => some (s.str_ + s.reserved_)) m s pos1 pos2 xlen put overlaped
        (s.str_ + s.reserved_) h12 h2 hcap rfl
        (Or.inr (Or.inr (Or.inr (Nat.le_refl _)))) hput
    have hno : ¬ (s.size_ + xlen - (pos2 - pos1) ≥ s.reserved_ ∨ overlaped = true) := by
      rw [hov]
      simp
      omega
    rw [if_neg hno] at hstr
    rw [if_neg (by simp [hstr])] at hres
    have hlt' : s.size_ + xlen - (s.str_ + pos2 - (s.str_ + pos1)) < s.reserved_ := by omega
    refine ⟨m2, m', s', ?_, ?_, hstr, hres, by rw [size, hsize, hns], hcont⟩
    · rw [do_replace_in_place_alloc alloc (fun _ => some (s.str_ + s.reserved_)) m s _ _ xlen put
        overlaped hlt' hov]
      exact heq
    · rw [do_replace_in_place_alloc alloc_none (fun _ => some (s.str_ + s.reserved_)) m s _ _
        xlen put overlaped hlt' hov]
      exact heq
  · intro hre halloc hfresh
    simp only [capacity] at hre
    rw [← hns] at halloc hfresh
    obtain ⟨m2, m', s', heq, hstr, hsize, hres, _, hcont, _, _⟩ :=
      do_replace_content alloc m s pos1 pos2 xlen put overlaped p h12 h2 hcap halloc hfresh hput
    have hyes : s.size_ + xlen - (pos2 - pos1) ≥ s.reserved_ ∨ overlaped = true := by
      rcases hre with h | h
      · exact Or.inl (by omega)
      · exact Or.inr h
    rw [if_pos hyes] at hstr
    have hp : p ≠ s.str_ := by
      unfold disjoint at hfresh
      omega
    rw [if_pos (by rw [hstr]; exact hp)] at hres
    exact ⟨m2, m', s', heq, hstr, by rw [capacity, hres, hns], by rw [size, hsize, hns], hcont⟩

/-- C33 at `hello` (capacity 6): replacing `ell` by two cells `x` is done in
place; replacing it by four cells `x` gives the length 6 and moves the string
to the block at 300, of 7 cells. -/
theorem do_replace_in_place_or_reallocating_witness :
    (1 ≤ 4 ∧ 4 ≤ hello_str.size_ ∧ hello_str.size_ ≤ hello_str.reserved_
      ∧ 0 < hello_str.reserved_)
    ∧ (∃ (m' : Mem Char) (s' : string_base),
        do_replace alloc_300 hello_mem hello_str 101 104 2
          (fun mem d => char_traits.assign mem d 2 'x') false = .ok (m', s', 103) ∧
        data s' = 100 ∧ capacity s' = 6 ∧ content m' s' = ['h', 'x', 'x', 'o'])
    ∧ (∃ (m2 m' : Mem Char) (s' : string_base),
        do_replace alloc_300 hello_mem hello_str (hello_str.str_ + 1) (hello_str.str_ + 4) 4
          (fun mem d => char_traits.assign mem d 4 'x') false
            = .ok (m', s', s'.str_ + 1 + 4) ∧
        data s' = 300 ∧ capacity s' = hello_str.size_ - (4 - 1) + 4 + 1 ∧
        size s' = hello_str.size_ - (4 - 1) + 4 ∧
        content m' s' = (content hello_mem hello_str).take 1
          ++ ((fun mem d => char_traits.assign mem d 4 'x') m2 (s'.str_ + 1)).read
            (s'.str_ + 1) 4
          ++ (content hello_mem hello_str).drop 4) :=
  ⟨by decide, ⟨_, _, rfl, by decide, by decide, by decide⟩,
    (do_replace_in_place_or_reallocating alloc_300 hello_mem hello_str 1 4 4
      (fun mem d => char_traits.assign mem d 4 'x') false 300 (by decide) (by decide)
      (by decide) (by decide)
      (fun mem d a h => char_traits.assign_frame mem d 4 'x' a h)).2
      (Or.inl (by decide)) rfl (by decide)⟩

end basic_string

end gstl

/-! ## `resize`, `copy`, the result of `erase`, and `assign` -/

namespace gstl

namespace string_base

variable {C : Type}

/-- A `reserve( n )` below `max_size()` on a string with a buffer returns when
the allocator answers the request it may make, and keeps the length and the
characters. -/
theorem reserve_ok_keeps [Zero C] (floor : Nat → Nat → Nat) (alloc_max_size : Nat)
    (alloc : Nat → Option Nat) (m : Mem C) (s : string_base) (n p : Nat)
    (hnull : s.str_ ≠ null_ptr) (hmax : n < max_size alloc_max_size)
    (halloc : s.reserved_ < n → alloc (floor n min_buff_size) = some p) :
    ∃ (m1 : Mem C) (s1 : string_base),
      reserve floor alloc_max_size alloc m s n = .ok (m1, s1) ∧
      s1.size_ = s.size_ ∧
      (∀ i, i < s.size_ → m1 (s1.str_ + i) = m (s.str_ + i)) ∧
      (n ≤ s.reserved_ → s1.reserved_ = s.reserved_) := by
  unfold reserve
  rw [if_neg (by omega)]
  by_cases hn : n > s.reserved_
  · rw [if_pos hn, halloc hn]
    by_cases hp : p = s.str_
    · refine ⟨(char_traits.move m p s.str_ s.size_).write (s.str_ + s.size_) 0, s, ?_, rfl, ?_,
        fun _ => rfl⟩
      · simp [reset_ptr, set_end, hp, hnull, my_str]
      · intro i hi
        simp only [Mem.write]
        rw [if_neg (by omega), ← hp, char_traits.move_apply _ _ _ _ _ hi, hp]
    · refine ⟨(char_traits.move m p s.str_ s.size_).write (p + s.size_) 0,
        ⟨p, s.size_, floor n min_buff_size⟩, ?_, rfl, ?_, fun h => absurd hn (by omega)⟩
      · simp [reset_ptr, set_end, hp, hnull, my_str]
      · intro i hi
        simp only [Mem.write]
        rw [if_neg (by omega), char_traits.move_apply _ _ _ _ _ hi]
  · rw [if_neg hn]
    exact ⟨m, s, rfl, rfl, fun _ _ => rfl, fun _ => rfl⟩

end string_base

namespace basic_string

variable {C : Type}

/-- C36: for a string with a buffer, every character `c` and every
`n < max_size()`, the allocator answering the request that the internal
`reserve( n )` may make: `resize( n, c )` returns and leaves the length `n`, the
cells `[0, min(old length, n))` as they were, every cell of `[old length, n)`
equal to `c` and `data[n]` equal to the terminator; when `n ≤ old length` the
capacity is unchanged. -/
theorem resize_content [Zero C] (floor : Nat → Nat → Nat) (alloc_max_size : Nat)
    (alloc : Nat → Option Nat) (m : Mem C) (s : string_base) (n : Nat) (c : C) (p : Nat)
    (hnull : s.str_ ≠ string_base.null_ptr)
    (hmax : n < string_base.max_size alloc_max_size)
    (halloc : s.reserved_ < n → alloc (floor n string_base.min_buff_size) = some p) :
    ∃ (m' : Mem C) (s' : string_base),
      resize floor alloc_max_size alloc m s n c = .ok (m', s') ∧
      size s' = n ∧
      (∀ i, i < min (size s) n → m' (data s' + i) = m (data s + i)) ∧
      (∀ i, size s ≤ i → i < n → m' (data s' + i) = c) ∧
      m' (data s' + n) = 0 ∧
      (n ≤ size s → capacity s' = capacity s) := by
  unfold resize
  by_cases hn : n > s.size_
  · rw [if_pos hn]
    obtain ⟨m1, s1, hres, hsize, hkeep, _⟩ :=
      string_base.reserve_ok_keeps floor alloc_max_size alloc m s n p hnull hmax halloc
    rw [hres]
    refine ⟨_, _, rfl, rfl, ?_, ?_, ?_, fun h => absurd hn (by simp only [size] at h; omega)⟩
    · intro i hi
      simp only [size] at hi
      simp only [string_base.set_end, data, string_base.my_str, Mem.write, hsize]
      rw [if_neg (by omega), char_traits.assign_frame _ _ _ _ _ (by omega)]
      exact hkeep i (by omega)
    · intro i hi1 hi2
      simp only [size] at hi1
      simp only [string_base.set_end, data, string_base.my_str, Mem.write, hsize]
      rw [if_neg (by omega), show s1.str_ + i = s1.str_ + s.size_ + (i - s.size_) by omega]
      exact char_traits.assign_apply _ _ _ _ _ (by omega)
    · simp [string_base.set_end, data, string_base.my_str, Mem.write]
  · rw [if_neg hn]
    refine ⟨_, _, rfl, rfl, ?_, ?_, ?_, fun _ => rfl⟩
    · intro i hi
      simp only [size] at hi
      simp only [string_base.set_end, data, string_base.my_str, Mem.write]
      rw [if_neg (by omega)]
    · intro i hi1 hi2
      simp only [size] at hi1
      omega
    · simp [string_base.set_end, data, string_base.my_str, Mem.write]

/-- C36 at `abc` (capacity 4): `resize( 6, 'x' )` moves the string to a block
of 8 cells and gives `abcxxx`; `resize( 2, 'x' )` gives `ab` in place. -/
theorem resize_content_witness :
    (abc_str.str_ ≠ string_base.null_ptr ∧ 6 < string_base.max_size 1000)
    ∧ (∃ (m' : Mem Char) (s' : string_base),
        resize round_up 1000 alloc_300 abc_mem abc_str 6 'x' = .ok (m', s') ∧
        size s' = 6 ∧
        (∀ i, i < min (size abc_str) 6 → m' (data s' + i) = abc_mem (data abc_str + i)) ∧
        (∀ i, size abc_str ≤ i → i < 6 → m' (data s' + i) = 'x') ∧
        m' (data s' + 6) = 0 ∧
        (6 ≤ size abc_str → capacity s' = capacity abc_str))
    ∧ (∃ (m' : Mem Char) (s' : string_base),
        resize round_up 1000 alloc_300 abc_mem abc_str 6 'x' = .ok (m', s') ∧
        content m' s' = ['a', 'b', 'c', 'x', 'x', 'x'] ∧ capacity s' = 8)
    ∧ (∃ (m' : Mem Char) (s' : string_base),
        resize round_up 1000 alloc_300 abc_mem abc_str 2 'x' = .ok (m', s') ∧
        content m' s' = ['a', 'b'] ∧ capacity s' = 4) :=
  ⟨by decide,
    resize_content round_up 1000 alloc_300 abc_mem abc_str 6 'x' 300 (by decide) (by decide)
      (fun _ => rfl),
    ⟨_, _, rfl, by decide, by decide⟩, ⟨_, _, rfl, by decide, by decide⟩⟩

end basic_string

end gstl

/-! ## Self-assignment, `copy`, the result of `erase` and the checks of `insert` -/

namespace gstl

namespace basic_string

variable {C : Type}

/-- C34 at its failing input: `s.assign( s )` on `abc` (capacity 4). The call
`set_end( 0 )` writes the terminator over `a` and makes the string empty before
the source range is tested, so no overlap is seen, the three cells are copied
onto themselves in place, and the string of length 3 that results starts with
the terminator. -/
theorem assign_self_overwrites_first_character :
    ∃ (m1 : Mem Char) (s1 : string_base),
      assign_str alloc_300 abc_mem abc_str abc_str = .ok (m1, s1) ∧
      content abc_mem abc_str = ['a', 'b', 'c'] ∧
      content m1 s1 = [Char.ofNat 0, 'b', 'c'] ∧
      content m1 s1 ≠ content abc_mem abc_str ∧
      size s1 = 3 ∧ data s1 = data abc_str :=
  ⟨_, _, rfl, by decide, by decide, by decide, by decide, by decide⟩

/-- What `copy( dst, n, pos )` does for a valid position: it returns
`rlen = min( n, size() - pos )` and writes the first `rlen` characters of the
string, those at the indices `0, ..., rlen - 1`, to `dst`. -/
theorem copy_spec (m : Mem C) (s : string_base) (dst n pos : Nat) (hpos : pos ≤ s.size_) :
    ∃ (m' : Mem C),
      copy_ m s dst n pos = .ok (m', min n (s.size_ - pos)) ∧
      (∀ i, i < min n (s.size_ - pos) → m' (dst + i) = m (s.str_ + i)) ∧
      (∀ a, a < dst ∨ dst + min n (s.size_ - pos) ≤ a → m' a = m a) := by
  refine ⟨char_traits.move m dst s.str_ (min n (s.size_ - pos)), ?_, ?_, ?_⟩
  · simp [copy_, validate_pos_and_off, verify_pos, size, Nat.not_lt.mpr hpos,
      string_base.my_str]
  · intro i hi
    exact char_traits.move_apply m dst s.str_ _ i hi
  · intro a ha
    exact char_traits.move_frame m dst s.str_ _ a ha

/-- C35 at its failing input: `copy( dst, 2, 1 )` on `hello`, with `dst` the
cells at 300. The call returns 2 and writes `he`, the characters at the indices
0 and 1, where the characters at the indices 1 and 2 are `el`; the string is
unchanged. -/
theorem copy_ignores_pos :
    ∃ (m1 : Mem Char),
      copy_ hello_mem hello_str 300 2 1 = .ok (m1, 2) ∧
      m1.read 300 2 = ['h', 'e'] ∧
      ((content hello_mem hello_str).drop 1).take 2 = ['e', 'l'] ∧
      m1.read 300 2 ≠ ((content hello_mem hello_str).drop 1).take 2 ∧
      content m1 hello_str = content hello_mem hello_str :=
  ⟨_, rfl, by decide, by decide, by decide, by decide⟩

/-- The iterator `erase( first, last )` returns is `last`, whatever is erased. -/
theorem erase_range_result [Zero C] (m : Mem C) (s : string_base) (first last : Nat) :
    (erase_range m s first last).2.2 = last := by
  unfold erase_range
  by_cases hne : first ≠ last
  · rw [if_pos hne]
  · rw [if_neg hne]

/-- C37 at its failing input: `erase( begin() + 1, begin() + 3 )` on `hello`.
The string becomes `hlo`; the character that followed the erased range, the
second `l`, is now at the index 1, and the call returns `begin() + 3`, which is
`end()` of the new string. -/
theorem erase_range_returns_last :
    ∃ (m1 : Mem Char) (s1 : string_base) (r : Nat),
      erase_range hello_mem hello_str (begin_ hello_str + 1) (begin_ hello_str + 3)
        = (m1, s1, r) ∧
      content m1 s1 = ['h', 'l', 'o'] ∧
      hello_mem (begin_ hello_str + 3) = 'l' ∧ m1 (begin_ s1 + 1) = 'l' ∧
      r = begin_ s1 + 3 ∧ r ≠ begin_ s1 + 1 ∧ r = end_ s1 :=
  ⟨_, _, _, rfl, by decide, by decide, by decide, by decide, by decide, by decide⟩

/-- When `size() ≤ npos - rlen`, `insert( pos1, str, pos2, n )` does not throw
`length_error`, whatever the allocator does. -/
theorem insert_str_no_length_error [Zero C] (alloc : Nat → Option Nat) (m : Mem C)
    (s str : string_base) (pos1 pos2 n : Nat)
    (h : size s ≤ npos - min n (size str - pos2))
    (m' : Mem C) (s' : string_base) :
    insert_str alloc m s pos1 str pos2 n ≠ .error (.length_error, m', s') := by
  intro he
  unfold insert_str validate_pos_and_off verify_pos at he
  by_cases hp : pos1 > size s
  · rw [if_pos hp] at he
    simp at he
  · rw [if_neg hp] at he
    by_cases hp2 : pos2 > size str
    · rw [if_pos hp2] at he
      simp at he
    · rw [if_neg hp2] at he
      simp only [] at he
      rw [if_neg (by omega)] at he
      have := replace_range_error alloc m s _ _ _ _ _ he
      simp at this

end basic_string

end gstl

/-! ## The capacity an operation installs -/

namespace gstl

namespace basic_string

variable {C : Type}

/-- A `do_replace` returns when the allocator answers the request for
`new_size + 1` cells. -/
theorem do_replace_returns [Zero C] (alloc : Nat → Option Nat) (m : Mem C) (s : string_base)
    (i1 i2 xlen : Nat) (put : Mem C → Nat → Mem C) (overlaped : Bool) (p : Nat)
    (halloc : alloc (s.size_ + xlen - (i2 - i1) + 1) = some p) :
    ∃ (m' : Mem C) (s' : string_base) (r : Nat),
      do_replace alloc m s i1 i2 xlen put overlaped = .ok (m', s', r) := by
  unfold do_replace
  simp only [size]
  by_cases hre : (decide (s.size_ + xlen - (i2 - i1) ≥ s.reserved_) || overlaped) = true
  · rw [if_pos hre, halloc]
    exact ⟨_, _, _, rfl⟩
  · rw [if_neg hre]
    exact ⟨_, _, _, rfl⟩

/-- The length, the capacity and the buffer after a `do_replace`, the allocator
answering the request for `new_size + 1` cells with a block other than the
buffer: the buffer and the capacity are kept when `new_size < capacity` and no
overlap is reported, and otherwise the block is installed with the capacity
`new_size + 1`. -/
theorem do_replace_capacity [Zero C] (alloc : Nat → Option Nat) (m : Mem C) (s : string_base)
    (i1 i2 xlen : Nat) (put : Mem C → Nat → Mem C) (overlaped : Bool) (p : Nat)
    (halloc : alloc (s.size_ + xlen - (i2 - i1) + 1) = some p) (hp : p ≠ s.str_) :
    ∃ (m' : Mem C) (s' : string_base) (r : Nat),
      do_replace alloc m s i1 i2 xlen put overlaped = .ok (m', s', r) ∧
      s'.size_ = s.size_ + xlen - (i2 - i1) ∧
      s'.reserved_ = (if s.size_ + xlen - (i2 - i1) ≥ s.reserved_ ∨ overlaped = true
        then s.size_ + xlen - (i2 - i1) + 1 else s.reserved_) ∧
      s'.str_ = (if s.size_ + xlen - (i2 - i1) ≥ s.reserved_ ∨ overlaped = true
        then p else s.str_) := by
  obtain ⟨m', s', r, h⟩ := do_replace_returns alloc m s i1 i2 xlen put overlaped p halloc
  obtain ⟨_, hsize, hshape⟩ := do_replace_ok_shape alloc m s i1 i2 xlen put overlaped m' s' r h
  refine ⟨m', s', r, h, hsize, ?_⟩
  rw [← hsize]
  rw [← hsize] at halloc
  rcases hshape with ⟨hstr, hres, hin | ha⟩ | ⟨hne, ha, hres, hre⟩
  · have hno : ¬ (s'.size_ ≥ s.reserved_ ∨ overlaped = true) := by
      rw [hin.2]
      simp
      exact hin.1
    rw [if_neg hno, if_neg hno]
    exact ⟨hres, hstr⟩
  · rw [halloc] at ha
    exact absurd (Option.some.inj ha) hp
  · rw [halloc] at ha
    have hre' : s'.size_ ≥ s.reserved_ ∨ overlaped = true := hre
    rw [if_pos hre', if_pos hre']
    exact ⟨hres, (Option.some.inj ha).symm⟩

/-- The same for the template `replace`. -/
theorem replace_range_capacity [Zero C] (alloc : Nat → Option Nat) (m : Mem C)
    (s : string_base) (first last xp n p : Nat)
    (halloc : alloc (s.size_ + n - (last - first) + 1) = some p) (hp : p ≠ s.str_) :
    ∃ (m' : Mem C) (s' : string_base),
      replace_range alloc m s first last xp (xp + n) = .ok (m', s') ∧
      s'.size_ = s.size_ + n - (last - first) ∧
      s'.reserved_ = (if s.size_ + n - (last - first) ≥ s.reserved_
          ∨ check_overlap s xp (xp + n) = true
        then s.size_ + n - (last - first) + 1 else s.reserved_) ∧
      s'.str_ = (if s.size_ + n - (last - first) ≥ s.reserved_
          ∨ check_overlap s xp (xp + n) = true
        then p else s.str_) := by
  have e : xp + n - xp = n := by omega
  obtain ⟨m', s', r, h, hsize, hres, hstr⟩ :=
    do_replace_capacity alloc m s first last (xp + n - xp)
      (fun mem new_i1 => copy mem xp (xp + n) new_i1) (check_overlap s xp (xp + n)) p
      (by rw [e]; exact halloc) hp
  rw [e] at hsize hres hstr
  refine ⟨m', s', ?_, hsize, hres, hstr⟩
  simp only [replace_range, h]

/-- The capacity after `insert( pos, s, n )`. -/
theorem insert_capacity [Zero C] (alloc : Nat → Option Nat) (m : Mem C) (s : string_base)
    (pos xp n p : Nat) (hpos : pos ≤ s.size_)
    (halloc : alloc (s.size_ + n + 1) = some p) (hp : p ≠ s.str_) :
    ∃ (m' : Mem C) (s' : string_base),
      insert alloc m s pos xp n = .ok (m', s') ∧
      s'.size_ = s.size_ + n ∧
      s'.reserved_ = (if s.size_ + n ≥ s.reserved_ ∨ check_overlap s xp (xp + n) = true
        then s.size_ + n + 1 else s.reserved_) ∧
      s'.str_ = (if s.size_ + n ≥ s.reserved_ ∨ check_overlap s xp (xp + n) = true
        then p else s.str_) := by
  obtain ⟨m', s', h, hsize, hres, hstr⟩ :=
    replace_range_capacity alloc m s (s.str_ + pos) (s.str_ + pos) xp n p
      (by rw [Nat.sub_self, Nat.sub_zero]; exact halloc) hp
  rw [Nat.sub_self, Nat.sub_zero] at hsize hres hstr
  refine ⟨m', s', ?_, hsize, hres, hstr⟩
  simp only [insert, verify_pos, size, Nat.not_lt.mpr hpos, if_false, insert_range, begin_,
    string_base.my_str, gt_iff_lt]
  exact h

/-- The capacity after `replace( pos, n1, s, n2 )`. -/
theorem replace_capacity [Zero C] (alloc : Nat → Option Nat) (m : Mem C) (s : string_base)
    (pos n1 xp n2 p : Nat) (hpos : pos ≤ s.size_)
    (halloc : alloc (s.size_ + n2 - min n1 (s.size_ - pos) + 1) = some p) (hp : p ≠ s.str_) :
    ∃ (m' : Mem C) (s' : string_base),
      replace alloc m s pos n1 xp n2 = .ok (m', s') ∧
      s'.size_ = s.size_ + n2 - min n1 (s.size_ - pos) ∧
      s'.reserved_ = (if s.size_ + n2 - min n1 (s.size_ - pos) ≥ s.reserved_
          ∨ check_overlap s xp (xp + n2) = true
        then s.size_ + n2 - min n1 (s.size_ - pos) + 1 else s.reserved_) := by
  have e : s.str_ + pos + min n1 (s.size_ - pos) - (s.str_ + pos) = min n1 (s.size_ - pos) := by
    omega
  obtain ⟨m', s', h, hsize, hres, _⟩ :=
    replace_range_capacity alloc m s (s.str_ + pos) (s.str_ + pos + min n1 (s.size_ - pos)) xp n2 p
      (by rw [e]; exact halloc) hp
  rw [e] at hsize hres
  refine ⟨m', s', ?_, hsize, hres⟩
  simp only [replace, validate_pos_and_off, verify_pos, size, Nat.not_lt.mpr hpos, if_false,
    begin_, string_base.my_str, gt_iff_lt]
  exact h

/-- The capacity after `append( s, n )`. -/
theorem append_capacity [Zero C] (alloc : Nat → Option Nat) (m : Mem C) (s : string_base)
    (xp n p : Nat) (halloc : alloc (s.size_ + n + 1) = some p) (hp : p ≠ s.str_) :
    ∃ (m' : Mem C) (s' : string_base),
      append alloc m s xp n = .ok (m', s') ∧
      s'.size_ = s.size_ + n ∧
      s'.reserved_ = (if s.size_ + n ≥ s.reserved_ ∨ check_overlap s xp (xp + n) = true
        then s.size_ + n + 1 else s.reserved_) ∧
      s'.str_ = (if s.size_ + n ≥ s.reserved_ ∨ check_overlap s xp (xp + n) = true
        then p else s.str_) := by
  obtain ⟨m', s', h, hsize, hres, hstr⟩ :=
    replace_range_capacity alloc m s (s.str_ + s.size_) (s.str_ + s.size_) xp n p
      (by rw [Nat.sub_self, Nat.sub_zero]; exact halloc) hp
  rw [Nat.sub_self, Nat.sub_zero] at hsize hres hstr
  refine ⟨m', s', ?_, hsize, hres, hstr⟩
  simp only [append, insert_range, end_, begin_, string_base.my_str]
  exact h

/-- The capacity after `push_back( c )`. -/
theorem push_back_capacity [Zero C] (alloc : Nat → Option Nat) (m : Mem C) (s : string_base)
    (c : C) (p : Nat) (halloc : alloc (s.size_ + 1 + 1) = some p) (hp : p ≠ s.str_) :
    ∃ (m' : Mem C) (s' : string_base),
      push_back alloc m s c = .ok (m', s') ∧
      s'.size_ = s.size_ + 1 ∧
      s'.reserved_ = (if s.size_ + 1 ≥ s.reserved_ then s.size_ + 1 + 1 else s.reserved_) := by
  obtain ⟨m', s', r, h, hsize, hres, _⟩ :=
    do_replace_capacity alloc m s (end_ s) (end_ s) 1
      (fun mem new_i1 => char_traits.assign mem new_i1 1 c) false p
      (by rw [Nat.sub_self, Nat.sub_zero]; exact halloc) hp
  rw [Nat.sub_self, Nat.sub_zero] at hsize hres
  refine ⟨m', s', ?_, hsize, ?_⟩
  · simp only [push_back, insert_char_at, insert_fill_at, h]
  · rw [hres]
    simp

/-- The capacity after `assign( s, n )`; the overlap is tested on the string
that `set_end( 0 )` has emptied. -/
theorem assign_capacity [Zero C] (alloc : Nat → Option Nat) (m : Mem C) (s : string_base)
    (xp n p : Nat) (halloc : alloc (n + 1) = some p) (hp : p ≠ s.str_) :
    ∃ (m' : Mem C) (s' : string_base),
      assign alloc m s xp n = .ok (m', s') ∧
      s'.size_ = n ∧
      s'.reserved_ = (if n ≥ s.reserved_
          ∨ check_overlap { s with size_ := 0 } xp (xp + n) = true
        then n + 1 else s.reserved_) ∧
      s'.str_ = (if n ≥ s.reserved_
          ∨ check_overlap { s with size_ := 0 } xp (xp + n) = true
        then p else s.str_) := by
  obtain ⟨m', s', h, hsize, hres, hstr⟩ :=
    insert_capacity alloc (m.write (s.str_ + 0) 0) { s with size_ := 0 } 0 xp n p
      (Nat.le_refl _) (by simpa using halloc) hp
  simp only [Nat.zero_add] at hsize hres hstr
  refine ⟨m', s', ?_, hsize, hres, hstr⟩
  simp only [assign, string_base.set_end]
  exact h

end basic_string

namespace string_base

variable {C : Type}

/-- The capacity after `reserve( n )` below `max_size()`, the allocator
answering the request with a block other than the buffer: the value of the
rounding helper when `n > capacity`, the capacity of the call otherwise. -/
theorem reserve_capacity [Zero C] (floor : Nat → Nat → Nat) (alloc_max_size : Nat)
    (alloc : Nat → Option Nat) (m : Mem C) (s : string_base) (n p : Nat)
    (hmax : n < max_size alloc_max_size)
    (halloc : alloc (floor n min_buff_size) = some p) (hp : p ≠ s.str_) :
    ∃ (m' : Mem C) (s' : string_base),
      reserve floor alloc_max_size alloc m s n = .ok (m', s') ∧
      s'.size_ = s.size_ ∧
      s'.reserved_ = (if n > s.reserved_ then floor n min_buff_size else s.reserved_) := by
  unfold reserve
  rw [if_neg (by omega)]
  by_cases hn : n > s.reserved_
  · rw [if_pos hn, if_pos hn, halloc]
    refine ⟨(if s.str_ ≠ null_ptr then char_traits.move m p s.my_str s.size_ else m).write
      (p + s.size_) 0, ⟨p, s.size_, floor n min_buff_size⟩, ?_, rfl, rfl⟩
    simp only [reset_ptr, set_end, if_pos hp]
  · rw [if_neg hn, if_neg hn]
    exact ⟨m, s, rfl, rfl, rfl⟩

end string_base

namespace basic_string

variable {C : Type}

/-- The string constructed from `n` characters when `n` is at least the
capacity `floor( 4, 4 )` the base constructor reserves, whatever the rounding
helper is: the assignment reallocates and the capacity is `n + 1`. -/
theorem ctor_cstr_n_capacity [Zero C] (floor : Nat → Nat → Nat) (alloc_max_size : Nat)
    (alloc0 alloc : Nat → Option Nat) (m : Mem C) (sp n p0 p : Nat)
    (hmax : string_base.min_buff_size < string_base.max_size alloc_max_size)
    (halloc0 : alloc0 (floor string_base.min_buff_size string_base.min_buff_size) = some p0)
    (hp0 : p0 ≠ string_base.null_ptr)
    (hn : floor string_base.min_buff_size string_base.min_buff_size ≤ n)
    (halloc : alloc (n + 1) = some p) (hp : p ≠ p0) :
    ∃ (m' : Mem C) (s' : string_base),
      ctor_cstr_n floor alloc_max_size alloc0 alloc m sp n = .ok (m', s') ∧
      size s' = n ∧ capacity s' = n + 1 := by
  obtain ⟨m', s', h, hsize, hres, _⟩ :=
    assign_capacity alloc (m.write (p0 + 0) 0)
      ⟨p0, 0, floor string_base.min_buff_size string_base.min_buff_size⟩ sp n p halloc hp
  rw [if_pos (Or.inl hn)] at hres
  refine ⟨m', s', ?_, hsize, hres⟩
  simp only [ctor_cstr_n, string_base.ctor_ok floor alloc_max_size alloc0 m p0 hmax halloc0 hp0]
  exact h

/-- The string constructed from the five characters of `hello` with the
rounding helper of the invariant on the capacity, for which `floor( 4, 4 )` is
8: the assignment is done in place and the capacity is 8. -/
theorem ctor_hello_capacity_eight :
    ∃ (m1 : Mem Char) (s1 : string_base),
      ctor_cstr_n floor_spec 1000 alloc_300 alloc_400 hello_mem 100 5 = .ok (m1, s1) ∧
      content m1 s1 = ['h', 'e', 'l', 'l', 'o'] ∧ size s1 = 5 ∧ capacity s1 = 8 :=
  ⟨_, _, rfl, by decide, by decide, by decide⟩

/-- C24 (as amended): the capacity each operation installs, on a string with
`pos ≤ length`, the allocator answering every request with a non-null block
other than the buffer. The default constructor installs the value
`floor( 4, 4 )` of the rounding helper; `reserve( n )` below `max_size()`
installs `floor( n, 4 )` when `n > capacity` and keeps the capacity otherwise;
`insert`, `replace`, `append`, `push_back` and `assign` keep the capacity when
the new length is below it and no overlap is reported, and otherwise install
exactly the new length plus one; `erase` and `clear` keep the capacity. -/
theorem capacity_after_mutation [Zero C] (floor : Nat → Nat → Nat) (alloc_max_size : Nat)
    (alloc : Nat → Option Nat) (m : Mem C) (s : string_base) (pos n n1 xp : Nat) (c : C)
    (hmax : string_base.min_buff_size < string_base.max_size alloc_max_size)
    (hpos : pos ≤ size s)
    (halloc : ∀ k, ∃ p, alloc k = some p ∧ p ≠ string_base.null_ptr ∧ p ≠ s.str_) :
    (∃ (m' : Mem C) (s' : string_base), ctor floor alloc_max_size alloc m = .ok (m', s') ∧
      size s' = 0 ∧
      capacity s' = floor string_base.min_buff_size string_base.min_buff_size) ∧
    (n < string_base.max_size alloc_max_size →
      ∃ (m' : Mem C) (s' : string_base),
        string_base.reserve floor alloc_max_size alloc m s n = .ok (m', s') ∧
        size s' = size s ∧
        capacity s' = (if n > capacity s then floor n string_base.min_buff_size
          else capacity s)) ∧
    (∃ (m' : Mem C) (s' : string_base), insert alloc m s pos xp n = .ok (m', s') ∧
      size s' = size s + n ∧
      capacity s' = (if size s + n ≥ capacity s ∨ check_overlap s xp (xp + n) = true
        then size s + n + 1 else capacity s)) ∧
    (∃ (m' : Mem C) (s' : string_base), replace alloc m s pos n1 xp n = .ok (m', s') ∧
      size s' = size s + n - min n1 (size s - pos) ∧
      capacity s' = (if size s + n - min n1 (size s - pos) ≥ capacity s
          ∨ check_overlap s xp (xp + n) = true
        then size s + n - min n1 (size s - pos) + 1 else capacity s)) ∧
    (∃ (m' : Mem C) (s' : string_base), append alloc m s xp n = .ok (m', s') ∧
      size s' = size s + n ∧
      capacity s' = (if size s + n ≥ capacity s ∨ check_overlap s xp (xp + n) = true
        then size s + n + 1 else capacity s)) ∧
    (∃ (m' : Mem C) (s' : string_base), push_back alloc m s c = .ok (m', s') ∧
      size s' = size s + 1 ∧
      capacity s' = (if size s + 1 ≥ capacity s then size s + 1 + 1 else capacity s)) ∧
    (∃ (m' : Mem C) (s' : string_base), assign alloc m s xp n = .ok (m', s') ∧
      size s' = n ∧
      capacity s' = (if n ≥ capacity s
          ∨ check_overlap { s with size_ := 0 } xp (xp + n) = true
        then n + 1 else capacity s)) ∧
    (∃ (m' : Mem C) (s' : string_base), erase m s pos n = .ok (m', s') ∧
      capacity s' = capacity s) ∧
    capacity (clear m s).2 = capacity s := by
  refine ⟨?_, ?_, ?_, ?_, ?_, ?_, ?_, ?_, ?_⟩
  · obtain ⟨p0, hp0, hnull, _⟩ :=
      halloc (floor string_base.min_buff_size string_base.min_buff_size)
    exact ⟨_, _, string_base.ctor_ok floor alloc_max_size alloc m p0 hmax hp0 hnull, rfl, rfl⟩
  · intro hn
    obtain ⟨p, hp, _, hne⟩ := halloc (floor n string_base.min_buff_size)
    obtain ⟨m', s', h, hsize, hres⟩ :=
      string_base.reserve_capacity floor alloc_max_size alloc m s n p hn hp hne
    exact ⟨m', s', h, hsize, hres⟩
  · obtain ⟨p, hp, _, hne⟩ := halloc (s.size_ + n + 1)
    obtain ⟨m', s', h, hsize, hres, _⟩ := insert_capacity alloc m s pos xp n p hpos hp hne
    exact ⟨m', s', h, hsize, hres⟩
  · obtain ⟨p, hp, _, hne⟩ := halloc (s.size_ + n - min n1 (s.size_ - pos) + 1)
    obtain ⟨m', s', h, hsize, hres⟩ := replace_capacity alloc m s pos n1 xp n p hpos hp hne
    exact ⟨m', s', h, hsize, hres⟩
  · obtain ⟨p, hp, _, hne⟩ := halloc (s.size_ + n + 1)
    obtain ⟨m', s', h, hsize, hres, _⟩ := append_capacity alloc m s xp n p hp hne
    exact ⟨m', s', h, hsize, hres⟩
  · obtain ⟨p, hp, _, hne⟩ := halloc (s.size_ + 1 + 1)
    obtain ⟨m', s', h, hsize, hres⟩ := push_back_capacity alloc m s c p hp hne
    exact ⟨m', s', h, hsize, hres⟩
  · obtain ⟨p, hp, _, hne⟩ := halloc (n + 1)
    obtain ⟨m', s', h, hsize, hres, _⟩ := assign_capacity alloc m s xp n p hp hne
    exact ⟨m', s', h, hsize, hres⟩
  · obtain ⟨m', s', h, _, _, hres, _⟩ := erase_spec m s pos n hpos
    exact ⟨m', s', h, hres⟩
  · exact erase_range_capacity m s (begin_ s) (end_ s)

/-- C24 (as amended) at `hello` (capacity 6), the allocator handing out the
block at 300: appending ` world` installs the capacity 12, the new length plus
one; `push_back` installs 7; erasing keeps 6; `reserve( 10 )` installs 12, the
value of the rounding helper. -/
theorem capacity_after_mutation_witness :
    (string_base.min_buff_size < string_base.max_size 1000 ∧ 5 ≤ size hello_str)
    ∧ (∃ (m' : Mem Char) (s' : string_base),
      append alloc_300 hello_mem hello_str 200 6 = .ok (m', s') ∧
      size s' = size hello_str + 6 ∧
      capacity s' = (if size hello_str + 6 ≥ capacity hello_str
          ∨ check_overlap hello_str 200 (200 + 6) = true
        then size hello_str + 6 + 1 else capacity hello_str))
    ∧ (∃ (m' : Mem Char) (s' : string_base),
      append alloc_300 hello_mem hello_str 200 6 = .ok (m', s') ∧ capacity s' = 12)
    ∧ (∃ (m' : Mem Char) (s' : string_base),
      push_back alloc_300 hello_mem hello_str 'x' = .ok (m', s') ∧ capacity s' = 7)
    ∧ (∃ (m' : Mem Char) (s' : string_base),
      erase hello_mem hello_str 5 6 = .ok (m', s') ∧ capacity s' = 6)
    ∧ (∃ (m' : Mem Char) (s' : string_base),
      string_base.reserve round_up 1000 alloc_300 hello_mem hello_str 10 = .ok (m', s') ∧
      capacity s' = 12) :=
  ⟨by decide,
    (capacity_after_mutation round_up 1000 alloc_300 hello_mem hello_str 5 6 0 200 'x'
      (by decide) (by decide) (fun _ => ⟨300, rfl, by decide, by decide⟩)).2.2.2.2.1,
    ⟨_, _, rfl, by decide⟩, ⟨_, _, rfl, by decide⟩, ⟨_, _, rfl, by decide⟩,
    ⟨_, _, rfl, by decide⟩⟩

/-- C24 as stated fails for the string constructed from the nine characters
`abcabcabc`: they are at least as many as the base constructor reserves, with a
rounding helper that gives `floor( 4, 4 ) = 4` and with the one that gives 8, so
the assignment reallocates to 10 cells and the capacity is 10, which is not a
multiple of 4. -/
theorem ctor_nine_characters_capacity_ten :
    (∃ (m1 : Mem Char) (s1 : string_base),
      ctor_cstr_n round_up 1000 alloc_300 alloc_400 abc3_mem 100 9 = .ok (m1, s1) ∧
      content m1 s1 = ['a', 'b', 'c', 'a', 'b', 'c', 'a', 'b', 'c'] ∧
      size s1 = 9 ∧ capacity s1 = 10 ∧ ¬ (4 ∣ capacity s1)) ∧
    (∃ (m1 : Mem Char) (s1 : string_base),
      ctor_cstr_n floor_spec 1000 alloc_300 alloc_400 abc3_mem 100 9 = .ok (m1, s1) ∧
      content m1 s1 = ['a', 'b', 'c', 'a', 'b', 'c', 'a', 'b', 'c'] ∧
      size s1 = 9 ∧ capacity s1 = 10 ∧ ¬ (4 ∣ capacity s1)) :=
  ⟨⟨_, _, rfl, by decide, by decide, by decide, by decide⟩,
    ⟨_, _, rfl, by decide, by decide, by decide, by decide⟩⟩

/-- C25 (as amended): an `insert` or `append` whose character source is not
reported as overlapping the string leaves a capacity that is at least the one
before, whenever it returns, and `erase` keeps the capacity. An `insert` at
`pos ≤ length` or an `append` whose source is reported as overlapping, the
allocator answering every request with a block other than the buffer, returns
with the string in the new block and with the capacity equal to the new length
plus one, which is below the capacity before whenever that exceeded the new
length plus one. -/
theorem capacity_monotone_unless_overlap [Zero C] (alloc : Nat → Option Nat) (m : Mem C)
    (s : string_base) (pos n xp : Nat) :
    (check_overlap s xp (xp + n) = false →
      (∀ (m' : Mem C) (s' : string_base), insert alloc m s pos xp n = .ok (m', s') →
        capacity s ≤ capacity s') ∧
      (∀ (m' : Mem C) (s' : string_base), append alloc m s xp n = .ok (m', s') →
        capacity s ≤ capacity s')) ∧
    (∀ (m' : Mem C) (s' : string_base), erase m s pos n = .ok (m', s') →
      capacity s' = capacity s) ∧
    (check_overlap s xp (xp + n) = true → pos ≤ size s →
      (∀ k, ∃ p, alloc k = some p ∧ p ≠ s.str_) →
      (∃ (m' : Mem C) (s' : string_base), insert alloc m s pos xp n = .ok (m', s') ∧
        data s' ≠ data s ∧ size s' = size s + n ∧ capacity s' = size s + n + 1 ∧
        (size s + n + 1 < capacity s → capacity s' < capacity s)) ∧
      (∃ (m' : Mem C) (s' : string_base), append alloc m s xp n = .ok (m', s') ∧
        data s' ≠ data s ∧ size s' = size s + n ∧ capacity s' = size s + n + 1 ∧
        (size s + n + 1 < capacity s → capacity s' < capacity s))) := by
  refine ⟨?_, ?_, ?_⟩
  · intro hno
    constructor
    · intro m' s' h
      obtain ⟨r, hr⟩ :=
        replace_range_ok alloc m s _ _ _ _ m' s' (insert_ok alloc m s pos xp n m' s' h).2
      rw [hno] at hr
      exact do_replace_ok_monotone alloc m s _ _ _ _ m' s' r hr
    · intro m' s' h
      obtain ⟨r, hr⟩ := replace_range_ok alloc m s _ _ _ _ m' s' h
      rw [hno] at hr
      exact do_replace_ok_monotone alloc m s _ _ _ _ m' s' r hr
  · intro m' s' h
    obtain ⟨first, last, _, hs⟩ := erase_ok m s pos n m' s' h
    rw [hs]
    exact erase_range_capacity m s first last
  · intro hov hpos halloc
    obtain ⟨p, hp, hne⟩ := halloc (s.size_ + n + 1)
    constructor
    · obtain ⟨m', s', h, hsize, hres, hstr⟩ := insert_capacity alloc m s pos xp n p hpos hp hne
      rw [if_pos (Or.inr hov)] at hres hstr
      refine ⟨m', s', h, ?_, hsize, hres, ?_⟩
      · simp only [data, string_base.my_str, hstr]
        exact hne
      · intro hlt
        simp only [capacity, size] at hlt ⊢
        omega
    · obtain ⟨m', s', h, hsize, hres, hstr⟩ := append_capacity alloc m s xp n p hp hne
      rw [if_pos (Or.inr hov)] at hres hstr
      refine ⟨m', s', h, ?_, hsize, hres, ?_⟩
      · simp only [data, string_base.my_str, hstr]
        exact hne
      · intro hlt
        simp only [capacity, size] at hlt ⊢
        omega

/-- C25 (as amended) at `hello`: inserting ` world`, which lies outside the
buffer, raises the capacity from 6 to 12; and at `abc` in a block of 100 cells:
appending the string to itself moves it to a block of 7 cells. -/
theorem capacity_monotone_unless_overlap_witness :
    (check_overlap hello_str 200 (200 + 6) = false
      ∧ check_overlap (⟨100, 3, 100⟩ : string_base) 100 (100 + 3) = true
      ∧ 3 + 3 + 1 < capacity (⟨100, 3, 100⟩ : string_base))
    ∧ (∃ (m' : Mem Char) (s' : string_base),
        insert alloc_300 hello_mem hello_str 5 200 6 = .ok (m', s') ∧
        capacity s' = 12 ∧ capacity hello_str ≤ capacity s')
    ∧ (∃ (m' : Mem Char) (s' : string_base),
        append alloc_300 abc_mem ⟨100, 3, 100⟩ 100 3 = .ok (m', s') ∧
        data s' ≠ data (⟨100, 3, 100⟩ : string_base) ∧
        size s' = size (⟨100, 3, 100⟩ : string_base) + 3 ∧
        capacity s' = size (⟨100, 3, 100⟩ : string_base) + 3 + 1 ∧
        (size (⟨100, 3, 100⟩ : string_base) + 3 + 1
            < capacity (⟨100, 3, 100⟩ : string_base) →
          capacity s' < capacity (⟨100, 3, 100⟩ : string_base))) :=
  ⟨by decide,
    ⟨_, _, rfl, by decide,
      ((capacity_monotone_unless_overlap alloc_300 hello_mem hello_str 5 6 200).1
        (by decide)).1 _ _ rfl⟩,
    ((capacity_monotone_unless_overlap alloc_300 abc_mem ⟨100, 3, 100⟩ 0 3 100).2.2
      (by decide) (by decide) (fun _ => ⟨300, rfl, by decide⟩)).2⟩

end basic_string

end gstl

/-! ## The length check of `insert` with a narrower `size_type` -/

namespace gstl

namespace basic_string

variable {C : Type}

/-- Where nothing wraps, `do_replace` for a `size_type` of `w` bits is the
`do_replace` of the other sections: the length of the erased range is a
`size_type` value and is not more than what the string and the inserted cells
make together, and `new_size + 1` is a `size_type` value. -/
theorem do_replace_w_eq [Zero C] (w : Nat) (alloc : Nat → Option Nat) (m : Mem C)
    (s : string_base) (i1 i2 xlen : Nat) (put : Mem C → Nat → Mem C) (overlaped : Bool)
    (hrep : i2 - i1 < 2 ^ w) (hrem : i2 - i1 ≤ s.size_ + xlen)
    (hfit : s.size_ + xlen - (i2 - i1) + 1 < 2 ^ w) :
    do_replace_w w alloc m s i1 i2 xlen put overlaped
      = do_replace alloc m s i1 i2 xlen put overlaped := by
  have h1 : to_size_type w (i2 - i1) = i2 - i1 := by
    unfold to_size_type
    exact Nat.mod_eq_of_lt hrep
  have h2 : to_size_type w (s.size_ + xlen + 2 ^ w - (i2 - i1)) = s.size_ + xlen - (i2 - i1) := by
    unfold to_size_type
    rw [show s.size_ + xlen + 2 ^ w - (i2 - i1) = s.size_ + xlen - (i2 - i1) + 2 ^ w by omega,
      Nat.add_mod_right]
    exact Nat.mod_eq_of_lt (by omega)
  have h3 : to_size_type w (s.size_ + xlen - (i2 - i1) + 1) = s.size_ + xlen - (i2 - i1) + 1 := by
    unfold to_size_type
    exact Nat.mod_eq_of_lt hfit
  unfold do_replace_w do_replace
  simp only [size, h1, h2, h3]

/-- The only exception of `do_replace` for a `size_type` of `w` bits is
`bad_alloc`, thrown before any change. -/
theorem do_replace_w_error [Zero C] (w : Nat) (alloc : Nat → Option Nat) (m : Mem C)
    (s : string_base) (i1 i2 xlen : Nat) (put : Mem C → Nat → Mem C) (overlaped : Bool)
    (t : Thrown C)
    (h : do_replace_w w alloc m s i1 i2 xlen put overlaped = .error t) :
    t = (.bad_alloc, m, s) := by
  unfold do_replace_w at h
  simp only [] at h
  split at h
  · injection h with h
    exact h.symm
  · exact absurd h (by simp)

/-- For every width of `size_type`: when `size() ≤ npos - rlen`, which includes
`size() = npos - rlen`, `insert( pos1, str, pos2, n )` does not throw
`length_error`, whatever the allocator does. -/
theorem insert_str_w_no_length_error [Zero C] (w : Nat) (alloc : Nat → Option Nat)
    (m : Mem C) (s str : string_base) (pos1 pos2 n : Nat)
    (h : size s ≤ npos_w w - min n (size str - pos2))
    (m' : Mem C) (s' : string_base) :
    insert_str_w w alloc m s pos1 str pos2 n ≠ .error (.length_error, m', s') := by
  intro he
  unfold insert_str_w validate_pos_and_off verify_pos at he
  by_cases hp : pos1 > size s
  · rw [if_pos hp] at he
    simp at he
  · rw [if_neg hp] at he
    by_cases hp2 : pos2 > size str
    · rw [if_pos hp2] at he
      simp at he
    · rw [if_neg hp2] at he
      simp only [] at he
      rw [if_neg (by omega)] at he
      unfold insert_range_w replace_range_w at he
      simp only [] at he
      split at he
      · rename_i e hd
        have := do_replace_w_error w alloc m s _ _ _ _ _ e hd
        rw [this] at he
        simp at he
      · exact absurd he (by simp)

/-- For every width of `size_type`: when `size() > npos - rlen` and the
positions are valid, `insert( pos1, str, pos2, n )` throws `length_error` and
changes nothing. -/
theorem insert_str_w_length_error [Zero C] (w : Nat) (alloc : Nat → Option Nat)
    (m : Mem C) (s str : string_base) (pos1 pos2 n : Nat)
    (hp1 : pos1 ≤ size s) (hp2 : pos2 ≤ size str)
    (h : size s > npos_w w - min n (size str - pos2)) :
    insert_str_w w alloc m s pos1 str pos2 n = .error (.length_error, m, s) := by
  unfold insert_str_w validate_pos_and_off verify_pos
  rw [if_neg (Nat.not_lt.mpr hp1), if_neg (Nat.not_lt.mpr hp2)]
  simp only []
  rw [if_pos h]

/-- C39 at its failing input, with a `size_type` of 16 bits, so that `npos` is
65535. The string `s` is constructed from 65534 characters, in a block of 65535
cells, and `s.insert( 0, str, 0, 5 )` is called with `str` of one character:
`rlen = 1` and `size() = npos - rlen`. The documentation comment says that
`length_error` is thrown; the test of the code is `size() > npos - rlen`, and
the call does not throw it, for any allocator. It goes on: `new_size` is 65535,
the request `new_size + 1` wraps to 0 cells, and the call returns with the
length `npos` and the capacity 0 in the block handed out for 0 cells. -/
theorem insert_str_w_boundary_not_length_error :
    ∃ (m0 : Mem Char) (s0 : string_base),
      ctor_cstr_n_w 16 round_up 65535 alloc_w16 alloc_w16 ab_mem 200000 65534 = .ok (m0, s0) ∧
      s0 = wide16_str ∧
      0 ≤ size s0 ∧ 0 ≤ size b_str ∧ min 5 (size b_str - 0) = 1 ∧
      size s0 ≥ npos_w 16 - min 5 (size b_str - 0) ∧
      (∀ (alloc : Nat → Option Nat) (m' : Mem Char) (s' : string_base),
        insert_str_w 16 alloc m0 s0 0 b_str 0 5 ≠ .error (.length_error, m', s')) ∧
      insert_str_w 16 alloc_none m0 s0 0 b_str 0 5 = .error (.bad_alloc, m0, s0) ∧
      ∃ (m1 : Mem Char) (s1 : string_base),
        insert_str_w 16 alloc_w16 m0 s0 0 b_str 0 5 = .ok (m1, s1) ∧
        size s1 = npos_w 16 ∧ capacity s1 = 0 ∧ data s1 = 100000 :=
  ⟨_, _, rfl, by decide, by decide, by decide, by decide, by decide,
    fun alloc m' s' =>
      insert_str_w_no_length_error 16 alloc _ _ b_str 0 0 5 (by decide) m' s',
    rfl, _, _, rfl, by decide, by decide, by decide⟩

end basic_string

end gstl
